import Mathlib

/-!
# ChatBotCW: retrieval engine and ingestion loop

A shallow embedding of `internal/vectorstore/store.go` (hybrid scoring and
ranking) and of the ingestion loop of `cmd/api/main.go`.

Conventions of the embedding.

* A Go `string` holding text is a `List Char` (a valid UTF-8 text); `len` is
  the number of bytes of its UTF-8 encoding.
* `float32` and `float64` are IEEE-754 binary32 and binary64 values,
  represented as `GoFloat`: NaN, an infinity, or a signed dyadic number
  `(-1)^neg * m * 2^e`. Every arithmetic operation computes the exact result
  and rounds it once, to nearest, ties to even (no fused multiply-add).
* Library functions whose tables or algorithm are not part of the repository
  (`unicode.ToLower` outside ASCII, `sort.Slice`) are parameters.
-/

namespace ChatBotCW

/-! ## IEEE-754 arithmetic -/

/-- A floating-point value: NaN, a signed infinity, or the finite number
`(-1)^neg * m * 2^e`. Finite results of the operations below are kept in
lowest terms (`m` odd, or `m = 0` and `e = 0`). -/
inductive GoFloat where
  | nan : GoFloat
  | inf (neg : Bool) : GoFloat
  | fin (neg : Bool) (m : Nat) (e : Int) : GoFloat
  deriving DecidableEq, Repr

/-- A binary interchange format: precision in bits, and the exponents of the
smallest and of the largest quantum (unit in the last place). -/
structure Format where
  prec : Nat
  emin : Int
  emax : Int
  deriving DecidableEq, Repr

/-- The format of Go's `float64`. -/
def binary64 : Format := ⟨53, -1074, 971⟩

/-- The format of Go's `float32`. -/
def binary32 : Format := ⟨24, -149, 104⟩

/-- Number of binary digits of `n`, by repeated halving (`fuel` bounds the
number of halvings). -/
def bitLenAux : Nat → Nat → Nat
  | 0, _ => 0
  | fuel + 1, n => if n = 0 then 0 else bitLenAux fuel (n / 2) + 1

/-- Number of binary digits of `n` (`0` for `0`). -/
def bitLen (n : Nat) : Nat := bitLenAux n n

/-- The integer `⌊log₂ (N / D)⌋` for positive `N` and `D`. -/
def floorLog2 (N D : Nat) : Int :=
  let l : Int := (bitLen N : Int) - (bitLen D : Int)
  if D * 2 ^ l.toNat ≤ N * 2 ^ (-l).toNat then l else l - 1

/-- The integer nearest to `N / D`, ties to even. -/
def roundNearestEven (N D : Nat) : Nat :=
  let q := N / D
  let r := N % D
  if 2 * r < D then q
  else if D < 2 * r then q + 1
  else if q % 2 = 0 then q else q + 1

/-- Removes the trailing zero bits of a positive mantissa. -/
def stripZeros : Nat → Nat → Int → Nat × Int
  | 0, m, e => (m, e)
  | fuel + 1, m, e => if m % 2 = 0 then stripZeros fuel (m / 2) (e + 1) else (m, e)

/-- The finite value `(-1)^neg * m * 2^e` in lowest terms. -/
def normalize (neg : Bool) (m : Nat) (e : Int) : GoFloat :=
  if m = 0 then .fin neg 0 0
  else .fin neg (stripZeros m m e).1 (stripZeros m m e).2

/-- The value `(-1)^neg * (N / D) * 2^x` rounded to the format `f`, to nearest,
ties to even, with gradual underflow and overflow to infinity. -/
def roundTo (f : Format) (neg : Bool) (N D : Nat) (x : Int) : GoFloat :=
  if N = 0 then .fin neg 0 0
  else
    let t : Int := max (floorLog2 N D + x - ((f.prec : Int) - 1)) f.emin
    let s : Int := x - t
    let m := roundNearestEven (N * 2 ^ s.toNat) (D * 2 ^ (-s).toNat)
    if f.emax < t ∨ (t = f.emax ∧ 2 ^ f.prec ≤ m) then .inf neg
    else normalize neg m t

namespace GoFloat

/-- Test `x == 0`. -/
def isZero : GoFloat → Bool
  | fin _ 0 _ => true
  | _ => false

/-- Test `x != x`. -/
def isNaN : GoFloat → Bool
  | nan => true
  | _ => false

/-- Addition rounded to the format `f`. -/
def add (f : Format) : GoFloat → GoFloat → GoFloat
  | nan, _ => nan
  | _, nan => nan
  | inf a, inf b => if a = b then inf a else nan
  | inf a, fin _ _ _ => inf a
  | fin _ _ _, inf b => inf b
  | fin n1 m1 e1, fin n2 m2 e2 =>
    if m1 = 0 ∧ m2 = 0 then fin (n1 && n2) 0 0
    else
      let x := min e1 e2
      let A := m1 * 2 ^ (e1 - x).toNat
      let B := m2 * 2 ^ (e2 - x).toNat
      if n1 = n2 then roundTo f n1 (A + B) 1 x
      else if A = B then fin false 0 0
      else if B < A then roundTo f n1 (A - B) 1 x
      else roundTo f n2 (B - A) 1 x

/-- Multiplication rounded to the format `f`. -/
def mul (f : Format) : GoFloat → GoFloat → GoFloat
  | nan, _ => nan
  | _, nan => nan
  | inf a, inf b => inf (xor a b)
  | inf a, fin n m _ => if m = 0 then nan else inf (xor a n)
  | fin n m _, inf b => if m = 0 then nan else inf (xor n b)
  | fin n1 m1 e1, fin n2 m2 e2 => roundTo f (xor n1 n2) (m1 * m2) 1 (e1 + e2)

/-- Division rounded to the format `f`. -/
def div (f : Format) : GoFloat → GoFloat → GoFloat
  | nan, _ => nan
  | _, nan => nan
  | inf _, inf _ => nan
  | inf a, fin n _ _ => inf (xor a n)
  | fin n _ _, inf b => fin (xor n b) 0 0
  | fin n1 m1 e1, fin n2 m2 e2 =>
    if m2 = 0 then (if m1 = 0 then nan else inf (xor n1 n2))
    else roundTo f (xor n1 n2) m1 m2 (e1 - e2)

/-- Comparison `x < y`. -/
def lt : GoFloat → GoFloat → Bool
  | nan, _ => false
  | _, nan => false
  | inf a, inf b => a && !b
  | inf a, fin _ _ _ => a
  | fin _ _ _, inf b => !b
  | fin n1 m1 e1, fin n2 m2 e2 =>
    let x := min e1 e2
    let A := m1 * 2 ^ (e1 - x).toNat
    let B := m2 * 2 ^ (e2 - x).toNat
    match n1, n2 with
    | false, false => decide (A < B)
    | true, true => decide (B < A)
    | true, false => decide (0 < A ∨ 0 < B)
    | false, true => false

/-- Comparison `x > y`. -/
def gt (x y : GoFloat) : Bool := lt y x

end GoFloat

/-- Integer square root by bisection on the bits `2^(k-1), ..., 2, 1`:
the largest `r` extending `acc` with `r * r ≤ n`. -/
def isqrtAux (n : Nat) : Nat → Nat → Nat
  | 0, acc => acc
  | k + 1, acc =>
    if (acc + 2 ^ k) * (acc + 2 ^ k) ≤ n then isqrtAux n k (acc + 2 ^ k)
    else isqrtAux n k acc

/-- The integer `⌊√n⌋`. -/
def isqrt (n : Nat) : Nat := isqrtAux n (bitLen n) 0

/-- Go's `math.Sqrt`: the correctly rounded square root. The mantissa is
scaled to at least 108 bits, so that the integer root `S` has more than
`prec + 1` bits and `S` or `S + 1/2` rounds like the real root. -/
def mathSqrt : GoFloat → GoFloat
  | .nan => .nan
  | .inf neg => if neg then .nan else .inf false
  | .fin neg m e =>
    if m = 0 then .fin neg 0 0
    else if neg then .nan
    else
      let a : Int := if e % 2 = 0 then 108 else 109
      let A := m * 2 ^ a.toNat
      let S := isqrt A
      let N := 2 * S + (if S * S = A then 0 else 1)
      roundTo binary64 false N 1 ((e - a) / 2 - 1)

/-- Go's `math.Min`. -/
def mathMin (x y : GoFloat) : GoFloat :=
  if x = .inf true ∨ y = .inf true then .inf true
  else if x.isNaN ∨ y.isNaN then .nan
  else if x.isZero ∧ y.isZero then
    (match x with
     | .fin true _ _ => x
     | _ => y)
  else if x.lt y then x else y

/-- Conversion `float64(n)` of a Go `int`. -/
def ofInt (n : Int) : GoFloat := roundTo binary64 (decide (n < 0)) n.natAbs 1 0

/-- The `float64` value of the decimal constant `N / D` of the source text. -/
def f64const (N D : Nat) : GoFloat := roundTo binary64 false N D 0

/-- Sum `x + y` of two `float64`. -/
def add64 (x y : GoFloat) : GoFloat := GoFloat.add binary64 x y

/-- Product `x * y` of two `float64`. -/
def mul64 (x y : GoFloat) : GoFloat := GoFloat.mul binary64 x y

/-- Quotient `x / y` of two `float64`. -/
def div64 (x y : GoFloat) : GoFloat := GoFloat.div binary64 x y

/-- The expression `float64(x * y)` for `float32` operands: the product is
rounded to `float32`; the conversion to `float64` is exact. -/
def mul32 (x y : GoFloat) : GoFloat := GoFloat.mul binary32 x y

/-- The `float64` zero value, the initial value of a `var x float64`. -/
def zero64 : GoFloat := .fin false 0 0

/-- Comparison `x <= y`: false when an operand is NaN. -/
def GoFloat.le (x y : GoFloat) : Bool := !x.isNaN && !y.isNaN && !GoFloat.lt y x

/-- Comparison `x == y`: false when an operand is NaN; `+0` and `-0` are
equal. -/
def GoFloat.equal (x y : GoFloat) : Bool :=
  !x.isNaN && !y.isNaN && !GoFloat.lt x y && !GoFloat.lt y x

/-! ## Strings -/

/-- Go's `len(s)` for a text: the number of bytes of its UTF-8 encoding. -/
def len (s : List Char) : Nat := (s.map Char.utf8Size).sum

/-- Go's `unicode.IsSpace`. -/
def isSpace (c : Char) : Bool :=
  c.val = 0x09 || c.val = 0x0A || c.val = 0x0B || c.val = 0x0C || c.val = 0x0D ||
  c.val = 0x20 || c.val = 0x85 || c.val = 0xA0 || c.val = 0x1680 ||
  (0x2000 ≤ c.val && c.val ≤ 0x200A) || c.val = 0x2028 || c.val = 0x2029 ||
  c.val = 0x202F || c.val = 0x205F || c.val = 0x3000

/-- Go's `strings.TrimSpace`: drops the leading and the trailing white space. -/
def TrimSpace (s : List Char) : List Char :=
  ((s.dropWhile isSpace).reverse.dropWhile isSpace).reverse

/-- Go's `unicode.ToLower` on one rune. On ASCII it maps `A`..`Z` to
`a`..`z`; outside ASCII it follows the Unicode case tables, which are the
parameter `tbl`. -/
def lowerRune (tbl : Char → Char) (c : Char) : Char :=
  if c.val < 128 then c.toLower else tbl c

/-- Go's `strings.ToLower`. -/
def ToLower (tbl : Char → Char) (s : List Char) : List Char := s.map (lowerRune tbl)

/-- Go's `strings.HasPrefix s p`. -/
def startsWith : List Char → List Char → Bool
  | _, [] => true
  | [], _ :: _ => false
  | c :: s, d :: p => c = d && startsWith s p

/-- Go's `strings.Contains s substr`. -/
def Contains : List Char → List Char → Bool
  | [], substr => substr.isEmpty
  | c :: s, substr => startsWith (c :: s) substr || Contains s substr

/-! ## Data model -/

/-- Modelled from the spec: the type `models.Document` (package `pkg/models`),
with the fields the code reads and writes: id, content, source URL and
embedding vector (a `[]float32`). -/
structure Document where
  ID : List Char
  Content : List Char
  Source : List Char
  Vector : List GoFloat
  deriving DecidableEq, Repr

/-- The type `Store` of `store.go`. -/
structure Store where
  Data : List Document
  deriving DecidableEq, Repr

/-- `NewStore`. -/
def NewStore (docs : List Document) : Store := ⟨docs⟩

/-! ## Cosine similarity -/

/-- The accumulation loop of `CosineSimilarity` over the common indices of
`a` and `b`, on the triple `(dotProduct, normA, normB)`. -/
def cosineLoop : List GoFloat → List GoFloat → GoFloat × GoFloat × GoFloat →
    GoFloat × GoFloat × GoFloat
  | x :: a, y :: b, (dotProduct, normA, normB) =>
    cosineLoop a b (add64 dotProduct (mul32 x y), add64 normA (mul32 x x),
      add64 normB (mul32 y y))
  | _, _, acc => acc

/-- `CosineSimilarity(a, b []float32) float64`. -/
def CosineSimilarity (a b : List GoFloat) : GoFloat :=
  if a.length ≠ b.length then zero64
  else
    let acc := cosineLoop a b (zero64, zero64, zero64)
    if acc.2.1.isZero || acc.2.2.isZero then zero64
    else div64 acc.1 (mul64 (mathSqrt acc.2.1) (mathSqrt acc.2.2))

/-! ## Scoring -/

/-- The local `productKeywords` of `SearchWithKeywords`. -/
def productKeywords : List (List Char) :=
  ["produto".toList, "serviço".toList, "solução".toList, "oferece".toList,
   "maquininha".toList, "infinitepay".toList, "stratus".toList, "conta".toList,
   "digital".toList, "pagamento".toList, "pix".toList, "cartão".toList]

/-- The local `companyKeywords` of `SearchWithKeywords`. -/
def companyKeywords : List (List Char) :=
  ["cloudwalk".toList, "empresa".toList, "fintech".toList, "tecnologia".toList,
   "missão".toList, "objetivo".toList, "atua".toList]

/-- `queryKeywordHits`: the keywords of the question whose lower-cased form
occurs in `contentLower` (each list entry counts once). -/
def queryKeywordHits (tbl : Char → Char) (contentLower : List Char)
    (keywords : List (List Char)) : Nat :=
  keywords.countP (fun keyword => Contains contentLower (ToLower tbl keyword))

/-- `productHits` and `companyHits`: the entries of a fixed list that occur in
`contentLower`. -/
def fixedHits (contentLower : List Char) (fixed : List (List Char)) : Nat :=
  fixed.countP (fun keyword => Contains contentLower keyword)

/-- `lengthScore := math.Min(float64(len(doc.Content))/500.0, 2.0)`. -/
def lengthScore (content : List Char) : GoFloat :=
  mathMin (div64 (ofInt (len content)) (f64const 500 1)) (f64const 2 1)

/-- `densityBoost`: `1.0` if `productHits >= 3 || companyHits >= 3`, else `0.0`. -/
def densityBoost (productHits companyHits : Nat) : GoFloat :=
  if 3 ≤ productHits ∨ 3 ≤ companyHits then f64const 1 1 else f64const 0 1

/-- The weighted sum of `SearchWithKeywords`, evaluated left to right:
`baseScore*0.1 + queryKeywordHits*2.0 + productHits*1.5 + companyHits*1.0 +
lengthScore*0.3 + densityBoost`. -/
def weightedSum (baseScore : GoFloat) (queryHits productHits companyHits : Nat)
    (lengthSc density : GoFloat) : GoFloat :=
  add64 (add64 (add64 (add64 (add64
    (mul64 baseScore (f64const 1 10))
    (mul64 (ofInt queryHits) (f64const 2 1)))
    (mul64 (ofInt productHits) (f64const 3 2)))
    (mul64 (ofInt companyHits) (f64const 1 1)))
    (mul64 lengthSc (f64const 3 10)))
    density

/-- The `finalScore` that the loop body of `SearchWithKeywords` computes for
`doc`. -/
def finalScore (tbl : Char → Char) (queryVector : List GoFloat)
    (keywords : List (List Char)) (doc : Document) : GoFloat :=
  let contentLower := ToLower tbl doc.Content
  let baseScore := CosineSimilarity queryVector doc.Vector
  let productHits := fixedHits contentLower productKeywords
  let companyHits := fixedHits contentLower companyKeywords
  weightedSum baseScore (queryKeywordHits tbl contentLower keywords) productHits
    companyHits (lengthScore doc.Content) (densityBoost productHits companyHits)

/-- The local type `result` of `SearchWithKeywords` (the `debugInfo` text is
only printed and is left out). -/
structure result where
  doc : Document
  score : GoFloat
  keywordHits : Nat
  deriving DecidableEq, Repr

/-- The body of the scoring loop for one document: the entry appended to
`results`, if the document passes `finalScore > 0.1`. -/
def scoreDoc (tbl : Char → Char) (queryVector : List GoFloat)
    (keywords : List (List Char)) (doc : Document) : Option result :=
  let contentLower := ToLower tbl doc.Content
  let productHits := fixedHits contentLower productKeywords
  let companyHits := fixedHits contentLower companyKeywords
  let fs := finalScore tbl queryVector keywords doc
  if fs.gt (f64const 1 10) then
    some ⟨doc, fs, queryKeywordHits tbl contentLower keywords + productHits + companyHits⟩
  else none

/-- The comparison given to `sort.Slice`: `results[i].score > results[j].score`. -/
def byScore (x y : result) : Bool := x.score.gt y.score

/-- `Store.SearchWithKeywords`. The sorting routine `sort.Slice` of the
standard library is the parameter `sortSlice`. -/
def SearchWithKeywords (sortSlice : (result → result → Bool) → List result → List result)
    (tbl : Char → Char) (s : Store) (queryVector : List GoFloat)
    (keywords : List (List Char)) : List Document :=
  let results := s.Data.filterMap (scoreDoc tbl queryVector keywords)
  let sorted := sortSlice byScore results
  (sorted.take 20).map (fun r => r.doc)

/-- `Store.Search`: the search with the fixed keywords. -/
def Search (sortSlice : (result → result → Bool) → List result → List result)
    (tbl : Char → Char) (s : Store) (queryVector : List GoFloat) : List Document :=
  SearchWithKeywords sortSlice tbl s queryVector
    ["cloudwalk".toList, "produto".toList, "serviço".toList]

/-! ## The sorting routine of the standard library

`sort.Slice(x, less)` runs `pdqsort_func` of Go's package `sort` (Go 1.19 and
later) on the index range `[0, len(x))`, with depth limit `bits.Len(len(x))`.
The routine reads the slice only through `Less(i, j)` and changes it only
through `Swap(i, j)`. Loops are unrolled with a counter that bounds the number
of iterations. -/

section pdqsort

variable {α : Type}

/-- `data.Swap(i, j)`. -/
def Swap (data : List α) (i j : Nat) : List α :=
  match data[i]?, data[j]? with
  | some x, some y => (data.set i y).set j x
  | _, _ => data

/-- `data.Less(i, j)`. -/
def Less (less : α → α → Bool) (data : List α) (i j : Nat) : Bool :=
  match data[i]?, data[j]? with
  | some x, some y => less x y
  | _, _ => false

/-- The inner loop of `insertionSort_func`:
`for j := i; j > a && data.Less(j, j-1); j-- { data.Swap(j, j-1) }`. -/
def insertionSort_inner (less : α → α → Bool) (a : Nat) : Nat → List α → List α
  | 0, data => data
  | j + 1, data =>
    if a < j + 1 ∧ Less less data (j + 1) j then
      insertionSort_inner less a j (Swap data (j + 1) j)
    else data

/-- The outer loop of `insertionSort_func`: `for i := a + 1; i < b; i++`. -/
def insertionSort_outer (less : α → α → Bool) (a b : Nat) : Nat → Nat → List α → List α
  | 0, _, data => data
  | n + 1, i, data =>
    if i < b then insertionSort_outer less a b n (i + 1) (insertionSort_inner less a i data)
    else data

/-- `insertionSort_func(data, a, b)`. -/
def insertionSort_func (less : α → α → Bool) (data : List α) (a b : Nat) : List α :=
  insertionSort_outer less a b (b - a) (a + 1) data

/-- `siftDown_func(data, lo, hi, first)`, started at `root = lo`. -/
def siftDown_func (less : α → α → Bool) (hi first : Nat) : Nat → Nat → List α → List α
  | 0, _, data => data
  | n + 1, root, data =>
    if hi ≤ 2 * root + 1 then data
    else
      let child :=
        if 2 * root + 2 < hi ∧ Less less data (first + (2 * root + 1)) (first + (2 * root + 2))
        then 2 * root + 2 else 2 * root + 1
      if Less less data (first + root) (first + child) then
        siftDown_func less hi first n child (Swap data (first + root) (first + child))
      else data

/-- The first loop of `heapSort_func`, for `i = k - 1` down to `0`. -/
def heapSort_build (less : α → α → Bool) (hi first : Nat) : Nat → List α → List α
  | 0, data => data
  | k + 1, data => heapSort_build less hi first k (siftDown_func less hi first hi k data)

/-- The second loop of `heapSort_func`, for `i = k - 1` down to `0`. -/
def heapSort_pop (less : α → α → Bool) (first : Nat) : Nat → List α → List α
  | 0, data => data
  | k + 1, data =>
    heapSort_pop less first k (siftDown_func less k first k 0 (Swap data first (first + k)))

/-- `heapSort_func(data, a, b)`. -/
def heapSort_func (less : α → α → Bool) (data : List α) (a b : Nat) : List α :=
  heapSort_pop less a (b - a) (heapSort_build less (b - a) a ((b - a - 1) / 2 + 1) data)

/-- The loop `for i <= j && p(i) { i++ }`; returns the final `i`. -/
def scanUp (p : Nat → Bool) (j : Nat) : Nat → Nat → Nat
  | 0, i => i
  | n + 1, i => if i ≤ j ∧ p i then scanUp p j n (i + 1) else i

/-- The loop `for i <= j && p(j) { j-- }`; returns the final `j`. -/
def scanDown (p : Nat → Bool) (i : Nat) : Nat → Nat
  | 0 => 0
  | j + 1 => if i ≤ j + 1 ∧ p (j + 1) then scanDown p i j else j + 1

/-- The main loop of `partition_func`; returns the slice and the final `j`. -/
def partition_loop (less : α → α → Bool) (a : Nat) : Nat → List α → Nat → Nat → List α × Nat
  | 0, data, _, j => (data, j)
  | n + 1, data, i, j =>
    let i1 := scanUp (fun k => Less less data k a) j (j + 1 - i) i
    let j1 := scanDown (fun k => !Less less data k a) i1 j
    if j1 < i1 then (data, j1)
    else partition_loop less a n (Swap data i1 j1) (i1 + 1) (j1 - 1)

/-- `partition_func(data, a, b, pivot)`; returns the slice, the new position
of the pivot and the flag `alreadyPartitioned`. -/
def partition_func (less : α → α → Bool) (data : List α) (a b pivot : Nat) :
    List α × Nat × Bool :=
  let data := Swap data a pivot
  let i := scanUp (fun k => Less less data k a) (b - 1) (b - a) (a + 1)
  let j := scanDown (fun k => !Less less data k a) i (b - 1)
  if j < i then (Swap data j a, j, true)
  else
    let r := partition_loop less a (b - a) (Swap data i j) (i + 1) (j - 1)
    (Swap r.1 r.2 a, r.2, false)

/-- The loop of `partitionEqual_func`; returns the slice and the final `i`. -/
def partitionEqual_loop (less : α → α → Bool) (a : Nat) : Nat → List α → Nat → Nat → List α × Nat
  | 0, data, i, _ => (data, i)
  | n + 1, data, i, j =>
    let i1 := scanUp (fun k => !Less less data a k) j (j + 1 - i) i
    let j1 := scanDown (fun k => Less less data a k) i1 j
    if j1 < i1 then (data, i1)
    else partitionEqual_loop less a n (Swap data i1 j1) (i1 + 1) (j1 - 1)

/-- `partitionEqual_func(data, a, b, pivot)`; returns the slice and `newpivot`. -/
def partitionEqual_func (less : α → α → Bool) (data : List α) (a b pivot : Nat) : List α × Nat :=
  partitionEqual_loop less a (b - a) (Swap data a pivot) (a + 1) (b - 1)

/-- The loop `for j := k; j >= 1; j-- { if !Less(j, j-1) { break }; Swap(j, j-1) }`
of `partialInsertionSort_func`. -/
def shiftLeft (less : α → α → Bool) : Nat → List α → List α
  | 0, data => data
  | j + 1, data =>
    if Less less data (j + 1) j then shiftLeft less j (Swap data (j + 1) j) else data

/-- The loop `for j := i + 1; j < b; j++ { if !Less(j, j-1) { break }; Swap(j, j-1) }`
of `partialInsertionSort_func`. -/
def shiftRight (less : α → α → Bool) (b : Nat) : Nat → Nat → List α → List α
  | 0, _, data => data
  | n + 1, j, data =>
    if j < b ∧ Less less data j (j - 1) then shiftRight less b n (j + 1) (Swap data j (j - 1))
    else data

/-- The loop `for j := 0; j < maxSteps; j++` of `partialInsertionSort_func`,
with `steps` iterations left. -/
def partialInsertionSort_loop (less : α → α → Bool) (a b : Nat) : Nat → Nat → List α → List α × Bool
  | 0, _, data => (data, false)
  | steps + 1, i, data =>
    let i1 := scanUp (fun k => !Less less data k (k - 1)) (b - 1) (b - i) i
    if i1 = b then (data, true)
    else if b - a < 50 then (data, false)
    else
      let data := Swap data i1 (i1 - 1)
      let data := if 2 ≤ i1 - a then shiftLeft less (i1 - 1) data else data
      let data := if 2 ≤ b - i1 then shiftRight less b (b - i1) (i1 + 1) data else data
      partialInsertionSort_loop less a b steps i1 data

/-- `partialInsertionSort_func(data, a, b)` (`maxSteps = 5`). -/
def partialInsertionSort_func (less : α → α → Bool) (data : List α) (a b : Nat) : List α × Bool :=
  partialInsertionSort_loop less a b 5 (a + 1) data

/-- The step `Next` of the generator `xorshift` (on `uint64`):
`r ^= r << 13; r ^= r >> 7; r ^= r << 17`. -/
def xorshiftNext (r : Nat) : Nat :=
  let r := Nat.xor r ((r * 2 ^ 13) % 2 ^ 64)
  let r := Nat.xor r (r / 2 ^ 7)
  Nat.xor r ((r * 2 ^ 17) % 2 ^ 64)

/-- The three swaps of `breakPatterns_func`, from the generator state `random`:
the loop body is `other := int(uint(random.Next()) & (modulus - 1))`, then
`other -= length` if `other >= length`, then `data.Swap(idx-1+i, a+other)`. -/
def breakPatterns_loop (a length modulus idx : Nat) : Nat → Nat → Nat → List α → List α
  | 0, _, _, data => data
  | n + 1, i, random, data =>
    let random := xorshiftNext random
    let other := random % modulus
    let other := if length ≤ other then other - length else other
    breakPatterns_loop a length modulus idx n (i + 1) random (Swap data (idx - 1 + i) (a + other))

/-- `breakPatterns_func(data, a, b)`: for `length >= 8`, with
`random := xorshift(length)`, `modulus := nextPowerOfTwo(length)` and
`idx := a + (length/4)*2 - 1`. -/
def breakPatterns_func (data : List α) (a b : Nat) : List α :=
  if 8 ≤ b - a then
    breakPatterns_loop a (b - a) (2 ^ bitLen (b - a)) (a + (b - a) / 4 * 2 - 1) 3 0 (b - a) data
  else data

/-- `order2_func(data, a, b, swaps)`. -/
def order2_func (less : α → α → Bool) (data : List α) (a b swaps : Nat) : Nat × Nat × Nat :=
  if Less less data b a then (b, a, swaps + 1) else (a, b, swaps)

/-- `median_func(data, a, b, c, swaps)`; returns the index and the counter. -/
def median_func (less : α → α → Bool) (data : List α) (a b c swaps : Nat) : Nat × Nat :=
  let r1 := order2_func less data a b swaps
  let r2 := order2_func less data r1.2.1 c r1.2.2
  let r3 := order2_func less data r1.1 r2.1 r2.2.2
  (r3.2.1, r3.2.2)

/-- `medianAdjacent_func(data, a, swaps)`. -/
def medianAdjacent_func (less : α → α → Bool) (data : List α) (a swaps : Nat) : Nat × Nat :=
  median_func less data (a - 1) a (a + 1) swaps

/-- The hints of `choosePivot_func`. -/
inductive sortedHint where
  | unknownHint
  | increasingHint
  | decreasingHint
  deriving DecidableEq, Repr

/-- `choosePivot_func(data, a, b)`. -/
def choosePivot_func (less : α → α → Bool) (data : List α) (a b : Nat) : Nat × sortedHint :=
  let l := b - a
  let i := a + l / 4 * 1
  let j := a + l / 4 * 2
  let k := a + l / 4 * 3
  let r : Nat × Nat :=
    if 8 ≤ l then
      if 50 ≤ l then
        let ri := medianAdjacent_func less data i 0
        let rj := medianAdjacent_func less data j ri.2
        let rk := medianAdjacent_func less data k rj.2
        median_func less data ri.1 rj.1 rk.1 rk.2
      else median_func less data i j k 0
    else (j, 0)
  if r.2 = 0 then (r.1, .increasingHint)
  else if r.2 = 12 then (r.1, .decreasingHint)
  else (r.1, .unknownHint)

/-- The loop of `reverseRange_func`: `for i < j { Swap(i, j); i++; j-- }`. -/
def reverseRange_loop : Nat → Nat → Nat → List α → List α
  | 0, _, _, data => data
  | n + 1, i, j, data => if i < j then reverseRange_loop n (i + 1) (j - 1) (Swap data i j) else data

/-- `reverseRange_func(data, a, b)`. -/
def reverseRange_func (data : List α) (a b : Nat) : List α :=
  reverseRange_loop (b - a) a (b - 1) data

/-- `pdqsort_func(data, a, b, limit)`. One unfolding is one iteration of its
loop, in the state `(a, b, limit, wasBalanced, wasPartitioned)`; the recursive
call on the shorter side starts with both flags set. -/
def pdqsort_func (less : α → α → Bool) : Nat → List α → Nat → Nat → Nat → Bool → Bool → List α
  | 0, data, _, _, _, _, _ => data
  | fuel + 1, data, a, b, limit, wasBalanced, wasPartitioned =>
    if b - a ≤ 12 then insertionSort_func less data a b
    else if limit = 0 then heapSort_func less data a b
    else
      let data1 := if wasBalanced then data else breakPatterns_func data a b
      let limit1 := if wasBalanced then limit else limit - 1
      let ph := choosePivot_func less data1 a b
      let data2 := if ph.2 = .decreasingHint then reverseRange_func data1 a b else data1
      let pivot := if ph.2 = .decreasingHint then (b - 1) - (ph.1 - a) else ph.1
      let hint := if ph.2 = .decreasingHint then sortedHint.increasingHint else ph.2
      let pis := if wasBalanced ∧ wasPartitioned ∧ hint = .increasingHint
        then partialInsertionSort_func less data2 a b else (data2, false)
      if pis.2 then pis.1
      else if 0 < a ∧ ¬ Less less pis.1 (a - 1) pivot then
        let pe := partitionEqual_func less pis.1 a b pivot
        pdqsort_func less fuel pe.1 pe.2 b limit1 wasBalanced wasPartitioned
      else
        let pt := partition_func less pis.1 a b pivot
        let mid := pt.2.1
        if mid - a < b - mid then
          pdqsort_func less fuel (pdqsort_func less fuel pt.1 a mid limit1 true true)
            (mid + 1) b limit1 (decide ((b - a) / 8 ≤ mid - a)) pt.2.2
        else
          pdqsort_func less fuel (pdqsort_func less fuel pt.1 (mid + 1) b limit1 true true)
            a mid limit1 (decide ((b - a) / 8 ≤ b - mid)) pt.2.2

/-- `sort.Slice(x, less)`. -/
def sortSlice (less : α → α → Bool) (x : List α) : List α :=
  pdqsort_func less (x.length + 1) x 0 x.length (bitLen x.length) true true

end pdqsort

/-! ## Ingestion loop of `main` -/

/-- The decimal digit `d` as a character. -/
def digitChar (d : Nat) : Char := Char.ofNat (48 + d)

/-- The decimal digits of `n` in front of `acc`. -/
def decimalAux : Nat → Nat → List Char → List Char
  | 0, _, acc => acc
  | fuel + 1, n, acc =>
    if n < 10 then digitChar n :: acc
    else decimalAux fuel (n / 10) (digitChar (n % 10) :: acc)

/-- The verb `%d` of `fmt.Sprintf` on a non-negative index. -/
def decimal (n : Nat) : List Char := decimalAux (n + 1) n []

/-- The identifier `fmt.Sprintf("doc_%d", i)`. -/
def docID (i : Nat) : List Char := "doc_".toList ++ decimal i

/-- The loop `for i, doc := range rawDocs` of `main`, from index `i` on; the
result is what the loop appends to `docsWithEmbeddings`. The outcome of the
call `geminiService.GenerateEmbedding(ctx, cleanContent)` made for passage `i`
is `embed i cleanContent` (`none` for an error). -/
def ingestFrom (embed : Nat → List Char → Option (List GoFloat)) :
    Nat → List Document → List Document
  | _, [] => []
  | i, doc :: rawDocs =>
    let cleanContent := TrimSpace doc.Content
    if len cleanContent < 20 then ingestFrom embed (i + 1) rawDocs
    else
      match embed i cleanContent with
      | none => ingestFrom embed (i + 1) rawDocs
      | some embedding =>
        { doc with Vector := embedding, ID := docID i } :: ingestFrom embed (i + 1) rawDocs

/-- The ingestion loop of `main` on the crawler output `rawDocs`, started with
an empty `docsWithEmbeddings`. -/
def ingest (embed : Nat → List Char → Option (List GoFloat)) (rawDocs : List Document) :
    List Document :=
  ingestFrom embed 0 rawDocs

/-! ## Specification vocabulary -/

/-- The rational value of the finite number `(-1)^neg * m * 2^e`. -/
def finVal (neg : Bool) (m : Nat) (e : Int) : ℚ :=
  (if neg then -1 else 1) * (m : ℚ) * (2 : ℚ) ^ e

/-- The position of a value on the extended rational line (NaN is sent to the
bottom; it is never compared). -/
def GoFloat.key : GoFloat → WithBot (WithTop ℚ)
  | .nan => ⊥
  | .inf true => ⊥
  | .inf false => ((⊤ : WithTop ℚ) : WithBot (WithTop ℚ))
  | .fin neg m e => ((finVal neg m e : WithTop ℚ) : WithBot (WithTop ℚ))

/-- A value that is a number or an infinity, but neither NaN nor `-Inf`. -/
def GoFloat.ordered : GoFloat → Prop
  | .nan => False
  | .inf neg => neg = false
  | .fin _ _ _ => True

/-- The requirement of `sort.Interface` on `Less`, for the elements of `l`:
a strict weak ordering (irreflexive, transitive, and with a transitive
incomparability). -/
def LessOrdering {α : Type} (less : α → α → Bool) (l : List α) : Prop :=
  (∀ x ∈ l, less x x = false) ∧
  (∀ x ∈ l, ∀ y ∈ l, ∀ z ∈ l, less x y = true → less y z = true → less x z = true) ∧
  (∀ x ∈ l, ∀ y ∈ l, ∀ z ∈ l, less x y = false → less y z = false → less x z = false)

/-- The documented contract of `sort.Slice`: when `less` is a strict weak
ordering of the elements, the sorted slice is a rearrangement of the input in
which no element is `less` than an earlier one. Stability is not part of it. -/
def SortSliceSpec (srt : (result → result → Bool) → List result → List result) : Prop :=
  ∀ less l, LessOrdering less l →
    (srt less l).Perm l ∧ (srt less l).Pairwise (fun x y => less y x = false)

/-- Insertion of `x` into a sorted list, after the elements that are not
larger. -/
def insertSorted {α : Type} (less : α → α → Bool) (x : α) : List α → List α
  | [] => [x]
  | y :: l => if less x y then x :: y :: l else y :: insertSorted less x l

/-- A reference sorting routine that meets `SortSliceSpec`. -/
def referenceSort {α : Type} (less : α → α → Bool) : List α → List α
  | [] => []
  | x :: l => insertSorted less x (referenceSort less l)

/-- The document passes the threshold `finalScore > 0.1`. -/
def passes (tbl : Char → Char) (queryVector : List GoFloat) (keywords : List (List Char))
    (doc : Document) : Bool :=
  (finalScore tbl queryVector keywords doc).gt (f64const 1 10)

/-- A property of slices kept by every swap of two neighbours `y, x` with
`less x y`. -/
def KeptBySwaps {α : Type} (less : α → α → Bool) (P : List α → Prop) : Prop :=
  ∀ pre post x y, less x y = true → P (pre ++ y :: x :: post) → P (pre ++ x :: y :: post)

/-- Ties are in store order: for every score `v`, the returned documents with
`finalScore = v` come in the order in which they stand in the store. -/
def tiesInStoreOrder (tbl : Char → Char) (queryVector : List GoFloat)
    (keywords : List (List Char)) (store returned : List Document) : Prop :=
  ∀ v : GoFloat,
    (returned.filter (fun d => decide (finalScore tbl queryVector keywords d = v))).Sublist store

/-- A store of thirteen passages: twelve times the text `pix`, then the text
`conta pix`; the identifiers are `doc_0`, ..., `doc_12`. -/
def tieStore : Store :=
  ⟨(List.range 13).map (fun i =>
    ⟨docID i, if i = 12 then "conta pix".toList else "pix".toList, [], []⟩)⟩

/-- The scan of Go's `strings.Fields`: `cur` holds the current field, reversed. -/
def fieldsAux : List Char → List Char → List (List Char)
  | [], cur => if cur.isEmpty then [] else [cur.reverse]
  | c :: s, cur =>
    if isSpace c then (if cur.isEmpty then fieldsAux s [] else cur.reverse :: fieldsAux s [])
    else fieldsAux s (c :: cur)

/-- Go's `strings.Fields`: the maximal runs of characters that are not white
space. -/
def Fields (s : List Char) : List (List Char) := fieldsAux s []

/-- The normalisation of `scraper.go`:
`strings.Join(strings.Fields(strings.TrimSpace(text)), " ")`, that is the text
trimmed of leading and trailing white space, with every run of white space
collapsed to one blank. -/
def normalizeText (text : List Char) : List Char :=
  " ".toList.intercalate (Fields (TrimSpace text))

/-! ## Rounding, as a relation on values -/

/-- Sign change. -/
def GoFloat.neg : GoFloat → GoFloat
  | .nan => .nan
  | .inf b => .inf (!b)
  | .fin n m e => .fin (!n) m e

/-- `m` is the integer nearest to `u`, ties to even. -/
def NearestEven (m : Nat) (u : ℚ) : Prop :=
  (m : ℚ) ≤ u + 1 / 2 ∧ u - 1 / 2 ≤ (m : ℚ) ∧
  ((m : ℚ) = u + 1 / 2 → m % 2 = 0) ∧ ((m : ℚ) = u - 1 / 2 → m % 2 = 0)

/-- `k` is the position of the positive rational `v` rounded to the format `f`:
with `2^E ≤ v < 2^(E+1)` and the quantum `2^t`, `t = max (E - (prec - 1)) emin`,
the mantissa `M` is the integer nearest to `v / 2^t`, ties to even; the result
is `+Inf` when `M * 2^t` exceeds the largest finite number. -/
def Rounds (f : Format) (v : ℚ) (k : WithBot (WithTop ℚ)) : Prop :=
  ∃ (E t : Int) (M : Nat), (2 : ℚ) ^ E ≤ v ∧ v < (2 : ℚ) ^ (E + 1) ∧
    t = max (E - ((f.prec : Int) - 1)) f.emin ∧ NearestEven M (v / (2 : ℚ) ^ t) ∧
    k = if f.emax < t ∨ (t = f.emax ∧ 2 ^ f.prec ≤ M) then
        ((⊤ : WithTop ℚ) : WithBot (WithTop ℚ))
      else (((M : ℚ) * (2 : ℚ) ^ t : ℚ) : WithTop ℚ)

/-- The value `y` is the rational `q` rounded to the format `f`. -/
def RoundsQ (f : Format) (q : ℚ) (y : GoFloat) : Prop :=
  y.isNaN = false ∧
  ((q = 0 ∧ y.key = (((0 : ℚ) : WithTop ℚ) : WithBot (WithTop ℚ))) ∨
   (0 < q ∧ Rounds f q y.key) ∨ (q < 0 ∧ Rounds f (-q) y.neg.key))

/-- The order of the results: `x` is NaN, or `y` is NaN, or `x ≤ y`. -/
def GoFloat.below (x y : GoFloat) : Prop :=
  x.isNaN = true ∨ y.isNaN = true ∨ x.key ≤ y.key

/-! ## Error analysis: grids, unit roundoffs and the component range -/

/-- The rational `x` is an integer multiple of `2^g`. -/
def OnGrid (g : Int) (x : ℚ) : Prop := ∃ K : Int, x = (K : ℚ) * (2 : ℚ) ^ g

/-- The rational value of a finite number (`0` for NaN and the infinities). -/
def GoFloat.val : GoFloat → ℚ
  | .fin n m e => finVal n m e
  | _ => 0

/-- A finite number whose value is a multiple of `2^(-149)`, the quantum of
the subnormal `float32`. -/
def GridFinite (x : GoFloat) : Prop :=
  (∃ n m e, x = .fin n m e) ∧ OnGrid (-149) x.val

/-- The unit roundoff `2^(-53)` of `float64`. -/
def u64 : ℚ := (2 : ℚ) ^ (-53 : Int)

/-- The unit roundoff `2^(-24)` of `float32`. -/
def u32 : ℚ := (2 : ℚ) ^ (-24 : Int)

/-- A component that is zero or of a magnitude between `2^(-50)` and `2^50`. -/
def inRange : GoFloat → Bool
  | .fin _ m e =>
    m == 0 || (!GoFloat.lt (.fin false m e) (.fin false 1 (-50)) &&
      !GoFloat.lt (.fin false 1 50) (.fin false m e))
  | _ => false

/-! ## Hits and the range of the base score -/

/-- The field `keywordHits` of the entry that the scoring loop builds for
`doc`: `queryKeywordHits + productHits + companyHits`. -/
def keywordHits (tbl : Char → Char) (keywords : List (List Char)) (doc : Document) : Nat :=
  let contentLower := ToLower tbl doc.Content
  queryKeywordHits tbl contentLower keywords + fixedHits contentLower productKeywords +
    fixedHits contentLower companyKeywords

/-- The document has at least one hit: the lower-cased form of a query keyword,
a product keyword or a company keyword occurs in its lower-cased content. -/
def hasHit (tbl : Char → Char) (keywords : List (List Char)) (doc : Document) : Bool :=
  decide (0 < keywordHits tbl keywords doc)

/-- The base score of `doc` is a number between `-(1 + 2^(-20))` and
`1 + 2^(-20)`. -/
def baseInRange (queryVector : List GoFloat) (doc : Document) : Bool :=
  GoFloat.le (.fin true 1048577 (-20)) (CosineSimilarity queryVector doc.Vector) &&
    GoFloat.le (CosineSimilarity queryVector doc.Vector) (.fin false 1048577 (-20))

/-- A query vector of 64 components `2^(-75)`, whose squares underflow to zero
in `float32`, and one component `3 * 2^(-76)`, whose square rounds to the
smallest subnormal `2^(-149)`. -/
def underflowQuery : List GoFloat :=
  List.replicate 64 (.fin false 1 (-75)) ++ [.fin false 3 (-76)]

/-- A store of two passages: `doc_0` with the company keyword `atua` and the
vector `(-1, ..., -1, 0)`, then `doc_1` without any keyword and with the vector
`(1, ..., 1, 0)`. -/
def underflowStore : Store :=
  ⟨[⟨docID 0, "atua".toList, [], List.replicate 64 (.fin true 1 0) ++ [.fin false 0 0]⟩,
    ⟨docID 1, "taxas".toList, [], List.replicate 64 (.fin false 1 0) ++ [.fin false 0 0]⟩]⟩

/-- A store of three passages: `doc_0` without any keyword and with the vector
`(1, 1, 1)`, `doc_1` with a product keyword and the vector `(-1, -1, -1)`,
`doc_2` with a company keyword and a vector of two components. -/
def sampleStore : Store :=
  ⟨[⟨docID 0, "taxas e tarifas".toList, [], [.fin false 1 0, .fin false 1 0, .fin false 1 0]⟩,
    ⟨docID 1, "a maquininha".toList, [], [.fin true 1 0, .fin true 1 0, .fin true 1 0]⟩,
    ⟨docID 2, "onde atua".toList, [], [.fin false 1 0, .fin false 1 0]⟩]⟩

/-! # Theorems -/

/-! ## Order of floating-point values -/

theorem two_zpow_pos (e : Int) : (0 : ℚ) < (2 : ℚ) ^ e := by positivity

theorem scaled_cast (m : Nat) (e x : Int) (h : x ≤ e) :
    ((m * 2 ^ (e - x).toNat : Nat) : ℚ) * (2 : ℚ) ^ x = (m : ℚ) * (2 : ℚ) ^ e := by
  have h1 : ((e - x).toNat : Int) = e - x := Int.toNat_of_nonneg (by omega)
  have h2 : (2 : ℚ) ^ (e - x).toNat = (2 : ℚ) ^ (e - x) := by
    rw [← zpow_natCast, h1]
  push_cast
  rw [h2, mul_assoc, ← zpow_add₀ (by norm_num : (2 : ℚ) ≠ 0)]
  congr 2
  ring

theorem scaled_lt_iff (m1 m2 : Nat) (e1 e2 : Int) :
    m1 * 2 ^ (e1 - min e1 e2).toNat < m2 * 2 ^ (e2 - min e1 e2).toNat ↔
      (m1 : ℚ) * (2 : ℚ) ^ e1 < (m2 : ℚ) * (2 : ℚ) ^ e2 := by
  rw [← scaled_cast m1 e1 (min e1 e2) (min_le_left _ _),
    ← scaled_cast m2 e2 (min e1 e2) (min_le_right _ _)]
  rw [mul_lt_mul_right (two_zpow_pos _)]
  exact Nat.cast_lt.symm

theorem scaled_pos_iff (m : Nat) (e x : Int) :
    0 < m * 2 ^ (e - x).toNat ↔ 0 < m := by
  constructor
  · intro h
    rcases Nat.eq_zero_or_pos m with h0 | h0
    · simp [h0] at h
    · exact h0
  · intro h
    positivity

theorem lt_fin_iff (n1 n2 : Bool) (m1 m2 : Nat) (e1 e2 : Int) :
    GoFloat.lt (.fin n1 m1 e1) (.fin n2 m2 e2) = true ↔ finVal n1 m1 e1 < finVal n2 m2 e2 := by
  have p1 := two_zpow_pos e1
  have p2 := two_zpow_pos e2
  have c1 : (0 : ℚ) ≤ (m1 : ℚ) * (2 : ℚ) ^ e1 := by positivity
  have c2 : (0 : ℚ) ≤ (m2 : ℚ) * (2 : ℚ) ^ e2 := by positivity
  cases n1 <;> cases n2 <;> simp only [GoFloat.lt, finVal, decide_eq_true_eq, if_true, if_false,
    Bool.false_eq_true, one_mul, neg_mul]
  · exact scaled_lt_iff m1 m2 e1 e2
  · constructor
    · intro h; exact absurd h (by simp)
    · intro h; linarith
  · rw [scaled_pos_iff, scaled_pos_iff]
    constructor
    · intro h
      rcases h with h | h
      · have : (0 : ℚ) < (m1 : ℚ) * (2 : ℚ) ^ e1 := mul_pos (by exact_mod_cast h) p1
        linarith
      · have : (0 : ℚ) < (m2 : ℚ) * (2 : ℚ) ^ e2 := mul_pos (by exact_mod_cast h) p2
        linarith
    · intro h
      by_contra hc
      push_neg at hc
      have h1 : m1 = 0 := by omega
      have h2 : m2 = 0 := by omega
      simp [h1, h2] at h
  · rw [min_comm e1 e2, scaled_lt_iff m2 m1 e2 e1]
    constructor <;> intro h <;> linarith

theorem lt_iff_key (x y : GoFloat) (hx : x.isNaN = false) (hy : y.isNaN = false) :
    GoFloat.lt x y = true ↔ x.key < y.key := by
  cases x with
  | nan => simp [GoFloat.isNaN] at hx
  | inf a =>
    cases y with
    | nan => simp [GoFloat.isNaN] at hy
    | inf b =>
      cases a <;> cases b <;> simp [GoFloat.lt, GoFloat.key]
    | fin n m e =>
      cases a <;> simp [GoFloat.lt, GoFloat.key]
  | fin n1 m1 e1 =>
    cases y with
    | nan => simp [GoFloat.isNaN] at hy
    | inf b =>
      cases b <;> simp [GoFloat.lt, GoFloat.key]
      rw [← WithBot.coe_top, WithBot.coe_lt_coe]
      exact WithTop.coe_lt_top _
    | fin n2 m2 e2 =>
      rw [lt_fin_iff]
      simp [GoFloat.key]

theorem lt_not_nan {x y : GoFloat} (h : GoFloat.lt x y = true) :
    x.isNaN = false ∧ y.isNaN = false := by
  cases x <;> cases y <;> simp_all [GoFloat.lt, GoFloat.isNaN]

theorem lt_irrefl_float (x : GoFloat) : GoFloat.lt x x = false := by
  cases hx : x.isNaN
  · have := lt_iff_key x x hx hx
    cases h : GoFloat.lt x x
    · rfl
    · exact absurd (this.mp h) (lt_irrefl _)
  · cases x <;> simp_all [GoFloat.isNaN, GoFloat.lt]

theorem lt_trans_float {x y z : GoFloat} (h1 : GoFloat.lt x y = true)
    (h2 : GoFloat.lt y z = true) : GoFloat.lt x z = true := by
  have a := lt_not_nan h1
  have b := lt_not_nan h2
  rw [lt_iff_key _ _ a.1 b.2]
  exact lt_trans ((lt_iff_key _ _ a.1 a.2).mp h1) ((lt_iff_key _ _ b.1 b.2).mp h2)

theorem lt_false_iff_key (x y : GoFloat) (hx : x.isNaN = false) (hy : y.isNaN = false) :
    GoFloat.lt x y = false ↔ y.key ≤ x.key := by
  rw [← not_lt, ← lt_iff_key x y hx hy]
  simp

theorem le_iff_key (x y : GoFloat) (hx : x.isNaN = false) (hy : y.isNaN = false) :
    GoFloat.le x y = true ↔ x.key ≤ y.key := by
  rw [← lt_false_iff_key y x hy hx]
  simp [GoFloat.le, hx, hy]

/-! ## Ranking -/

theorem scoreDoc_eq (tbl : Char → Char) (q : List GoFloat) (kws : List (List Char))
    (d : Document) :
    scoreDoc tbl q kws d =
      if passes tbl q kws d = true then
        some ⟨d, finalScore tbl q kws d,
          queryKeywordHits tbl (ToLower tbl d.Content) kws +
            fixedHits (ToLower tbl d.Content) productKeywords +
            fixedHits (ToLower tbl d.Content) companyKeywords⟩
      else none := rfl

theorem mem_results {tbl : Char → Char} {q : List GoFloat} {kws : List (List Char)}
    {l : List Document} {r : result} (h : r ∈ l.filterMap (scoreDoc tbl q kws)) :
    r.doc ∈ l ∧ r.score = finalScore tbl q kws r.doc ∧ passes tbl q kws r.doc = true := by
  rw [List.mem_filterMap] at h
  obtain ⟨d, hd, hr⟩ := h
  rw [scoreDoc_eq] at hr
  split at hr
  · rename_i hp
    cases hr
    exact ⟨hd, rfl, hp⟩
  · cases hr

theorem results_docs (tbl : Char → Char) (q : List GoFloat) (kws : List (List Char))
    (l : List Document) :
    (l.filterMap (scoreDoc tbl q kws)).map (fun r => r.doc) =
      l.filter (passes tbl q kws) := by
  induction l with
  | nil => rfl
  | cons d l ih =>
    rw [List.filterMap_cons, List.filter_cons, scoreDoc_eq]
    cases hp : passes tbl q kws d
    · simpa using ih
    · simpa using ih

theorem results_not_nan {tbl : Char → Char} {q : List GoFloat} {kws : List (List Char)}
    {l : List Document} {r : result} (h : r ∈ l.filterMap (scoreDoc tbl q kws)) :
    r.score.isNaN = false := by
  obtain ⟨_, hs, hp⟩ := mem_results h
  rw [hs]
  exact (lt_not_nan hp).2

theorem byScore_ordering (l : List result) (h : ∀ r ∈ l, r.score.isNaN = false) :
    LessOrdering byScore l := by
  refine ⟨fun x _ => lt_irrefl_float _, fun x _ y _ z _ h1 h2 => lt_trans_float h2 h1, ?_⟩
  intro x hx y hy z hz h1 h2
  simp only [byScore, GoFloat.gt] at *
  rw [lt_false_iff_key _ _ (h y hy) (h x hx)] at h1
  rw [lt_false_iff_key _ _ (h z hz) (h y hy)] at h2
  rw [lt_false_iff_key _ _ (h z hz) (h x hx)]
  exact le_trans h1 h2

theorem sorted_results {srt : (result → result → Bool) → List result → List result}
    (hsrt : SortSliceSpec srt) (tbl : Char → Char) (q : List GoFloat)
    (kws : List (List Char)) (l : List Document) :
    (srt byScore (l.filterMap (scoreDoc tbl q kws))).Perm (l.filterMap (scoreDoc tbl q kws)) ∧
    (srt byScore (l.filterMap (scoreDoc tbl q kws))).Pairwise
      (fun x y => GoFloat.le (finalScore tbl q kws y.doc) (finalScore tbl q kws x.doc) = true) := by
  obtain ⟨hperm, hsorted⟩ := hsrt byScore _ (byScore_ordering _ (fun r hr => results_not_nan hr))
  refine ⟨hperm, ?_⟩
  have hmem : ∀ r ∈ srt byScore (l.filterMap (scoreDoc tbl q kws)),
      r ∈ l.filterMap (scoreDoc tbl q kws) := fun r hr => hperm.subset hr
  refine List.Pairwise.imp_of_mem ?_ hsorted
  intro x y hx hy hxy
  have ex := mem_results (hmem x hx)
  have ey := mem_results (hmem y hy)
  have nx := results_not_nan (hmem x hx)
  have ny := results_not_nan (hmem y hy)
  simp only [byScore, GoFloat.gt] at hxy
  rw [← ex.2.1, ← ey.2.1]
  rw [le_iff_key _ _ ny nx]
  exact (lt_false_iff_key _ _ nx ny).mp hxy

/-- C1. For every store, query vector and keyword list, and for every sorting
routine that meets the contract of `sort.Slice`, `SearchWithKeywords` returns
at most 20 documents, in non-increasing order of `finalScore`, each with
`finalScore > 0.1`. -/
theorem search_bounded_sorted_above_threshold
    (srt : (result → result → Bool) → List result → List result) (hsrt : SortSliceSpec srt)
    (tbl : Char → Char) (s : Store) (q : List GoFloat) (kws : List (List Char)) :
    (SearchWithKeywords srt tbl s q kws).length ≤ 20 ∧
    (SearchWithKeywords srt tbl s q kws).Pairwise
      (fun d1 d2 => GoFloat.le (finalScore tbl q kws d2) (finalScore tbl q kws d1) = true) ∧
    ∀ d ∈ SearchWithKeywords srt tbl s q kws,
      GoFloat.gt (finalScore tbl q kws d) (f64const 1 10) = true := by
  obtain ⟨hperm, hsorted⟩ := sorted_results hsrt tbl q kws s.Data
  refine ⟨?_, ?_, ?_⟩
  · simp only [SearchWithKeywords, List.length_map, List.length_take]
    exact min_le_left _ _
  · simp only [SearchWithKeywords]
    rw [List.pairwise_map]
    exact hsorted.sublist (List.take_sublist _ _)
  · intro d hd
    simp only [SearchWithKeywords, List.mem_map] at hd
    obtain ⟨r, hr, rfl⟩ := hd
    exact (mem_results (hperm.subset (List.mem_of_mem_take hr))).2.2

/-! ### The reference routine meets the contract -/

theorem insertSorted_perm {α : Type} (less : α → α → Bool) (x : α) (l : List α) :
    (insertSorted less x l).Perm (x :: l) := by
  induction l with
  | nil => exact List.Perm.refl _
  | cons y l ih =>
    simp only [insertSorted]
    split
    · exact List.Perm.refl _
    · exact (List.Perm.cons y ih).trans (List.Perm.swap x y l)

theorem referenceSort_perm {α : Type} (less : α → α → Bool) (l : List α) :
    (referenceSort less l).Perm l := by
  induction l with
  | nil => exact List.Perm.refl _
  | cons x l ih =>
    simp only [referenceSort]
    exact (insertSorted_perm less x _).trans (List.Perm.cons x ih)

theorem LessOrdering.subset {α : Type} {less : α → α → Bool} {l l' : List α}
    (h : LessOrdering less l) (hsub : ∀ x ∈ l', x ∈ l) : LessOrdering less l' :=
  ⟨fun x hx => h.1 x (hsub x hx),
   fun x hx y hy z hz => h.2.1 x (hsub x hx) y (hsub y hy) z (hsub z hz),
   fun x hx y hy z hz => h.2.2 x (hsub x hx) y (hsub y hy) z (hsub z hz)⟩

theorem LessOrdering.asymm {α : Type} {less : α → α → Bool} {l : List α}
    (h : LessOrdering less l) {x y : α} (hx : x ∈ l) (hy : y ∈ l)
    (hxy : less x y = true) : less y x = false := by
  cases hyx : less y x
  · rfl
  · have := h.2.1 x hx y hy x hx hxy hyx
    rw [h.1 x hx] at this
    cases this

theorem insertSorted_sorted {α : Type} (less : α → α → Bool) (x : α) (l : List α)
    (hord : LessOrdering less (x :: l))
    (hsorted : l.Pairwise (fun a b => less b a = false)) :
    (insertSorted less x l).Pairwise (fun a b => less b a = false) := by
  induction l with
  | nil => simp [insertSorted]
  | cons y l ih =>
    have hx : x ∈ x :: y :: l := List.mem_cons_self _ _
    have hy : y ∈ x :: y :: l := List.mem_cons_of_mem _ (List.mem_cons_self _ _)
    have hs := List.pairwise_cons.mp hsorted
    simp only [insertSorted]
    split
    · rename_i hxy
      have hyx := hord.asymm hx hy hxy
      refine List.Pairwise.cons ?_ hsorted
      intro b hb
      rcases List.mem_cons.mp hb with rfl | hb
      · exact hyx
      · exact hord.2.2 b (List.mem_cons_of_mem _ (List.mem_cons_of_mem _ hb)) y hy x hx
          (hs.1 b hb) hyx
    · rename_i hxy
      have hxy' : less x y = false := by simpa using hxy
      refine List.Pairwise.cons ?_ (ih (hord.subset ?_) hs.2)
      · intro b hb
        rcases List.mem_cons.mp ((insertSorted_perm less x l).subset hb) with rfl | hb
        · exact hxy'
        · exact hs.1 b hb
      · intro z hz
        rcases List.mem_cons.mp hz with rfl | hz
        · exact hx
        · exact List.mem_cons_of_mem _ (List.mem_cons_of_mem _ hz)

theorem referenceSort_sorted {α : Type} (less : α → α → Bool) (l : List α)
    (hord : LessOrdering less l) :
    (referenceSort less l).Pairwise (fun a b => less b a = false) := by
  induction l with
  | nil => simp [referenceSort]
  | cons x l ih =>
    simp only [referenceSort]
    refine insertSorted_sorted less x _ (hord.subset ?_)
      (ih (hord.subset (fun z hz => List.mem_cons_of_mem _ hz)))
    intro z hz
    rcases List.mem_cons.mp hz with rfl | hz
    · exact List.mem_cons_self _ _
    · exact List.mem_cons_of_mem _ ((referenceSort_perm less l).subset hz)

theorem referenceSort_spec : SortSliceSpec referenceSort :=
  fun less l hord => ⟨referenceSort_perm less l, referenceSort_sorted less l hord⟩

set_option maxRecDepth 200000 in
/-- Witness of C1: the reference routine meets the contract, and on a store
with a miss, a product page, a company page and an empty passage the result
has at most 20 documents, is ordered and stays above the threshold. -/
theorem search_bounded_sorted_above_threshold_witness :
    SortSliceSpec referenceSort ∧
    (SearchWithKeywords referenceSort id
      ⟨[⟨docID 0, "hello".toList, [], []⟩, ⟨docID 1, "fintech".toList, [], []⟩,
        ⟨docID 2, "conta pix".toList, [], []⟩, ⟨docID 3, [], [], []⟩]⟩ [] []).length ≤ 20 ∧
    (SearchWithKeywords referenceSort id
      ⟨[⟨docID 0, "hello".toList, [], []⟩, ⟨docID 1, "fintech".toList, [], []⟩,
        ⟨docID 2, "conta pix".toList, [], []⟩, ⟨docID 3, [], [], []⟩]⟩ [] []).Pairwise
      (fun d1 d2 => GoFloat.le (finalScore id [] [] d2) (finalScore id [] [] d1) = true) ∧
    ∀ d ∈ SearchWithKeywords referenceSort id
      ⟨[⟨docID 0, "hello".toList, [], []⟩, ⟨docID 1, "fintech".toList, [], []⟩,
        ⟨docID 2, "conta pix".toList, [], []⟩, ⟨docID 3, [], [], []⟩]⟩ [] [],
      GoFloat.gt (finalScore id [] [] d) (f64const 1 10) = true :=
  ⟨referenceSort_spec,
   search_bounded_sorted_above_threshold referenceSort referenceSort_spec id _ [] []⟩

set_option maxRecDepth 200000 in
/-- The search on the store of the witness returns the product page, then the
company page. -/
theorem sample_store_ranking :
    (SearchWithKeywords referenceSort id
      ⟨[⟨docID 0, "hello".toList, [], []⟩, ⟨docID 1, "fintech".toList, [], []⟩,
        ⟨docID 2, "conta pix".toList, [], []⟩, ⟨docID 3, [], [], []⟩]⟩ [] []).map
        (fun d => d.ID) = [docID 2, docID 1] := by
  decide

/-- C2. For every store, query vector and keyword list, and for every sorting
routine that meets the contract of `sort.Slice`: if `m` documents of the store
pass `finalScore > 0.1`, `SearchWithKeywords` returns `min 20 m` documents;
together with a remainder `rest` they are a rearrangement of the passing
documents of the store (so each returned document is a passing document of
the store and none is returned more often than it occurs), and no document of
the remainder has a `finalScore` above that of a returned document. -/
theorem search_returns_top_of_ranking
    (srt : (result → result → Bool) → List result → List result) (hsrt : SortSliceSpec srt)
    (tbl : Char → Char) (s : Store) (q : List GoFloat) (kws : List (List Char)) :
    (SearchWithKeywords srt tbl s q kws).length =
      min 20 (s.Data.filter (passes tbl q kws)).length ∧
    ∃ rest : List Document,
      (SearchWithKeywords srt tbl s q kws ++ rest).Perm (s.Data.filter (passes tbl q kws)) ∧
      ∀ d ∈ rest, ∀ r ∈ SearchWithKeywords srt tbl s q kws,
        GoFloat.le (finalScore tbl q kws d) (finalScore tbl q kws r) = true := by
  obtain ⟨hperm, hsorted⟩ := sorted_results hsrt tbl q kws s.Data
  have hdocs := results_docs tbl q kws s.Data
  refine ⟨?_, ?_⟩
  · simp only [SearchWithKeywords, List.length_map, List.length_take]
    rw [← hdocs, List.length_map, hperm.length_eq]
  · refine ⟨((srt byScore (s.Data.filterMap (scoreDoc tbl q kws))).drop 20).map
      (fun r => r.doc), ?_, ?_⟩
    · simp only [SearchWithKeywords]
      rw [← List.map_append, List.take_append_drop, ← hdocs]
      exact hperm.map _
    · intro d hd r hr
      simp only [SearchWithKeywords, List.mem_map] at hd hr
      obtain ⟨x, hx, rfl⟩ := hd
      obtain ⟨y, hy, rfl⟩ := hr
      rw [← List.take_append_drop 20 (srt byScore (s.Data.filterMap (scoreDoc tbl q kws))),
        List.pairwise_append] at hsorted
      exact hsorted.2.2 y hy x hx

set_option maxRecDepth 200000 in
/-- Witness of C2: the reference routine meets the contract, and the theorem
applies to a store with a miss, a company page, a product page and an empty
passage. -/
theorem search_returns_top_of_ranking_witness :
    SortSliceSpec referenceSort ∧
    (SearchWithKeywords referenceSort id
      ⟨[⟨docID 0, "hello".toList, [], []⟩, ⟨docID 1, "fintech".toList, [], []⟩,
        ⟨docID 2, "conta pix".toList, [], []⟩, ⟨docID 3, [], [], []⟩]⟩ [] []).length =
      min 20 ((Store.Data
        ⟨[⟨docID 0, "hello".toList, [], []⟩, ⟨docID 1, "fintech".toList, [], []⟩,
          ⟨docID 2, "conta pix".toList, [], []⟩, ⟨docID 3, [], [], []⟩]⟩).filter
          (passes id [] [])).length :=
  ⟨referenceSort_spec,
   (search_returns_top_of_ranking referenceSort referenceSort_spec id _ [] []).1⟩

/-! ### Ties -/

theorem Less_true {α : Type} {less : α → α → Bool} {data : List α} {i j : Nat}
    (h : Less less data i j = true) :
    ∃ x y, data[i]? = some x ∧ data[j]? = some y ∧ less x y = true := by
  unfold Less at h
  split at h
  · rename_i x y hx hy
    exact ⟨x, y, hx, hy, h⟩
  · cases h

theorem Swap_adjacent {α : Type} (l : List α) (j : Nat) (x y : α)
    (hy : l[j]? = some y) (hx : l[j + 1]? = some x) :
    ∃ pre post, l = pre ++ y :: x :: post ∧ Swap l (j + 1) j = pre ++ x :: y :: post := by
  induction l generalizing j with
  | nil => simp at hy
  | cons a t ih =>
    cases j with
    | zero =>
      cases t with
      | nil => simp at hx
      | cons b t =>
        simp at hx hy
        subst hx hy
        exact ⟨[], t, rfl, by simp [Swap]⟩
    | succ j =>
      simp only [List.getElem?_cons_succ] at hx hy
      obtain ⟨pre, post, h1, h2⟩ := ih j hy hx
      refine ⟨a :: pre, post, by simp [h1], ?_⟩
      simp only [Swap, hx, hy] at h2
      simp [Swap, hx, hy, h2]

theorem insertionSort_inner_kept {α : Type} {less : α → α → Bool} {P : List α → Prop}
    (hP : KeptBySwaps less P) (a j : Nat) (data : List α) (h : P data) :
    P (insertionSort_inner less a j data) := by
  induction j generalizing data with
  | zero => exact h
  | succ j ih =>
    simp only [insertionSort_inner]
    split
    · rename_i hc
      obtain ⟨x, y, hx, hy, hxy⟩ := Less_true hc.2
      obtain ⟨pre, post, h1, h2⟩ := Swap_adjacent data j x y hy hx
      apply ih
      rw [h2]
      rw [h1] at h
      exact hP pre post x y hxy h
    · exact h

theorem insertionSort_outer_kept {α : Type} {less : α → α → Bool} {P : List α → Prop}
    (hP : KeptBySwaps less P) (a b n i : Nat) (data : List α) (h : P data) :
    P (insertionSort_outer less a b n i data) := by
  induction n generalizing i data with
  | zero => exact h
  | succ n ih =>
    simp only [insertionSort_outer]
    split
    · exact ih _ _ (insertionSort_inner_kept hP a i data h)
    · exact h

theorem sortSlice_short {α : Type} (less : α → α → Bool) (x : List α) (h : x.length ≤ 12) :
    sortSlice less x = insertionSort_func less x 0 x.length := by
  simp [sortSlice, pdqsort_func, h]

theorem sortSlice_short_kept {α : Type} {less : α → α → Bool} {P : List α → Prop}
    (hP : KeptBySwaps less P) (x : List α) (h : x.length ≤ 12) (hx : P x) :
    P (sortSlice less x) := by
  rw [sortSlice_short less x h]
  exact insertionSort_outer_kept hP _ _ _ _ _ hx

theorem filter_pair_swap {α : Type} (p : α → Bool) (x y : α) (pre post : List α)
    (h : ¬ (p x = true ∧ p y = true)) :
    (pre ++ x :: y :: post).filter p = (pre ++ y :: x :: post).filter p := by
  simp only [List.filter_append, List.filter_cons]
  cases hx : p x <;> cases hy : p y <;> simp_all

theorem byScore_ne {x y : result} (h : byScore x y = true) : x.score ≠ y.score := by
  intro he
  simp only [byScore, GoFloat.gt, he] at h
  rw [lt_irrefl_float] at h
  cases h

theorem ties_kept (l0 : List result) :
    KeptBySwaps byScore (fun l => l.Perm l0 ∧
      ∀ v : GoFloat, l.filter (fun r => decide (r.score = v)) =
        l0.filter (fun r => decide (r.score = v))) := by
  intro pre post x y hxy h
  refine ⟨(List.Perm.append_left pre (List.Perm.swap y x post)).trans h.1, ?_⟩
  intro v
  rw [← h.2 v]
  apply filter_pair_swap
  intro hc
  simp only [decide_eq_true_eq] at hc
  exact byScore_ne hxy (hc.1.trans hc.2.symm)

/-- C3, as amended. With Go's `sort.Slice` (`pdqsort_func`, which sorts slices
of at most 12 entries by insertion), for every store in which at most 12
documents pass the threshold, and every query vector and keyword list, the
returned documents with equal `finalScore` come in store order. -/
theorem search_ties_in_store_order_when_short (tbl : Char → Char) (s : Store)
    (q : List GoFloat) (kws : List (List Char))
    (h : (s.Data.filter (passes tbl q kws)).length ≤ 12) :
    tiesInStoreOrder tbl q kws s.Data (SearchWithKeywords sortSlice tbl s q kws) := by
  intro v
  have hdocs := results_docs tbl q kws s.Data
  have hlen : (s.Data.filterMap (scoreDoc tbl q kws)).length ≤ 12 := by
    rw [← hdocs, List.length_map] at h
    exact h
  obtain ⟨hperm, hties⟩ := sortSlice_short_kept (ties_kept (s.Data.filterMap (scoreDoc tbl q kws)))
    _ hlen ⟨List.Perm.refl _, fun _ => rfl⟩
  have htake : (sortSlice byScore (s.Data.filterMap (scoreDoc tbl q kws))).take 20 =
      sortSlice byScore (s.Data.filterMap (scoreDoc tbl q kws)) := by
    apply List.take_of_length_le
    rw [hperm.length_eq]
    omega
  simp only [SearchWithKeywords]
  rw [htake, List.filter_map]
  have hcongr : (sortSlice byScore (s.Data.filterMap (scoreDoc tbl q kws))).filter
        ((fun d => decide (finalScore tbl q kws d = v)) ∘ fun r => r.doc) =
      (sortSlice byScore (s.Data.filterMap (scoreDoc tbl q kws))).filter
        (fun r => decide (r.score = v)) := by
    apply List.filter_congr
    intro r hr
    have := (mem_results (hperm.subset hr)).2.1
    simp [this]
  rw [hcongr, hties v]
  refine List.Sublist.trans ((List.filter_sublist _).map _) ?_
  rw [hdocs]
  exact List.filter_sublist _

set_option maxRecDepth 200000 in
/-- Witness of the amended C3: a store with two tied product pages around a
company page. -/
theorem search_ties_in_store_order_when_short_witness :
    ((Store.Data ⟨[⟨docID 0, "pix".toList, [], []⟩, ⟨docID 1, "fintech".toList, [], []⟩,
        ⟨docID 2, "pix".toList, [], []⟩]⟩).filter (passes id [] [])).length ≤ 12 ∧
    tiesInStoreOrder id [] []
      [⟨docID 0, "pix".toList, [], []⟩, ⟨docID 1, "fintech".toList, [], []⟩,
        ⟨docID 2, "pix".toList, [], []⟩]
      (SearchWithKeywords sortSlice id
        ⟨[⟨docID 0, "pix".toList, [], []⟩, ⟨docID 1, "fintech".toList, [], []⟩,
          ⟨docID 2, "pix".toList, [], []⟩]⟩ [] []) :=
  ⟨by decide, search_ties_in_store_order_when_short id _ [] [] (by decide)⟩

set_option maxRecDepth 200000 in
/-- C3 fails on `tieStore`: all thirteen passages pass the threshold, the
first twelve with the same `finalScore`; `sort.Slice` moves `doc_6` to the
front of them and `doc_1` to the end, so the tied documents are not in store
order. -/
theorem search_ties_not_in_store_order :
    (SearchWithKeywords sortSlice id tieStore [] []).map (fun d => d.ID) =
      [docID 12, docID 6, docID 2, docID 3, docID 4, docID 5, docID 0, docID 7, docID 8,
        docID 9, docID 10, docID 11, docID 1] ∧
    ¬ tiesInStoreOrder id [] [] tieStore.Data (SearchWithKeywords sortSlice id tieStore [] []) := by
  refine ⟨by decide, ?_⟩
  intro h
  have h1 := h (.fin false 6763505920385011 (-52))
  revert h1
  decide

/-! ## Cosine similarity -/

theorem mul_comm_float (f : Format) (x y : GoFloat) : GoFloat.mul f x y = GoFloat.mul f y x := by
  cases x <;> cases y <;> simp [GoFloat.mul, Bool.xor_comm, Nat.mul_comm, Int.add_comm]

theorem cosineLoop_swap (a b : List GoFloat) (d x y : GoFloat) :
    cosineLoop b a (d, y, x) =
      ((cosineLoop a b (d, x, y)).1, (cosineLoop a b (d, x, y)).2.2,
        (cosineLoop a b (d, x, y)).2.1) := by
  induction a generalizing b d x y with
  | nil => cases b <;> simp [cosineLoop]
  | cons u a ih =>
    cases b with
    | nil => simp [cosineLoop]
    | cons v b =>
      simp only [cosineLoop]
      rw [ih, mul32, mul_comm_float binary32 v u]
      rfl

theorem cosine_of_length_eq (a b : List GoFloat) (h : a.length = b.length) :
    CosineSimilarity a b =
      if (cosineLoop a b (zero64, zero64, zero64)).2.1.isZero ||
          (cosineLoop a b (zero64, zero64, zero64)).2.2.isZero then zero64
      else div64 (cosineLoop a b (zero64, zero64, zero64)).1
        (mul64 (mathSqrt (cosineLoop a b (zero64, zero64, zero64)).2.1)
          (mathSqrt (cosineLoop a b (zero64, zero64, zero64)).2.2)) := by
  unfold CosineSimilarity
  rw [if_neg (not_not.mpr h)]

theorem cosine_symmetric (a b : List GoFloat) : CosineSimilarity a b = CosineSimilarity b a := by
  by_cases h : a.length = b.length
  · rw [cosine_of_length_eq a b h, cosine_of_length_eq b a h.symm,
      cosineLoop_swap a b zero64 zero64 zero64]
    simp only [Bool.or_comm (cosineLoop a b (zero64, zero64, zero64)).2.2.isZero]
    simp only [mul64]
    rw [mul_comm_float binary64 (mathSqrt (cosineLoop a b (zero64, zero64, zero64)).2.2)
      (mathSqrt (cosineLoop a b (zero64, zero64, zero64)).2.1)]
  · have h' : ¬ b.length = a.length := fun e => h e.symm
    unfold CosineSimilarity
    rw [if_pos h, if_pos h']

theorem mul32_zero_self (x : GoFloat) (h : x.isZero = true) : mul32 x x = zero64 := by
  cases x with
  | nan => simp [GoFloat.isZero] at h
  | inf a => simp [GoFloat.isZero] at h
  | fin n m e =>
    cases m with
    | zero => simp only [mul32, GoFloat.mul, roundTo, Nat.mul_zero, if_true, Bool.xor_self, zero64]
    | succ m => simp [GoFloat.isZero] at h

theorem add64_zero_zero : add64 zero64 zero64 = zero64 := by
  simp [add64, GoFloat.add, zero64]

theorem cosineLoop_normA_zero (a b : List GoFloat) (acc : GoFloat × GoFloat × GoFloat)
    (ha : ∀ x ∈ a, x.isZero = true) (h0 : acc.2.1 = zero64) :
    (cosineLoop a b acc).2.1 = zero64 := by
  induction a generalizing b acc with
  | nil => cases b <;> simpa [cosineLoop] using h0
  | cons u a ih =>
    cases b with
    | nil => simpa [cosineLoop] using h0
    | cons v b =>
      obtain ⟨d, x, y⟩ := acc
      simp only [cosineLoop]
      apply ih
      · exact fun z hz => ha z (List.mem_cons_of_mem _ hz)
      · simp only at h0
        simp only [h0, mul32_zero_self u (ha u (List.mem_cons_self _ _)), add64_zero_zero]

theorem cosine_zero_left (a b : List GoFloat) (ha : ∀ x ∈ a, x.isZero = true) :
    CosineSimilarity a b = zero64 := by
  by_cases hl : a.length = b.length
  · have h := cosineLoop_normA_zero a b (zero64, zero64, zero64) ha rfl
    have hz : (cosineLoop a b (zero64, zero64, zero64)).2.1.isZero = true := by
      rw [h]
      rfl
    rw [cosine_of_length_eq a b hl, hz]
    rfl
  · unfold CosineSimilarity
    rw [if_pos hl]

theorem equal_self (x : GoFloat) : GoFloat.equal x x = !x.isNaN := by
  unfold GoFloat.equal
  rw [lt_irrefl_float]
  cases x.isNaN <;> rfl

/-- C5, as amended. Both argument orders of `CosineSimilarity` return the same
value, so the Go comparison `sim(a, b) == sim(b, a)` holds exactly when that
value is a number: it is false when the value is NaN. The function returns the
`float64` zero whenever the lengths differ, whenever a vector is absent or
empty, and whenever all components of one of the vectors are zero. -/
theorem cosine_symmetric_unless_nan (a b : List GoFloat) :
    CosineSimilarity a b = CosineSimilarity b a ∧
    GoFloat.equal (CosineSimilarity a b) (CosineSimilarity b a) =
      !(CosineSimilarity a b).isNaN ∧
    (a.length ≠ b.length → CosineSimilarity a b = zero64) ∧
    (a = [] ∨ b = [] → CosineSimilarity a b = zero64) ∧
    ((∀ x ∈ a, x.isZero = true) ∨ (∀ y ∈ b, y.isZero = true) →
      CosineSimilarity a b = zero64) := by
  have hz : (∀ x ∈ a, x.isZero = true) ∨ (∀ y ∈ b, y.isZero = true) →
      CosineSimilarity a b = zero64 := by
    intro h
    rcases h with h | h
    · exact cosine_zero_left a b h
    · rw [cosine_symmetric]
      exact cosine_zero_left b a h
  refine ⟨cosine_symmetric a b, ?_, ?_, ?_, hz⟩
  · rw [← cosine_symmetric a b]
    exact equal_self _
  · intro h
    simp [CosineSimilarity, h]
  · intro h
    apply hz
    rcases h with h | h
    · left; simp [h]
    · right; simp [h]

set_option maxRecDepth 200000 in
/-- C5 fails for the Go comparison `==` when the result is NaN: for the
`float32` vectors `a = [6617445 * 2^77]` (about `1e30`) and
`b = [6617445 * 2^78]` the products overflow, both argument orders return NaN,
and `CosineSimilarity(a, b) == CosineSimilarity(b, a)` is false. -/
theorem cosine_not_equal_when_nan :
    CosineSimilarity [.fin false 6617445 77] [.fin false 6617445 78] = .nan ∧
    CosineSimilarity [.fin false 6617445 78] [.fin false 6617445 77] = .nan ∧
    GoFloat.equal (CosineSimilarity [.fin false 6617445 77] [.fin false 6617445 78])
      (CosineSimilarity [.fin false 6617445 78] [.fin false 6617445 77]) = false := by
  decide

/-! ## The end-to-end scenario -/

theorem ToLower_ascii (tbl : Char → Char) (s : List Char) (h : ∀ c ∈ s, c.val < 128) :
    ToLower tbl s = ToLower id s := by
  unfold ToLower
  apply List.map_congr_left
  intro c hc
  simp [lowerRune, h c hc]

theorem queryKeywordHits_ascii (tbl : Char → Char) (cl : List Char) (kws : List (List Char))
    (h : ∀ k ∈ kws, ∀ c ∈ k, c.val < 128) :
    queryKeywordHits tbl cl kws = queryKeywordHits id cl kws := by
  unfold queryKeywordHits
  apply List.countP_congr
  intro k hk
  rw [ToLower_ascii tbl k (h k hk)]

theorem finalScore_ascii_zero (tbl : Char → Char) (q : List GoFloat) (kws : List (List Char))
    (d : Document) (hq : ∀ x ∈ q, x.isZero = true) (hc : ∀ c ∈ d.Content, c.val < 128)
    (hk : ∀ k ∈ kws, ∀ c ∈ k, c.val < 128) :
    finalScore tbl q kws d = finalScore id [] kws ⟨[], d.Content, [], []⟩ := by
  unfold finalScore
  simp only []
  rw [cosine_zero_left q d.Vector hq, cosine_zero_left [] [] (by simp),
    ToLower_ascii tbl d.Content hc, queryKeywordHits_ascii tbl _ kws hk]

theorem sorted_pair {l : List result} {r1 r2 : result} (hperm : l.Perm [r1, r2])
    (hsorted : l.Pairwise (fun x y => byScore y x = false)) (h12 : byScore r1 r2 = true) :
    l = [r1, r2] := by
  have hne : r1 ≠ r2 := by
    intro e
    rw [e] at h12
    simp only [byScore, GoFloat.gt, lt_irrefl_float] at h12
    cases h12
  have hlen := hperm.length_eq
  match l, hlen with
  | [x, y], _ =>
    have hx : x ∈ [r1, r2] := hperm.subset (List.mem_cons_self _ _)
    have hy : y ∈ [r1, r2] := hperm.subset (List.mem_cons_of_mem _ (List.mem_cons_self _ _))
    have h1 : r1 ∈ [x, y] := hperm.symm.subset (List.mem_cons_self _ _)
    have h2 : r2 ∈ [x, y] := hperm.symm.subset (List.mem_cons_of_mem _ (List.mem_cons_self _ _))
    simp only [List.mem_cons, List.mem_singleton, List.not_mem_nil, or_false] at hx hy h1 h2
    have hxy : byScore y x = false := (List.pairwise_cons.mp hsorted).1 y (List.mem_cons_self _ _)
    rcases hx with rfl | rfl
    · rcases hy with rfl | rfl
      · rcases h2 with h2 | h2 <;> exact absurd h2.symm hne
      · rfl
    · rcases hy with rfl | rfl
      · rw [h12] at hxy
        cases hxy
      · rcases h1 with h1 | h1 <;> exact absurd h1 hne

set_option maxRecDepth 200000 in
theorem scenario_scores (tbl : Char → Char) (q : List GoFloat) (d1 d2 : Document)
    (h1 : d1.Content = "InfinitePay offers a card machine and digital account".toList)
    (h2 : d2.Content = "Cloudwalk is a fintech company".toList)
    (hq : ∀ x ∈ q, x.isZero = true) :
    finalScore tbl q ["infinitepay".toList, "maquininha".toList] d1 =
      .fin false 5665303151250715 (-50) ∧
    finalScore tbl q ["infinitepay".toList, "maquininha".toList] d2 =
      .fin false 2272066012008415 (-50) := by
  have hk : ∀ k ∈ ["infinitepay".toList, "maquininha".toList], ∀ c ∈ k, c.val < 128 := by
    decide
  constructor
  · rw [finalScore_ascii_zero tbl q _ d1 hq (by rw [h1]; decide) hk, h1]
    decide
  · rw [finalScore_ascii_zero tbl q _ d2 hq (by rw [h2]; decide) hk, h2]
    decide

theorem scenario_sorted (srt : (result → result → Bool) → List result → List result)
    (hsrt : SortSliceSpec srt) (l : List result) (r1 r2 : result)
    (hl : l.Perm [r1, r2])
    (e1 : r1.score = .fin false 5665303151250715 (-50))
    (e2 : r2.score = .fin false 2272066012008415 (-50)) :
    srt byScore l = [r1, r2] := by
  have hnan : ∀ r ∈ l, r.score.isNaN = false := by
    intro r hr
    have := hl.subset hr
    simp only [List.mem_cons, List.mem_singleton, List.not_mem_nil, or_false] at this
    rcases this with rfl | rfl
    · rw [e1]; rfl
    · rw [e2]; rfl
  obtain ⟨hperm, hsorted⟩ := hsrt byScore l (byScore_ordering l hnan)
  apply sorted_pair (hperm.trans hl) hsorted
  simp only [byScore, e1, e2]
  decide

/-- C7. For every sorting routine that meets the contract of `sort.Slice`:
on a store holding exactly the two passages with the contents of the
scenario, in either order and with any vectors, identifiers and sources, a
query vector of zeros and the keywords `infinitepay`, `maquininha` return both
documents, the InfinitePay passage first. -/
theorem scenario_infinitepay_before_cloudwalk
    (srt : (result → result → Bool) → List result → List result) (hsrt : SortSliceSpec srt)
    (tbl : Char → Char) (q : List GoFloat) (d1 d2 : Document)
    (h1 : d1.Content = "InfinitePay offers a card machine and digital account".toList)
    (h2 : d2.Content = "Cloudwalk is a fintech company".toList)
    (hq : ∀ x ∈ q, x.isZero = true) :
    SearchWithKeywords srt tbl ⟨[d1, d2]⟩ q ["infinitepay".toList, "maquininha".toList] =
      [d1, d2] ∧
    SearchWithKeywords srt tbl ⟨[d2, d1]⟩ q ["infinitepay".toList, "maquininha".toList] =
      [d1, d2] := by
  obtain ⟨e1, e2⟩ := scenario_scores tbl q d1 d2 h1 h2 hq
  have p1 : passes tbl q ["infinitepay".toList, "maquininha".toList] d1 = true := by
    unfold passes
    rw [e1]
    decide
  have p2 : passes tbl q ["infinitepay".toList, "maquininha".toList] d2 = true := by
    unfold passes
    rw [e2]
    decide
  have s1 := scoreDoc_eq tbl q ["infinitepay".toList, "maquininha".toList] d1
  have s2 := scoreDoc_eq tbl q ["infinitepay".toList, "maquininha".toList] d2
  rw [if_pos p1] at s1
  rw [if_pos p2] at s2
  constructor
  · simp only [SearchWithKeywords, List.filterMap_cons, List.filterMap_nil, s1, s2]
    rw [scenario_sorted srt hsrt _ _ _ (List.Perm.refl _) e1 e2]
    rfl
  · simp only [SearchWithKeywords, List.filterMap_cons, List.filterMap_nil, s1, s2]
    rw [scenario_sorted srt hsrt _ _ _ (List.Perm.swap _ _ _) e1 e2]
    rfl

/-- Witness of C7: the scenario with the reference routine, the vectors
`[1, 0]` and `[0, 1]` and the query vector `[0, 0]`. -/
theorem scenario_infinitepay_before_cloudwalk_witness :
    SearchWithKeywords referenceSort id
      ⟨[⟨docID 0, "InfinitePay offers a card machine and digital account".toList, [],
          [.fin false 1 0, .fin false 0 0]⟩,
        ⟨docID 1, "Cloudwalk is a fintech company".toList, [],
          [.fin false 0 0, .fin false 1 0]⟩]⟩
      [.fin false 0 0, .fin false 0 0] ["infinitepay".toList, "maquininha".toList] =
      [⟨docID 0, "InfinitePay offers a card machine and digital account".toList, [],
          [.fin false 1 0, .fin false 0 0]⟩,
        ⟨docID 1, "Cloudwalk is a fintech company".toList, [],
          [.fin false 0 0, .fin false 1 0]⟩] :=
  (scenario_infinitepay_before_cloudwalk referenceSort referenceSort_spec id
    [.fin false 0 0, .fin false 0 0] _ _ rfl rfl (by decide)).1

/-! ## Ingestion -/

theorem digitChar_toNat (d : Nat) (h : d < 10) : (digitChar d).toNat = 48 + d := by
  interval_cases d <;> rfl

theorem decimalAux_value (fuel n : Nat) (acc : List Char) (h : n < fuel) :
    (decimalAux fuel n acc).foldl (fun v c => 10 * v + (c.toNat - 48)) 0 =
      acc.foldl (fun v c => 10 * v + (c.toNat - 48)) n := by
  induction fuel generalizing n acc with
  | zero => omega
  | succ fuel ih =>
    simp only [decimalAux]
    split
    · rename_i hn
      simp [List.foldl_cons, digitChar_toNat n hn]
    · rename_i hn
      rw [ih (n / 10) _ (by omega)]
      simp only [List.foldl_cons, digitChar_toNat (n % 10) (Nat.mod_lt _ (by norm_num))]
      congr 1
      omega

theorem decimal_value (n : Nat) :
    (decimal n).foldl (fun v c => 10 * v + (c.toNat - 48)) 0 = n := by
  unfold decimal
  rw [decimalAux_value (n + 1) n [] (by omega)]
  rfl

theorem decimal_injective {i j : Nat} (h : decimal i = decimal j) : i = j := by
  rw [← decimal_value i, ← decimal_value j, h]

theorem docID_injective {i j : Nat} (h : docID i = docID j) : i = j :=
  decimal_injective (List.append_cancel_left h)

theorem mem_ingestFrom (embed : Nat → List Char → Option (List GoFloat)) (i : Nat)
    (rawDocs : List Document) (d : Document) :
    d ∈ ingestFrom embed i rawDocs ↔
      ∃ k doc v, rawDocs[k]? = some doc ∧ 20 ≤ len (TrimSpace doc.Content) ∧
        embed (i + k) (TrimSpace doc.Content) = some v ∧
        d = { doc with Vector := v, ID := docID (i + k) } := by
  induction rawDocs generalizing i with
  | nil => simp [ingestFrom]
  | cons doc0 rest ih =>
    have shift : (∃ k doc v, rest[k]? = some doc ∧ 20 ≤ len (TrimSpace doc.Content) ∧
          embed (i + 1 + k) (TrimSpace doc.Content) = some v ∧
          d = { doc with Vector := v, ID := docID (i + 1 + k) }) ↔
        ∃ k doc v, (doc0 :: rest)[k + 1]? = some doc ∧ 20 ≤ len (TrimSpace doc.Content) ∧
          embed (i + (k + 1)) (TrimSpace doc.Content) = some v ∧
          d = { doc with Vector := v, ID := docID (i + (k + 1)) } := by
      simp only [List.getElem?_cons_succ, Nat.add_assoc, Nat.add_comm 1]
    have split0 : (∃ k doc v, (doc0 :: rest)[k]? = some doc ∧ 20 ≤ len (TrimSpace doc.Content) ∧
          embed (i + k) (TrimSpace doc.Content) = some v ∧
          d = { doc with Vector := v, ID := docID (i + k) }) ↔
        (∃ v, 20 ≤ len (TrimSpace doc0.Content) ∧ embed i (TrimSpace doc0.Content) = some v ∧
          d = { doc0 with Vector := v, ID := docID i }) ∨
        ∃ k doc v, (doc0 :: rest)[k + 1]? = some doc ∧ 20 ≤ len (TrimSpace doc.Content) ∧
          embed (i + (k + 1)) (TrimSpace doc.Content) = some v ∧
          d = { doc with Vector := v, ID := docID (i + (k + 1)) } := by
      constructor
      · rintro ⟨k, doc, v, hk, h⟩
        cases k with
        | zero =>
          simp only [List.getElem?_cons_zero, Option.some.injEq] at hk
          subst hk
          exact Or.inl ⟨v, h⟩
        | succ k => exact Or.inr ⟨k, doc, v, hk, h⟩
      · rintro (⟨v, h⟩ | ⟨k, doc, v, hk, h⟩)
        · exact ⟨0, doc0, v, by simp, h⟩
        · exact ⟨k + 1, doc, v, hk, h⟩
    rw [split0, ← shift, ← ih (i + 1)]
    simp only [ingestFrom]
    split
    · rename_i hlt
      constructor
      · intro h; exact Or.inr h
      · rintro (⟨v, h, _⟩ | h)
        · omega
        · exact h
    · rename_i hge
      split
      · rename_i hnone
        constructor
        · intro h; exact Or.inr h
        · rintro (⟨v, _, h, _⟩ | h)
          · rw [hnone] at h; cases h
          · exact h
      · rename_i v hsome
        rw [List.mem_cons]
        constructor
        · rintro (h | h)
          · exact Or.inl ⟨v, by omega, hsome, h⟩
          · exact Or.inr h
        · rintro (⟨w, _, h, hd⟩ | h)
          · rw [hsome] at h
            cases h
            exact Or.inl hd
          · exact Or.inr h

theorem length_le_len (s : List Char) : s.length ≤ len s := by
  induction s with
  | nil => simp [len]
  | cons c s ih =>
    have hc : 1 ≤ c.utf8Size := Char.utf8Size_pos c
    simp only [len, List.map_cons, List.sum_cons, List.length_cons] at *
    omega

theorem len_sublist {s t : List Char} (h : s.Sublist t) : len s ≤ len t := by
  induction h with
  | slnil => exact le_refl _
  | cons c _ ih =>
    simp only [len, List.map_cons, List.sum_cons] at *
    omega
  | cons₂ c _ ih =>
    simp only [len, List.map_cons, List.sum_cons] at *
    omega

theorem TrimSpace_sublist (s : List Char) : (TrimSpace s).Sublist s := by
  unfold TrimSpace
  have h1 : ((s.dropWhile isSpace).reverse.dropWhile isSpace).Sublist
      (s.dropWhile isSpace).reverse := (List.dropWhile_suffix _).sublist
  have h2 := h1.reverse
  rw [List.reverse_reverse] at h2
  exact h2.trans (List.dropWhile_suffix _).sublist

/-- C8 fails when length is counted in characters: the passage
`ação ação ação ação` has 19 characters (27 bytes in UTF-8) and the loop
yields a Document from it. -/
theorem ingest_yields_19_characters :
    (TrimSpace "ação ação ação ação".toList).length = 19 ∧
    ingest (fun _ _ => some []) [⟨[], "ação ação ação ação".toList, [], []⟩] =
      [⟨docID 0, "ação ação ação ação".toList, [], []⟩] := by
  decide

/-- C8, as amended. For every sequence of raw passages, every embedding
function and every passage `doc` at index `i`: if the trimmed content of `doc`
has fewer than 20 bytes, no Document of the output carries the identifier of
passage `i`; if it has at least 20 bytes, and in particular if it has 21
characters, every successful embedding call for it puts its Document in the
output, whatever happens to the other passages. -/
theorem ingest_length_filter (embed : Nat → List Char → Option (List GoFloat))
    (rawDocs : List Document) (i : Nat) (doc : Document) (h : rawDocs[i]? = some doc) :
    (len (TrimSpace doc.Content) < 20 → ∀ d ∈ ingest embed rawDocs, d.ID ≠ docID i) ∧
    (20 ≤ len (TrimSpace doc.Content) ∨ (TrimSpace doc.Content).length = 21 →
      ∀ v, embed i (TrimSpace doc.Content) = some v →
        { doc with Vector := v, ID := docID i } ∈ ingest embed rawDocs) := by
  constructor
  · intro hlt d hd hid
    rw [ingest, mem_ingestFrom] at hd
    obtain ⟨k, doc', v, hk, hge, _, rfl⟩ := hd
    simp only [Nat.zero_add] at hid
    have := docID_injective hid
    subst this
    rw [h] at hk
    cases hk
    omega
  · intro hge v hv
    rw [ingest, mem_ingestFrom]
    refine ⟨i, doc, v, h, ?_, by simpa using hv, by simp⟩
    rcases hge with hge | hge
    · exact hge
    · have := length_le_len (TrimSpace doc.Content)
      omega

set_option maxRecDepth 200000 in
/-- Witness of the amended C8: a batch with a short passage, a passage of 21
characters and a passage whose embedding fails. -/
theorem ingest_length_filter_witness :
    ([⟨[], "too short".toList, [], []⟩, ⟨[], " 123456789012345678901 ".toList, [], []⟩,
        ⟨[], "conta digital e maquininha".toList, [], []⟩] : List Document)[1]? =
      some ⟨[], " 123456789012345678901 ".toList, [], []⟩ ∧
    ⟨docID 1, " 123456789012345678901 ".toList, [], [.fin false 1 0]⟩ ∈
      ingest (fun k _ => if k = 1 then some [.fin false 1 0] else none)
        [⟨[], "too short".toList, [], []⟩, ⟨[], " 123456789012345678901 ".toList, [], []⟩,
          ⟨[], "conta digital e maquininha".toList, [], []⟩] :=
  ⟨rfl, (ingest_length_filter (fun k _ => if k = 1 then some [.fin false 1 0] else none) _ 1
    ⟨[], " 123456789012345678901 ".toList, [], []⟩ rfl).2 (Or.inr (by decide))
    [.fin false 1 0] rfl⟩

set_option maxRecDepth 200000 in
/-- C9 fails: the loop stores the passage as it came. From the raw passage
`  InfinitePay offers a card machine  ` it yields a Document whose content
still has the blanks around it, which is not the normalized text of any raw
passage. -/
theorem ingest_content_not_normalized :
    ¬ ∀ d ∈ ingest (fun _ _ => some [])
        [⟨[], "  InfinitePay offers a card machine  ".toList, [], []⟩],
      ∃ doc ∈ ([⟨[], "  InfinitePay offers a card machine  ".toList, [], []⟩] : List Document),
        d.Content = normalizeText doc.Content ∧ d.Content ≠ [] ∧ 20 ≤ len d.Content := by
  decide

/-- C9, as amended. Every Document produced by the ingestion loop comes from a
raw passage with the same trimmed text; that trimmed text has at least 20
bytes, so the content of the Document is non-empty and has at least 20
bytes. -/
theorem ingest_content_invariant (embed : Nat → List Char → Option (List GoFloat))
    (rawDocs : List Document) (d : Document) (hd : d ∈ ingest embed rawDocs) :
    ∃ (i : Nat) (doc : Document), rawDocs[i]? = some doc ∧ TrimSpace d.Content = TrimSpace doc.Content ∧
      20 ≤ len (TrimSpace d.Content) ∧ d.Content ≠ [] ∧ 20 ≤ len d.Content := by
  rw [ingest, mem_ingestFrom] at hd
  obtain ⟨k, doc, v, hk, hge, _, rfl⟩ := hd
  have hle := len_sublist (TrimSpace_sublist doc.Content)
  refine ⟨k, doc, hk, rfl, hge, ?_, by simp only; omega⟩
  intro h0
  simp only at h0
  rw [h0] at hge
  exact absurd hge (by decide)

set_option maxRecDepth 200000 in
/-- Witness of the amended C9: the Document that the loop yields from the raw
passage `  InfinitePay offers a card machine  `. -/
theorem ingest_content_invariant_witness :
    ∃ (i : Nat) (doc : Document), ([⟨[], "  InfinitePay offers a card machine  ".toList, [], []⟩] :
        List Document)[i]? = some doc ∧
      TrimSpace (Document.Content
        ⟨docID 0, "  InfinitePay offers a card machine  ".toList, [], []⟩) =
        TrimSpace doc.Content ∧
      20 ≤ len (TrimSpace (Document.Content
        ⟨docID 0, "  InfinitePay offers a card machine  ".toList, [], []⟩)) ∧
      Document.Content ⟨docID 0, "  InfinitePay offers a card machine  ".toList, [], []⟩ ≠ [] ∧
      20 ≤ len (Document.Content
        ⟨docID 0, "  InfinitePay offers a card machine  ".toList, [], []⟩) :=
  ingest_content_invariant (fun _ _ => some [])
    [⟨[], "  InfinitePay offers a card machine  ".toList, [], []⟩]
    ⟨docID 0, "  InfinitePay offers a card machine  ".toList, [], []⟩ (by decide)

theorem ingestFrom_indices (embed : Nat → List Char → Option (List GoFloat)) (i : Nat)
    (rawDocs : List Document) :
    ∃ idxs : List Nat, idxs.Pairwise (fun a b => a < b) ∧ (∀ k ∈ idxs, i ≤ k) ∧
      List.Forall₂ (fun d k => i ≤ k ∧ ∃ (doc : Document) (v : List GoFloat),
        rawDocs[k - i]? = some doc ∧ d = { doc with Vector := v, ID := docID k })
        (ingestFrom embed i rawDocs) idxs := by
  induction rawDocs generalizing i with
  | nil => exact ⟨[], List.Pairwise.nil, by simp, by simp [ingestFrom]⟩
  | cons doc0 rest ih =>
    obtain ⟨idxs, hpw, hge, hall⟩ := ih (i + 1)
    have hall' : List.Forall₂ (fun d k => i ≤ k ∧ ∃ (doc : Document) (v : List GoFloat),
        (doc0 :: rest)[k - i]? = some doc ∧ d = { doc with Vector := v, ID := docID k })
        (ingestFrom embed (i + 1) rest) idxs := by
      refine List.Forall₂.imp ?_ hall
      rintro d k ⟨hk, doc, v, hget, hd⟩
      refine ⟨by omega, doc, v, ?_, hd⟩
      have : k - i = (k - (i + 1)) + 1 := by omega
      rw [this, List.getElem?_cons_succ]
      exact hget
    have hge' : ∀ k ∈ idxs, i ≤ k := fun k hk => by have := hge k hk; omega
    simp only [ingestFrom]
    split
    · exact ⟨idxs, hpw, hge', hall'⟩
    · split
      · exact ⟨idxs, hpw, hge', hall'⟩
      · rename_i v hv
        refine ⟨i :: idxs, List.Pairwise.cons (fun k hk => by have := hge k hk; omega) hpw, ?_,
          List.Forall₂.cons ⟨le_refl _, doc0, v, by simp, rfl⟩ hall'⟩
        intro k hk
        rcases List.mem_cons.mp hk with rfl | hk
        · exact le_refl _
        · exact hge' k hk

theorem ids_of_indices {R : Document → Nat → Prop} {l : List Document} {idxs : List Nat}
    (h : List.Forall₂ R l idxs) (hR : ∀ d k, R d k → d.ID = docID k) :
    l.map (fun d => d.ID) = idxs.map docID := by
  induction h with
  | nil => rfl
  | cons hd _ ih => simp [hR _ _ hd, ih]

/-- C10. For every sequence of raw passages and every embedding function there
is a strictly increasing list of indices, one for each Document of the output
in order, such that the Document at index `i` is raw passage `i` with its
vector set and with the identifier `doc_` followed by the decimal digits of
`i` (the index counts all raw passages); the identifiers of the output are
pairwise distinct. -/
theorem ingest_identifiers (embed : Nat → List Char → Option (List GoFloat))
    (rawDocs : List Document) :
    ∃ idxs : List Nat, idxs.Pairwise (fun a b => a < b) ∧
      List.Forall₂ (fun d i => ∃ (doc : Document) (v : List GoFloat),
        rawDocs[i]? = some doc ∧ d = { doc with Vector := v, ID := "doc_".toList ++ decimal i })
        (ingest embed rawDocs) idxs ∧
      ((ingest embed rawDocs).map (fun d => d.ID)).Nodup := by
  obtain ⟨idxs, hpw, _, hall⟩ := ingestFrom_indices embed 0 rawDocs
  have hall' : List.Forall₂ (fun d i => ∃ (doc : Document) (v : List GoFloat),
      rawDocs[i]? = some doc ∧ d = { doc with Vector := v, ID := "doc_".toList ++ decimal i })
      (ingest embed rawDocs) idxs := by
    refine List.Forall₂.imp ?_ hall
    rintro d k ⟨_, doc, v, hget, hd⟩
    exact ⟨doc, v, by simpa using hget, hd⟩
  refine ⟨idxs, hpw, hall', ?_⟩
  rw [ids_of_indices hall' (by rintro d k ⟨doc, v, _, rfl⟩; rfl)]
  refine List.Nodup.map (fun a b h => docID_injective h) ?_
  exact hpw.imp (fun h => Nat.ne_of_lt h)

set_option maxRecDepth 200000 in
/-- The identifiers of a batch of four passages of which the second is too
short and the third fails to embed. -/
theorem ingest_identifiers_sample :
    (ingest (fun k _ => if k = 2 then none else some [])
      [⟨[], "conta digital e maquininha".toList, [], []⟩, ⟨[], "too short".toList, [], []⟩,
        ⟨[], "Cloudwalk is a fintech company".toList, [], []⟩,
        ⟨[], "InfinitePay offers a card machine".toList, [], []⟩]).map (fun d => d.ID) =
      ["doc_0".toList, "doc_3".toList] := by
  decide

/-! ## Rounding -/

theorem bitLenAux_spec (fuel n : Nat) (h : n ≤ fuel) :
    n < 2 ^ bitLenAux fuel n ∧ (0 < n → 2 ^ (bitLenAux fuel n - 1) ≤ n) := by
  induction fuel generalizing n with
  | zero =>
    have : n = 0 := by omega
    subst this
    simp [bitLenAux]
  | succ fuel ih =>
    simp only [bitLenAux]
    split
    · rename_i h0
      subst h0
      simp
    · rename_i h0
      obtain ⟨h1, h2⟩ := ih (n / 2) (by omega)
      constructor
      · rw [pow_succ]
        omega
      · intro _
        simp only [Nat.add_sub_cancel]
        rcases Nat.eq_zero_or_pos (n / 2) with hz | hp
        · have hk : bitLenAux fuel (n / 2) = 0 := by
            rw [hz]
            cases fuel <;> simp [bitLenAux]
          rw [hk]
          simp
          omega
        · have h3 := h2 hp
          have hk : bitLenAux fuel (n / 2) ≠ 0 := by
            intro hk
            rw [hk] at h1
            simp at h1
            omega
          obtain ⟨k, hk'⟩ := Nat.exists_eq_succ_of_ne_zero hk
          rw [hk'] at h3 ⊢
          simp only [Nat.succ_sub_one] at h3
          rw [pow_succ]
          omega

theorem bitLen_spec (n : Nat) (h : 0 < n) :
    2 ^ (bitLen n - 1) ≤ n ∧ n < 2 ^ bitLen n ∧ 0 < bitLen n := by
  obtain ⟨h1, h2⟩ := bitLenAux_spec n n (le_refl _)
  refine ⟨h2 h, h1, ?_⟩
  unfold bitLen
  rcases Nat.eq_zero_or_pos (bitLenAux n n) with hz | hp
  · rw [hz] at h1
    simp at h1
    omega
  · exact hp

theorem pow_toNat (l : Int) (h : 0 ≤ l) : ((2 ^ l.toNat : Nat) : ℚ) = (2 : ℚ) ^ l := by
  have h1 : ((l.toNat : Nat) : Int) = l := Int.toNat_of_nonneg h
  push_cast
  rw [← zpow_natCast, h1]

theorem pow_toNat_neg (l : Int) (h : l ≤ 0) : ((2 ^ l.toNat : Nat) : ℚ) = 1 := by
  have : l.toNat = 0 := Int.toNat_eq_zero.mpr h
  simp [this]

/-- The quotient `(N * 2^s⁺) / (D * 2^(-s)⁺)` is `(N / D) * 2^s`. -/
theorem shift_quot (N D : Nat) (s : Int) (hD : 0 < D) :
    ((N * 2 ^ s.toNat : Nat) : ℚ) / ((D * 2 ^ (-s).toNat : Nat) : ℚ) =
      (N : ℚ) / (D : ℚ) * (2 : ℚ) ^ s := by
  have hD' : (D : ℚ) ≠ 0 := by exact_mod_cast hD.ne'
  rcases le_total 0 s with h | h
  · rw [Nat.cast_mul, Nat.cast_mul, pow_toNat s h, pow_toNat_neg (-s) (by omega)]
    field_simp
  · rw [Nat.cast_mul, Nat.cast_mul, pow_toNat_neg s h, pow_toNat (-s) (by omega), zpow_neg]
    have : (2 : ℚ) ^ s ≠ 0 := (two_zpow_pos s).ne'
    field_simp

theorem floorLog2_spec (N D : Nat) (hN : 0 < N) (hD : 0 < D) :
    (2 : ℚ) ^ floorLog2 N D ≤ (N : ℚ) / D ∧ (N : ℚ) / D < (2 : ℚ) ^ (floorLog2 N D + 1) := by
  obtain ⟨n1, n2, n3⟩ := bitLen_spec N hN
  obtain ⟨d1, d2, d3⟩ := bitLen_spec D hD
  have hD' : (0 : ℚ) < D := by exact_mod_cast hD
  have hN' : (0 : ℚ) < N := by exact_mod_cast hN
  have n1' : (2 : ℚ) ^ ((bitLen N : Int) - 1) ≤ N := by
    have : ((2 ^ (bitLen N - 1) : Nat) : ℚ) ≤ N := by exact_mod_cast n1
    rw [Nat.cast_pow, ← zpow_natCast] at this
    have e : ((bitLen N - 1 : Nat) : Int) = (bitLen N : Int) - 1 := by omega
    rw [e] at this
    exact_mod_cast this
  have n2' : (N : ℚ) < (2 : ℚ) ^ (bitLen N : Int) := by
    have : (N : ℚ) < ((2 ^ bitLen N : Nat) : ℚ) := by exact_mod_cast n2
    rw [Nat.cast_pow, ← zpow_natCast] at this
    exact_mod_cast this
  have d1' : (2 : ℚ) ^ ((bitLen D : Int) - 1) ≤ D := by
    have : ((2 ^ (bitLen D - 1) : Nat) : ℚ) ≤ D := by exact_mod_cast d1
    rw [Nat.cast_pow, ← zpow_natCast] at this
    have e : ((bitLen D - 1 : Nat) : Int) = (bitLen D : Int) - 1 := by omega
    rw [e] at this
    exact_mod_cast this
  have d2' : (D : ℚ) < (2 : ℚ) ^ (bitLen D : Int) := by
    have : (D : ℚ) < ((2 ^ bitLen D : Nat) : ℚ) := by exact_mod_cast d2
    rw [Nat.cast_pow, ← zpow_natCast] at this
    exact_mod_cast this
  have two_ne : (2 : ℚ) ≠ 0 := by norm_num
  -- the test of `floorLog2`, read in ℚ
  have htest : (D * 2 ^ ((bitLen N : Int) - (bitLen D : Int)).toNat ≤
      N * 2 ^ (-((bitLen N : Int) - (bitLen D : Int))).toNat) ↔
      (2 : ℚ) ^ ((bitLen N : Int) - (bitLen D : Int)) ≤ (N : ℚ) / D := by
    rw [le_div_iff₀ hD']
    have := shift_quot N D (-((bitLen N : Int) - (bitLen D : Int))) hD
    rw [neg_neg] at this
    rw [← Nat.cast_le (α := ℚ)]
    have hpos : (0 : ℚ) < ((D * 2 ^ ((bitLen N : Int) - (bitLen D : Int)).toNat : Nat) : ℚ) := by
      have : 0 < D * 2 ^ ((bitLen N : Int) - (bitLen D : Int)).toNat := by positivity
      exact_mod_cast this
    rw [← one_le_div hpos, this, zpow_neg, ← div_eq_mul_inv, le_div_iff₀ (two_zpow_pos _),
      one_mul, le_div_iff₀ hD']
  unfold floorLog2
  simp only []
  split
  · rename_i hc
    refine ⟨htest.mp hc, ?_⟩
    rw [div_lt_iff₀ hD']
    calc (N : ℚ) < (2 : ℚ) ^ (bitLen N : Int) := n2'
      _ = (2 : ℚ) ^ ((bitLen N : Int) - (bitLen D : Int) + 1) * (2 : ℚ) ^ ((bitLen D : Int) - 1) := by
        rw [← zpow_add₀ two_ne]
        congr 1
        ring
      _ ≤ (2 : ℚ) ^ ((bitLen N : Int) - (bitLen D : Int) + 1) * D :=
        mul_le_mul_of_nonneg_left d1' (two_zpow_pos _).le
  · rename_i hc
    have hlt : (N : ℚ) / D < (2 : ℚ) ^ ((bitLen N : Int) - (bitLen D : Int)) := by
      rw [← not_le]
      exact fun h => hc (htest.mpr h)
    refine ⟨?_, by simpa using hlt⟩
    rw [le_div_iff₀ hD']
    calc (2 : ℚ) ^ ((bitLen N : Int) - (bitLen D : Int) - 1) * D
        ≤ (2 : ℚ) ^ ((bitLen N : Int) - (bitLen D : Int) - 1) * (2 : ℚ) ^ (bitLen D : Int) :=
          mul_le_mul_of_nonneg_left d2'.le (two_zpow_pos _).le
      _ = (2 : ℚ) ^ ((bitLen N : Int) - 1) := by
        rw [← zpow_add₀ two_ne]
        congr 1
        ring
      _ ≤ N := n1'

theorem roundNearestEven_spec (N D : Nat) (hD : 0 < D) :
    NearestEven (roundNearestEven N D) ((N : ℚ) / D) := by
  have hD' : (0 : ℚ) < D := by exact_mod_cast hD
  have hdm : (N : ℚ) = (D : ℚ) * ((N / D : Nat) : ℚ) + ((N % D : Nat) : ℚ) := by
    exact_mod_cast (Nat.div_add_mod N D).symm
  have hu : (N : ℚ) / D = ((N / D : Nat) : ℚ) + ((N % D : Nat) : ℚ) / D := by
    rw [hdm]
    field_simp
    ring
  have hr : N % D < D := Nat.mod_lt _ hD
  have hr' : ((N % D : Nat) : ℚ) < D := by exact_mod_cast hr
  have hr0 : (0 : ℚ) ≤ ((N % D : Nat) : ℚ) := by positivity
  unfold roundNearestEven NearestEven
  simp only []
  rw [hu]
  split
  · rename_i h1
    have h1' : (2 : ℚ) * ((N % D : Nat) : ℚ) < D := by exact_mod_cast h1
    have hf : ((N % D : Nat) : ℚ) / D < 1 / 2 := by
      rw [div_lt_iff₀ hD']; linarith
    have hf0 : (0 : ℚ) ≤ ((N % D : Nat) : ℚ) / D := by positivity
    refine ⟨by linarith, by linarith, ?_, ?_⟩ <;> intro h <;> exfalso <;> linarith
  · rename_i h1
    split
    · rename_i h2
      have h2' : (D : ℚ) < 2 * ((N % D : Nat) : ℚ) := by exact_mod_cast h2
      have hf : 1 / 2 < ((N % D : Nat) : ℚ) / D := by
        rw [lt_div_iff₀ hD']; linarith
      have hf1 : ((N % D : Nat) : ℚ) / D < 1 := by
        rw [div_lt_iff₀ hD']; linarith
      push_cast
      refine ⟨by linarith, by linarith, ?_, ?_⟩ <;> intro h <;> exfalso <;> linarith
    · rename_i h2
      have h3 : 2 * (N % D) = D := by omega
      have h3' : (2 : ℚ) * ((N % D : Nat) : ℚ) = D := by exact_mod_cast h3
      have hf : ((N % D : Nat) : ℚ) / D = 1 / 2 := by
        rw [div_eq_iff hD'.ne']; linarith
      rw [hf]
      split
      · rename_i h4
        refine ⟨by linarith, by linarith, fun _ => h4, fun _ => h4⟩
      · rename_i h4
        have h5 : (N / D + 1) % 2 = 0 := by omega
        push_cast
        refine ⟨by linarith, by linarith, fun _ => h5, fun _ => h5⟩

theorem NearestEven.nearest_mono {m m' : Nat} {u u' : ℚ} (h : NearestEven m u) (h' : NearestEven m' u')
    (huu : u ≤ u') : m ≤ m' := by
  by_contra hc
  have hlt : m' + 1 ≤ m := by omega
  have hlt' : (m' : ℚ) + 1 ≤ m := by exact_mod_cast hlt
  obtain ⟨a1, _, a3, _⟩ := h
  obtain ⟨_, b2, _, b4⟩ := h'
  have e1 : (m : ℚ) = u + 1 / 2 := by linarith
  have e2 : (m' : ℚ) = u' - 1 / 2 := by linarith
  have e3 : (m : ℚ) = m' + 1 := by linarith
  have e3' : m = m' + 1 := by exact_mod_cast e3
  have := a3 e1
  have := b4 e2
  omega

theorem NearestEven.of_int {m : Nat} {K : Nat} (h : NearestEven m (K : ℚ)) : m = K := by
  obtain ⟨a1, a2, _, _⟩ := h
  have h1 : (m : ℚ) < K + 1 := by linarith
  have h2 : (K : ℚ) < m + 1 := by linarith
  have h1' : m < K + 1 := by exact_mod_cast h1
  have h2' : K < m + 1 := by exact_mod_cast h2
  omega

theorem NearestEven.ge_int {m : Nat} {u : ℚ} {K : Nat} (h : NearestEven m u) (hK : (K : ℚ) ≤ u) :
    K ≤ m := by
  obtain ⟨_, a2, _, _⟩ := h
  have h2 : (K : ℚ) < m + 1 := by linarith
  have h2' : K < m + 1 := by exact_mod_cast h2
  omega

theorem NearestEven.le_int {m : Nat} {u : ℚ} {K : Nat} (h : NearestEven m u) (hK : u ≤ (K : ℚ)) :
    m ≤ K := by
  obtain ⟨a1, _, _, _⟩ := h
  have h2 : (m : ℚ) < K + 1 := by linarith
  have h2' : m < K + 1 := by exact_mod_cast h2
  omega

theorem stripZeros_value (fuel m : Nat) (e : Int) :
    ((stripZeros fuel m e).1 : ℚ) * (2 : ℚ) ^ (stripZeros fuel m e).2 = (m : ℚ) * (2 : ℚ) ^ e := by
  induction fuel generalizing m e with
  | zero => rfl
  | succ fuel ih =>
    simp only [stripZeros]
    split
    · rename_i h
      rw [ih]
      have hm : m = 2 * (m / 2) := by omega
      have hm' : (m : ℚ) = 2 * ((m / 2 : Nat) : ℚ) := by exact_mod_cast hm
      rw [zpow_add₀ (by norm_num : (2 : ℚ) ≠ 0), zpow_one]
      calc ((m / 2 : Nat) : ℚ) * ((2 : ℚ) ^ e * 2) = (2 * ((m / 2 : Nat) : ℚ)) * (2 : ℚ) ^ e := by ring
        _ = (m : ℚ) * (2 : ℚ) ^ e := by rw [← hm']
    · rfl

theorem normalize_cases (neg : Bool) (m : Nat) (e : Int) :
    ∃ m' e', normalize neg m e = .fin neg m' e' ∧ (m' : ℚ) * (2 : ℚ) ^ e' = (m : ℚ) * (2 : ℚ) ^ e := by
  unfold normalize
  split
  · rename_i h
    exact ⟨0, 0, rfl, by simp [h]⟩
  · exact ⟨_, _, rfl, stripZeros_value m m e⟩

theorem key_normalize (neg : Bool) (m : Nat) (e : Int) :
    (normalize neg m e).key = ((finVal neg m e : WithTop ℚ) : WithBot (WithTop ℚ)) := by
  obtain ⟨m', e', h1, h2⟩ := normalize_cases neg m e
  rw [h1]
  simp only [GoFloat.key, finVal]
  rw [mul_assoc, h2, ← mul_assoc]

theorem roundTo_neg (f : Format) (N D : Nat) (x : Int) :
    roundTo f true N D x = (roundTo f false N D x).neg := by
  unfold roundTo
  simp only []
  split
  · rfl
  · split
    · rfl
    · obtain ⟨m', e', h1, h2⟩ := normalize_cases false
        (roundNearestEven (N * 2 ^ (x - max (floorLog2 N D + x - ((f.prec : Int) - 1)) f.emin).toNat)
          (D * 2 ^ (-(x - max (floorLog2 N D + x - ((f.prec : Int) - 1)) f.emin)).toNat))
        (max (floorLog2 N D + x - ((f.prec : Int) - 1)) f.emin)
      unfold normalize
      split <;> rfl

theorem roundTo_rounds (f : Format) (N D : Nat) (x : Int) (hN : 0 < N) (hD : 0 < D) :
    Rounds f ((N : ℚ) / D * (2 : ℚ) ^ x) (roundTo f false N D x).key := by
  obtain ⟨l1, l2⟩ := floorLog2_spec N D hN hD
  have two_ne : (2 : ℚ) ≠ 0 := by norm_num
  refine ⟨floorLog2 N D + x, max (floorLog2 N D + x - ((f.prec : Int) - 1)) f.emin,
    roundNearestEven (N * 2 ^ (x - max (floorLog2 N D + x - ((f.prec : Int) - 1)) f.emin).toNat)
      (D * 2 ^ (-(x - max (floorLog2 N D + x - ((f.prec : Int) - 1)) f.emin)).toNat), ?_, ?_, rfl, ?_, ?_⟩
  · rw [zpow_add₀ two_ne]
    exact mul_le_mul_of_nonneg_right l1 (two_zpow_pos _).le
  · rw [show floorLog2 N D + x + 1 = (floorLog2 N D + 1) + x by ring, zpow_add₀ two_ne]
    exact mul_lt_mul_of_pos_right l2 (two_zpow_pos _)
  · have h := roundNearestEven_spec
      (N * 2 ^ (x - max (floorLog2 N D + x - ((f.prec : Int) - 1)) f.emin).toNat)
      (D * 2 ^ (-(x - max (floorLog2 N D + x - ((f.prec : Int) - 1)) f.emin)).toNat)
      (by positivity)
    rw [shift_quot N D _ hD] at h
    rw [zpow_sub₀ two_ne] at h
    rw [mul_div_assoc]
    exact h
  · unfold roundTo
    simp only [hN.ne', if_false]
    split
    · rfl
    · rw [key_normalize]
      simp [finVal]

theorem zpow_two_le {a b : Int} (h : a ≤ b) : (2 : ℚ) ^ a ≤ (2 : ℚ) ^ b :=
  zpow_le_zpow_right₀ (by norm_num) h

theorem zpow_two_lt_imp {a b : Int} (h : (2 : ℚ) ^ a < (2 : ℚ) ^ b) : a < b := by
  by_contra hc
  have := zpow_two_le (not_lt.mp hc)
  linarith

theorem fin_le_top (q : ℚ) :
    ((q : WithTop ℚ) : WithBot (WithTop ℚ)) ≤ ((⊤ : WithTop ℚ) : WithBot (WithTop ℚ)) :=
  WithBot.coe_le_coe.mpr le_top

theorem fin_le_fin {a b : ℚ} (h : a ≤ b) :
    ((a : WithTop ℚ) : WithBot (WithTop ℚ)) ≤ ((b : WithTop ℚ) : WithBot (WithTop ℚ)) :=
  WithBot.coe_le_coe.mpr (WithTop.coe_le_coe.mpr h)

theorem Rounds.rounds_mono {f : Format} (hp : 0 < f.prec) {v v' : ℚ} {k k' : WithBot (WithTop ℚ)}
    (h : Rounds f v k) (h' : Rounds f v' k') (hvv : v ≤ v') : k ≤ k' := by
  obtain ⟨E, t, M, e1, e2, ht, hM, hk⟩ := h
  obtain ⟨E', t', M', e1', e2', ht', hM', hk'⟩ := h'
  have two_ne : (2 : ℚ) ≠ 0 := by norm_num
  have hEE : E ≤ E' := by
    have : (2 : ℚ) ^ E < (2 : ℚ) ^ (E' + 1) := by linarith
    have := zpow_two_lt_imp this
    omega
  have htt : t ≤ t' := by
    rw [ht, ht']
    exact max_le_max (by omega) (le_refl _)
  have hemin : f.emin ≤ t := by rw [ht]; exact le_max_right _ _
  have hEt : E - ((f.prec : Int) - 1) ≤ t := by rw [ht]; exact le_max_left _ _
  rw [hk, hk']
  by_cases hovf' : f.emax < t' ∨ (t' = f.emax ∧ 2 ^ f.prec ≤ M')
  · rw [if_pos hovf']
    split
    · exact le_refl _
    · exact fin_le_top _
  · rw [if_neg hovf']
    have ho1 : t' ≤ f.emax := by
      by_contra hc
      exact hovf' (Or.inl (by omega))
    have ho2 : t' = f.emax → M' < 2 ^ f.prec := by
      intro he
      by_contra hc
      exact hovf' (Or.inr ⟨he, by omega⟩)
    rcases eq_or_lt_of_le htt with heq | hlt
    · -- same quantum
      have hu : v / (2 : ℚ) ^ t ≤ v' / (2 : ℚ) ^ t' := by
        rw [← heq]
        exact div_le_div_of_nonneg_right hvv (two_zpow_pos t).le
      have hMM : M ≤ M' := hM.nearest_mono hM' hu
      have hno : ¬ (f.emax < t ∨ (t = f.emax ∧ 2 ^ f.prec ≤ M)) := by
        rintro (h1 | ⟨h1, h2⟩)
        · omega
        · have := ho2 (by omega)
          omega
      rw [if_neg hno]
      apply fin_le_fin
      rw [← heq]
      exact mul_le_mul_of_nonneg_right (by exact_mod_cast hMM) (two_zpow_pos t).le
    · -- the quantum grows
      have hno : ¬ (f.emax < t ∨ (t = f.emax ∧ 2 ^ f.prec ≤ M)) := by
        rintro (h1 | ⟨h1, _⟩) <;> omega
      rw [if_neg hno]
      apply fin_le_fin
      have ht'E : t' = E' - ((f.prec : Int) - 1) := by
        rcases max_choice (E' - ((f.prec : Int) - 1)) f.emin with hc | hc
        · rw [ht', hc]
        · rw [ht', hc] at hlt
          omega
      have hE1 : E + 1 ≤ E' := by omega
      -- the larger result is at least `2^E'`
      have hbig : (2 : ℚ) ^ E' ≤ (M' : ℚ) * (2 : ℚ) ^ t' := by
        have hu' : ((2 ^ (f.prec - 1) : Nat) : ℚ) ≤ v' / (2 : ℚ) ^ t' := by
          rw [le_div_iff₀ (two_zpow_pos t'), Nat.cast_pow, ← zpow_natCast, Nat.cast_ofNat,
            ← zpow_add₀ two_ne]
          have : ((f.prec - 1 : Nat) : Int) + t' = E' := by omega
          rw [this]
          exact e1'
        have hge := hM'.ge_int hu'
        have hge' : ((2 ^ (f.prec - 1) : Nat) : ℚ) ≤ (M' : ℚ) := by exact_mod_cast hge
        calc (2 : ℚ) ^ E' = ((2 ^ (f.prec - 1) : Nat) : ℚ) * (2 : ℚ) ^ t' := by
              rw [Nat.cast_pow, ← zpow_natCast, Nat.cast_ofNat, ← zpow_add₀ two_ne]
              congr 1
              omega
          _ ≤ (M' : ℚ) * (2 : ℚ) ^ t' := mul_le_mul_of_nonneg_right hge' (two_zpow_pos t').le
      -- the smaller result is at most `2^(E+1)`
      have hsmall : (M : ℚ) * (2 : ℚ) ^ t ≤ (2 : ℚ) ^ (E + 1) := by
        have hu : v / (2 : ℚ) ^ t < (2 : ℚ) ^ (E + 1 - t) := by
          rw [div_lt_iff₀ (two_zpow_pos t), ← zpow_add₀ two_ne]
          have : E + 1 - t + t = E + 1 := by ring
          rw [this]
          exact e2
        rcases le_or_lt 0 (E + 1 - t) with hd | hd
        · have hK : v / (2 : ℚ) ^ t ≤ ((2 ^ (E + 1 - t).toNat : Nat) : ℚ) := by
            rw [pow_toNat _ hd]
            exact hu.le
          have hle := hM.le_int hK
          have hle' : (M : ℚ) ≤ ((2 ^ (E + 1 - t).toNat : Nat) : ℚ) := by exact_mod_cast hle
          rw [pow_toNat _ hd] at hle'
          calc (M : ℚ) * (2 : ℚ) ^ t ≤ (2 : ℚ) ^ (E + 1 - t) * (2 : ℚ) ^ t :=
                mul_le_mul_of_nonneg_right hle' (two_zpow_pos t).le
            _ = (2 : ℚ) ^ (E + 1) := by
              rw [← zpow_add₀ two_ne]
              congr 1
              ring
        · have h2 : (2 : ℚ) ^ (E + 1 - t) ≤ (2 : ℚ) ^ (-1 : Int) := zpow_two_le (by omega)
          have h3 : (2 : ℚ) ^ (-1 : Int) = 1 / 2 := by norm_num
          have hK : v / (2 : ℚ) ^ t ≤ ((0 : Nat) : ℚ) + 1 / 2 := by
            rw [h3] at h2
            simp only [Nat.cast_zero, zero_add]
            linarith
          obtain ⟨a1, _, _, _⟩ := hM
          have hM1 : (M : ℚ) < 1 := by
            rw [h3] at h2
            linarith
          have hM0 : M = 0 := by
            have : M < 1 := by exact_mod_cast hM1
            omega
          rw [hM0]
          simp only [Nat.cast_zero, zero_mul]
          exact (two_zpow_pos _).le
      calc (M : ℚ) * (2 : ℚ) ^ t ≤ (2 : ℚ) ^ (E + 1) := hsmall
        _ ≤ (2 : ℚ) ^ E' := zpow_two_le hE1
        _ ≤ (M' : ℚ) * (2 : ℚ) ^ t' := hbig

theorem Rounds.nonneg {f : Format} {v : ℚ} {k : WithBot (WithTop ℚ)} (h : Rounds f v k) :
    (((0 : ℚ) : WithTop ℚ) : WithBot (WithTop ℚ)) ≤ k := by
  obtain ⟨E, t, M, _, _, _, _, hk⟩ := h
  rw [hk]
  split
  · exact fin_le_top _
  · apply fin_le_fin
    have := two_zpow_pos t
    positivity

theorem finVal_not (n : Bool) (m : Nat) (e : Int) : finVal (!n) m e = - finVal n m e := by
  cases n <;> simp [finVal]

theorem key_neg_le (x y : GoFloat) (hx : x.isNaN = false) (hy : y.isNaN = false) :
    x.neg.key ≤ y.neg.key ↔ y.key ≤ x.key := by
  cases x with
  | nan => simp [GoFloat.isNaN] at hx
  | inf a =>
    cases y with
    | nan => simp [GoFloat.isNaN] at hy
    | inf b => cases a <;> cases b <;> simp [GoFloat.neg, GoFloat.key]
    | fin n m e => cases a <;> simp [GoFloat.neg, GoFloat.key]
  | fin n m e =>
    cases y with
    | nan => simp [GoFloat.isNaN] at hy
    | inf b => cases b <;> simp [GoFloat.neg, GoFloat.key]
    | fin n' m' e' =>
      simp only [GoFloat.neg, GoFloat.key, finVal_not, WithBot.coe_le_coe, WithTop.coe_le_coe,
        neg_le_neg_iff]

theorem neg_neg_float (x : GoFloat) : x.neg.neg = x := by
  cases x <;> simp [GoFloat.neg]

theorem isNaN_neg (x : GoFloat) : x.neg.isNaN = x.isNaN := by
  cases x <;> rfl

theorem key_zero_neg : (GoFloat.fin false 0 0).neg.key = (GoFloat.fin false 0 0).key := by
  simp [GoFloat.neg, GoFloat.key, finVal]

theorem key_zero : (GoFloat.fin false 0 0).key = (((0 : ℚ) : WithTop ℚ) : WithBot (WithTop ℚ)) := by
  simp [GoFloat.key, finVal]

theorem RoundsQ.roundsQ_mono {f : Format} (hp : 0 < f.prec) {q q' : ℚ} {y y' : GoFloat}
    (h : RoundsQ f q y) (h' : RoundsQ f q' y') (hqq : q ≤ q') : y.key ≤ y'.key := by
  obtain ⟨hn, h⟩ := h
  obtain ⟨hn', h'⟩ := h'
  have z0 : (GoFloat.fin false 0 0).isNaN = false := rfl
  -- sign facts
  have pos_of : ∀ {q : ℚ} {y : GoFloat}, Rounds f q y.key → (GoFloat.fin false 0 0).key ≤ y.key := by
    intro q y hr
    rw [key_zero]
    exact hr.nonneg
  have neg_of : ∀ {q : ℚ} {y : GoFloat}, y.isNaN = false → Rounds f q y.neg.key →
      y.key ≤ (GoFloat.fin false 0 0).key := by
    intro q y hy hr
    rw [← key_neg_le _ _ z0 hy, key_zero_neg, key_zero]
    exact hr.nonneg
  rcases h with ⟨h0, hk⟩ | ⟨hpos, hr⟩ | ⟨hneg, hr⟩
  · rcases h' with ⟨h0', hk'⟩ | ⟨hpos', hr'⟩ | ⟨hneg', hr'⟩
    · rw [hk, hk']
    · rw [hk, ← key_zero]
      exact pos_of hr'
    · linarith
  · rcases h' with ⟨h0', hk'⟩ | ⟨hpos', hr'⟩ | ⟨hneg', hr'⟩
    · linarith
    · exact hr.rounds_mono hp hr' hqq
    · linarith
  · rcases h' with ⟨h0', hk'⟩ | ⟨hpos', hr'⟩ | ⟨hneg', hr'⟩
    · rw [hk', ← key_zero]
      exact neg_of hn hr
    · exact le_trans (neg_of hn hr) (pos_of hr')
    · rw [← key_neg_le _ _ hn' hn]
      exact hr'.rounds_mono hp hr (by linarith)

theorem roundTo_not_nan (f : Format) (neg : Bool) (N D : Nat) (x : Int) :
    (roundTo f neg N D x).isNaN = false := by
  unfold roundTo
  simp only []
  split
  · rfl
  · split
    · rfl
    · unfold normalize
      split <;> rfl

theorem roundTo_roundsQ (f : Format) (neg : Bool) (N D : Nat) (x : Int) (hD : 0 < D) :
    RoundsQ f ((if neg then -1 else 1) * ((N : ℚ) / D * (2 : ℚ) ^ x)) (roundTo f neg N D x) := by
  refine ⟨roundTo_not_nan f neg N D x, ?_⟩
  have hD' : (0 : ℚ) < D := by exact_mod_cast hD
  rcases Nat.eq_zero_or_pos N with h0 | hN
  · left
    subst h0
    refine ⟨by simp, ?_⟩
    simp [roundTo, GoFloat.key, finVal]
  · have hN' : (0 : ℚ) < N := by exact_mod_cast hN
    have hv : (0 : ℚ) < (N : ℚ) / D * (2 : ℚ) ^ x := by
      have := two_zpow_pos x
      positivity
    cases neg with
    | false =>
      right; left
      simp only [Bool.false_eq_true, if_false, one_mul]
      exact ⟨hv, roundTo_rounds f N D x hN hD⟩
    | true =>
      right; right
      simp only [if_true, neg_mul, one_mul, neg_neg, Left.neg_neg_iff]
      refine ⟨hv, ?_⟩
      rw [roundTo_neg, neg_neg_float]
      exact roundTo_rounds f N D x hN hD

theorem finVal_eq (n : Bool) (m : Nat) (e : Int) :
    finVal n m e = (if n then -1 else 1) * ((m : ℚ) / (1 : Nat) * (2 : ℚ) ^ e) := by
  simp [finVal, mul_assoc]

theorem mul_roundsQ (f : Format) (n1 n2 : Bool) (m1 m2 : Nat) (e1 e2 : Int) :
    RoundsQ f (finVal n1 m1 e1 * finVal n2 m2 e2)
      (GoFloat.mul f (.fin n1 m1 e1) (.fin n2 m2 e2)) := by
  have h := roundTo_roundsQ f (xor n1 n2) (m1 * m2) 1 (e1 + e2) (by norm_num)
  have e : finVal n1 m1 e1 * finVal n2 m2 e2 =
      (if xor n1 n2 = true then -1 else 1) * (((m1 * m2 : Nat) : ℚ) / (1 : Nat) * (2 : ℚ) ^ (e1 + e2)) := by
    rw [zpow_add₀ (by norm_num : (2 : ℚ) ≠ 0)]
    cases n1 <;> cases n2 <;> simp [finVal] <;> ring
  rw [e]
  exact h

theorem div_roundsQ (f : Format) (n1 n2 : Bool) (m1 m2 : Nat) (e1 e2 : Int) (hm : 0 < m2) :
    RoundsQ f (finVal n1 m1 e1 / finVal n2 m2 e2)
      (GoFloat.div f (.fin n1 m1 e1) (.fin n2 m2 e2)) := by
  have h := roundTo_roundsQ f (xor n1 n2) m1 m2 (e1 - e2) hm
  have hm' : (m2 : ℚ) ≠ 0 := by exact_mod_cast hm.ne'
  have h2 : (2 : ℚ) ^ e2 ≠ 0 := (two_zpow_pos e2).ne'
  have e : finVal n1 m1 e1 / finVal n2 m2 e2 =
      (if xor n1 n2 = true then -1 else 1) * ((m1 : ℚ) / (m2 : ℚ) * (2 : ℚ) ^ (e1 - e2)) := by
    rw [zpow_sub₀ (by norm_num : (2 : ℚ) ≠ 0)]
    cases n1 <;> cases n2 <;> simp [finVal] <;> field_simp
  rw [e]
  simp only [GoFloat.div, hm.ne', if_false]
  exact h

theorem add_roundsQ (f : Format) (n1 n2 : Bool) (m1 m2 : Nat) (e1 e2 : Int) :
    RoundsQ f (finVal n1 m1 e1 + finVal n2 m2 e2)
      (GoFloat.add f (.fin n1 m1 e1) (.fin n2 m2 e2)) := by
  have hA := scaled_cast m1 e1 (min e1 e2) (min_le_left _ _)
  have hB := scaled_cast m2 e2 (min e1 e2) (min_le_right _ _)
  have hx := two_zpow_pos (min e1 e2)
  simp only [GoFloat.add]
  split
  · rename_i h0
    obtain ⟨h1, h2⟩ := h0
    subst h1 h2
    refine ⟨rfl, Or.inl ⟨by simp [finVal], by simp [GoFloat.key, finVal]⟩⟩
  · rename_i h0
    split
    · rename_i hs
      subst hs
      have h := roundTo_roundsQ f n1 (m1 * 2 ^ (e1 - min e1 e2).toNat + m2 * 2 ^ (e2 - min e1 e2).toNat)
        1 (min e1 e2) (by norm_num)
      have e : finVal n1 m1 e1 + finVal n1 m2 e2 = (if n1 = true then -1 else 1) *
          (((m1 * 2 ^ (e1 - min e1 e2).toNat + m2 * 2 ^ (e2 - min e1 e2).toNat : Nat) : ℚ) /
            (1 : Nat) * (2 : ℚ) ^ (min e1 e2)) := by
        rw [Nat.cast_add, Nat.cast_one, div_one, add_mul, hA, hB]
        simp only [finVal]
        ring
      rw [e]
      exact h
    · rename_i hs
      have hsgn : (if n2 = true then (-1 : ℚ) else 1) = - (if n1 = true then (-1 : ℚ) else 1) := by
        cases n1 <;> cases n2 <;> simp at hs ⊢
      split
      · rename_i hAB
        have hAB' : (m1 : ℚ) * (2 : ℚ) ^ e1 = (m2 : ℚ) * (2 : ℚ) ^ e2 := by
          rw [← hA, ← hB, hAB]
        refine ⟨rfl, Or.inl ⟨?_, by simp [GoFloat.key, finVal]⟩⟩
        simp only [finVal, hsgn, mul_assoc, hAB']
        ring
      · rename_i hAB
        split
        · rename_i hlt
          have h := roundTo_roundsQ f n1
            (m1 * 2 ^ (e1 - min e1 e2).toNat - m2 * 2 ^ (e2 - min e1 e2).toNat) 1 (min e1 e2)
            (by norm_num)
          have e : finVal n1 m1 e1 + finVal n2 m2 e2 = (if n1 = true then -1 else 1) *
              (((m1 * 2 ^ (e1 - min e1 e2).toNat - m2 * 2 ^ (e2 - min e1 e2).toNat : Nat) : ℚ) /
                (1 : Nat) * (2 : ℚ) ^ (min e1 e2)) := by
            rw [Nat.cast_sub hlt.le, Nat.cast_one, div_one, sub_mul, hA, hB]
            simp only [finVal, hsgn]
            ring
          rw [e]
          exact h
        · rename_i hlt
          have hle : m1 * 2 ^ (e1 - min e1 e2).toNat ≤ m2 * 2 ^ (e2 - min e1 e2).toNat := by omega
          have h := roundTo_roundsQ f n2
            (m2 * 2 ^ (e2 - min e1 e2).toNat - m1 * 2 ^ (e1 - min e1 e2).toNat) 1 (min e1 e2)
            (by norm_num)
          have e : finVal n1 m1 e1 + finVal n2 m2 e2 = (if n2 = true then -1 else 1) *
              (((m2 * 2 ^ (e2 - min e1 e2).toNat - m1 * 2 ^ (e1 - min e1 e2).toNat : Nat) : ℚ) /
                (1 : Nat) * (2 : ℚ) ^ (min e1 e2)) := by
            rw [Nat.cast_sub hle, Nat.cast_one, div_one, sub_mul, hA, hB]
            simp only [finVal, hsgn]
            ring
          rw [e]
          exact h

theorem below_refl (x : GoFloat) : x.below x := by
  exact Or.inr (Or.inr (le_refl _))

theorem below_of_nan_left {x y : GoFloat} (h : x.isNaN = true) : x.below y := Or.inl h

theorem below_of_nan_right {x y : GoFloat} (h : y.isNaN = true) : x.below y := Or.inr (Or.inl h)

theorem key_fin_le (n n' : Bool) (m m' : Nat) (e e' : Int) :
    (GoFloat.fin n m e).key ≤ (GoFloat.fin n' m' e').key ↔ finVal n m e ≤ finVal n' m' e' := by
  simp [GoFloat.key]

theorem not_top_le_fin (q : ℚ) :
    ¬ ((⊤ : WithTop ℚ) : WithBot (WithTop ℚ)) ≤ ((q : WithTop ℚ) : WithBot (WithTop ℚ)) := by
  simp

theorem not_fin_le_bot (q : ℚ) :
    ¬ ((q : WithTop ℚ) : WithBot (WithTop ℚ)) ≤ (⊥ : WithBot (WithTop ℚ)) := by
  simp

theorem not_top_le_bot :
    ¬ ((⊤ : WithTop ℚ) : WithBot (WithTop ℚ)) ≤ (⊥ : WithBot (WithTop ℚ)) := by
  simp

/-- Addition is monotone in both operands. -/
theorem add_below (f : Format) (hp : 0 < f.prec) {x x' b b' : GoFloat}
    (hx : x.below x') (hb : b.below b') : (GoFloat.add f x b).below (GoFloat.add f x' b') := by
  rcases hx with hx | hx | hx
  · apply below_of_nan_left
    cases x <;> simp_all [GoFloat.isNaN, GoFloat.add]
  · apply below_of_nan_right
    cases x' <;> simp_all [GoFloat.isNaN, GoFloat.add]
  rcases hb with hb | hb | hb
  · apply below_of_nan_left
    cases b <;> cases x <;> simp_all [GoFloat.isNaN, GoFloat.add]
  · apply below_of_nan_right
    cases b' <;> cases x' <;> simp_all [GoFloat.isNaN, GoFloat.add]
  cases x with
  | nan => exact below_of_nan_left (by cases b <;> rfl)
  | inf sx =>
    cases sx with
    | true =>
      -- `-Inf + b` is `-Inf` or NaN
      cases b with
      | nan => exact below_of_nan_left rfl
      | inf sb =>
        cases sb
        · exact below_of_nan_left rfl
        · exact Or.inr (Or.inr bot_le)
      | fin _ _ _ => exact Or.inr (Or.inr bot_le)
    | false =>
      -- then `x'` is `+Inf`
      cases x' with
      | nan => exact below_of_nan_right (by cases b' <;> rfl)
      | inf sx' =>
        cases sx' with
        | true => exact absurd hx not_top_le_bot
        | false =>
          cases b' with
          | nan => exact below_of_nan_right rfl
          | inf sb' =>
            cases sb'
            · exact Or.inr (Or.inr (by simp [GoFloat.add, GoFloat.key]))
            · exact below_of_nan_right rfl
          | fin _ _ _ => exact Or.inr (Or.inr (by simp [GoFloat.add, GoFloat.key]))
      | fin _ _ _ => exact absurd hx (not_top_le_fin _)
  | fin n m e =>
    cases b with
    | nan => exact below_of_nan_left rfl
    | inf sb =>
      cases sb with
      | true => exact Or.inr (Or.inr bot_le)
      | false =>
        cases b' with
        | nan => exact below_of_nan_right (by cases x' <;> rfl)
        | inf sb' =>
          cases sb' with
          | true => exact absurd hb not_top_le_bot
          | false =>
            cases x' with
            | nan => exact below_of_nan_right rfl
            | inf sx' =>
              cases sx'
              · exact Or.inr (Or.inr (by simp [GoFloat.add, GoFloat.key]))
              · exact below_of_nan_right rfl
            | fin _ _ _ => exact Or.inr (Or.inr (by simp [GoFloat.add, GoFloat.key]))
        | fin _ _ _ => exact absurd hb (not_top_le_fin _)
    | fin nb mb eb =>
      cases x' with
      | nan => exact below_of_nan_right (by cases b' <;> rfl)
      | inf sx' =>
        cases sx' with
        | true => exact absurd hx (not_fin_le_bot _)
        | false =>
          cases b' with
          | nan => exact below_of_nan_right rfl
          | inf sb' =>
            cases sb'
            · exact Or.inr (Or.inr (by simp [GoFloat.add, GoFloat.key]))
            · exact below_of_nan_right rfl
          | fin _ _ _ => exact Or.inr (Or.inr (by simp [GoFloat.add, GoFloat.key]))
      | fin n' m' e' =>
        cases b' with
        | nan => exact below_of_nan_right rfl
        | inf sb' =>
          cases sb' with
          | true => exact absurd hb (not_fin_le_bot _)
          | false => exact Or.inr (Or.inr (by simp [GoFloat.add, GoFloat.key]))
        | fin nb' mb' eb' =>
          rw [key_fin_le] at hx hb
          exact Or.inr (Or.inr ((add_roundsQ f n nb m mb e eb).roundsQ_mono hp
            (add_roundsQ f n' nb' m' mb' e' eb') (add_le_add hx hb)))

theorem finVal_pos (m : Nat) (e : Int) (hm : 0 < m) : 0 < finVal false m e := by
  have := two_zpow_pos e
  have hm' : (0 : ℚ) < m := by exact_mod_cast hm
  simp only [finVal, Bool.false_eq_true, if_false, one_mul]
  positivity

/-- Multiplication by a positive finite number is monotone. -/
theorem mul_below (f : Format) (hp : 0 < f.prec) {x x' : GoFloat} (m : Nat) (e : Int)
    (hm : 0 < m) (hx : x.below x') :
    (GoFloat.mul f x (.fin false m e)).below (GoFloat.mul f x' (.fin false m e)) := by
  have hc := finVal_pos m e hm
  rcases hx with hx | hx | hx
  · apply below_of_nan_left
    cases x <;> simp_all [GoFloat.isNaN, GoFloat.mul]
  · apply below_of_nan_right
    cases x' <;> simp_all [GoFloat.isNaN, GoFloat.mul]
  cases x with
  | nan => exact below_of_nan_left rfl
  | inf sx =>
    cases sx with
    | true => exact Or.inr (Or.inr (by simp [GoFloat.mul, hm.ne', GoFloat.key]))
    | false =>
      cases x' with
      | nan => exact below_of_nan_right rfl
      | inf sx' =>
        cases sx' with
        | true => exact absurd hx not_top_le_bot
        | false => exact Or.inr (Or.inr (le_refl _))
      | fin _ _ _ => exact absurd hx (not_top_le_fin _)
  | fin n1 m1 e1 =>
    cases x' with
    | nan => exact below_of_nan_right rfl
    | inf sx' =>
      cases sx' with
      | true => exact absurd hx (not_fin_le_bot _)
      | false => exact Or.inr (Or.inr (by simp [GoFloat.mul, hm.ne', GoFloat.key]))
    | fin n2 m2 e2 =>
      rw [key_fin_le] at hx
      exact Or.inr (Or.inr ((mul_roundsQ f n1 false m1 m e1 e).roundsQ_mono hp
        (mul_roundsQ f n2 false m2 m e2 e) (mul_le_mul_of_nonneg_right hx hc.le)))

/-- Division by a positive finite number is monotone. -/
theorem div_below (f : Format) (hp : 0 < f.prec) {x x' : GoFloat} (m : Nat) (e : Int)
    (hm : 0 < m) (hx : x.below x') :
    (GoFloat.div f x (.fin false m e)).below (GoFloat.div f x' (.fin false m e)) := by
  have hc := finVal_pos m e hm
  rcases hx with hx | hx | hx
  · apply below_of_nan_left
    cases x <;> simp_all [GoFloat.isNaN, GoFloat.div]
  · apply below_of_nan_right
    cases x' <;> simp_all [GoFloat.isNaN, GoFloat.div]
  cases x with
  | nan => exact below_of_nan_left rfl
  | inf sx =>
    cases sx with
    | true => exact Or.inr (Or.inr (by simp [GoFloat.div, GoFloat.key]))
    | false =>
      cases x' with
      | nan => exact below_of_nan_right rfl
      | inf sx' =>
        cases sx' with
        | true => exact absurd hx not_top_le_bot
        | false => exact Or.inr (Or.inr (le_refl _))
      | fin _ _ _ => exact absurd hx (not_top_le_fin _)
  | fin n1 m1 e1 =>
    cases x' with
    | nan => exact below_of_nan_right rfl
    | inf sx' =>
      cases sx' with
      | true => exact absurd hx (not_fin_le_bot _)
      | false => exact Or.inr (Or.inr (by simp [GoFloat.div, GoFloat.key]))
    | fin n2 m2 e2 =>
      rw [key_fin_le] at hx
      exact Or.inr (Or.inr ((div_roundsQ f n1 false m1 m e1 e hm).roundsQ_mono hp
        (div_roundsQ f n2 false m2 m e2 e hm) (div_le_div_of_nonneg_right hx hc.le)))

theorem ofInt_roundsQ (n : Nat) : RoundsQ binary64 (n : ℚ) (ofInt (n : Int)) := by
  have h := roundTo_roundsQ binary64 false n 1 0 (by norm_num)
  simp only [Bool.false_eq_true, if_false, one_mul, Nat.cast_one, div_one, zpow_zero,
    mul_one] at h
  unfold ofInt
  have h1 : decide ((n : Int) < 0) = false := by simp
  rw [h1, Int.natAbs_ofNat]
  exact h

/-- The conversion `float64(n)` is monotone. -/
theorem ofInt_below {n n' : Nat} (h : n ≤ n') : (ofInt (n : Int)).below (ofInt (n' : Int)) :=
  Or.inr (Or.inr ((ofInt_roundsQ n).roundsQ_mono (by decide) (ofInt_roundsQ n') (by exact_mod_cast h)))

theorem key_of_isZero {x : GoFloat} (h : x.isZero = true) :
    x.key = (((0 : ℚ) : WithTop ℚ) : WithBot (WithTop ℚ)) := by
  cases x with
  | nan => simp [GoFloat.isZero] at h
  | inf _ => simp [GoFloat.isZero] at h
  | fin n m e =>
    cases m with
    | zero => simp [GoFloat.key, finVal]
    | succ m => simp [GoFloat.isZero] at h

/-- `math.Min(x, c)` with a finite `c` is the smaller of the two. -/
theorem key_mathMin (x : GoFloat) (n : Bool) (m : Nat) (e : Int) (hx : x.isNaN = false) :
    (mathMin x (.fin n m e)).isNaN = false ∧
      (mathMin x (.fin n m e)).key = min x.key (GoFloat.fin n m e).key := by
  have hc : (GoFloat.fin n m e).isNaN = false := rfl
  unfold mathMin
  split
  · rename_i h
    rcases h with h | h
    · subst h
      exact ⟨rfl, by simp [GoFloat.key]⟩
    · cases h
  · split
    · rename_i h
      rcases h with h | h
      · rw [hx] at h; cases h
      · cases h
    · split
      · rename_i hz
        have k1 := key_of_isZero hz.1
        have k2 := key_of_isZero hz.2
        split
        · exact ⟨hx, by rw [k1, k2, min_self]⟩
        · exact ⟨rfl, by rw [k1, k2, min_self]⟩
      · split
        · rename_i hlt
          rw [lt_iff_key _ _ hx hc] at hlt
          exact ⟨hx, (min_eq_left hlt.le).symm⟩
        · rename_i hlt
          have : ¬ x.key < (GoFloat.fin n m e).key := by
            rw [← lt_iff_key _ _ hx hc]
            exact hlt
          exact ⟨rfl, (min_eq_right (not_lt.mp this)).symm⟩

/-- `math.Min(x, c)` with a finite `c` is monotone in `x`. -/
theorem mathMin_below {x x' : GoFloat} (n : Bool) (m : Nat) (e : Int) (hx : x.below x') :
    (mathMin x (.fin n m e)).below (mathMin x' (.fin n m e)) := by
  rcases hx with hx | hx | hx
  · apply below_of_nan_left
    cases x <;> simp_all [GoFloat.isNaN, mathMin]
  · apply below_of_nan_right
    cases x' <;> simp_all [GoFloat.isNaN, mathMin]
  cases h1 : x.isNaN
  · cases h2 : x'.isNaN
    · refine Or.inr (Or.inr ?_)
      rw [(key_mathMin x n m e h1).2, (key_mathMin x' n m e h2).2]
      exact min_le_min hx (le_refl _)
    · apply below_of_nan_right
      cases x' <;> simp_all [GoFloat.isNaN, mathMin]
  · apply below_of_nan_left
    cases x <;> simp_all [GoFloat.isNaN, mathMin]

/-! ## Monotonicity of the score -/

theorem const_500 : f64const 500 1 = .fin false 125 2 := by decide
theorem const_2 : f64const 2 1 = .fin false 1 1 := by decide
theorem const_1 : f64const 1 1 = .fin false 1 0 := by decide
theorem const_0 : f64const 0 1 = .fin false 0 0 := by decide
theorem const_3_2 : f64const 3 2 = .fin false 3 (-1) := by decide
theorem const_1_10 : f64const 1 10 = .fin false 3602879701896397 (-55) := by decide
theorem const_3_10 : f64const 3 10 = .fin false 5404319552844595 (-54) := by decide

theorem lengthScore_below {s s' : List Char} (h : len s ≤ len s') :
    (lengthScore s).below (lengthScore s') := by
  unfold lengthScore
  rw [const_500, const_2]
  exact mathMin_below _ _ _ (div_below binary64 (by decide) 125 2 (by norm_num) (ofInt_below h))

theorem densityBoost_below {p p' c c' : Nat} (hp : p ≤ p') (hc : c ≤ c') :
    (densityBoost p c).below (densityBoost p' c') := by
  unfold densityBoost
  rw [const_1, const_0]
  by_cases h : 3 ≤ p ∨ 3 ≤ c
  · have h' : 3 ≤ p' ∨ 3 ≤ c' := by omega
    rw [if_pos h, if_pos h']
    exact below_refl _
  · rw [if_neg h]
    split
    · exact Or.inr (Or.inr (by rw [key_fin_le]; simp [finVal]))
    · exact below_refl _

theorem weightedSum_below (base : GoFloat) {q q' p p' c c' : Nat} {l l' d d' : GoFloat}
    (hq : q ≤ q') (hp : p ≤ p') (hc : c ≤ c') (hl : l.below l') (hd : d.below d') :
    (weightedSum base q p c l d).below (weightedSum base q' p' c' l' d') := by
  unfold weightedSum add64 mul64
  rw [const_1_10, const_2, const_3_2, const_1, const_3_10]
  have h64 : 0 < binary64.prec := by decide
  refine add_below _ h64 (add_below _ h64 (add_below _ h64 (add_below _ h64 (add_below _ h64
    (below_refl _) ?_) ?_) ?_) ?_) hd
  · exact mul_below _ h64 1 1 (by norm_num) (ofInt_below hq)
  · exact mul_below _ h64 3 (-1) (by norm_num) (ofInt_below hp)
  · exact mul_below _ h64 1 0 (by norm_num) (ofInt_below hc)
  · exact mul_below _ h64 _ _ (by norm_num) hl

theorem not_lt_of_below {x y : GoFloat} (h : x.below y) : GoFloat.lt y x = false := by
  rcases h with h | h | h
  · cases x <;> cases y <;> simp_all [GoFloat.isNaN, GoFloat.lt]
  · cases y <;> simp_all [GoFloat.isNaN, GoFloat.lt]
  · cases hx : x.isNaN
    · cases hy : y.isNaN
      · rw [lt_false_iff_key y x hy hx]
        exact h
      · cases y <;> simp_all [GoFloat.isNaN, GoFloat.lt]
    · cases x <;> cases y <;> simp_all [GoFloat.isNaN, GoFloat.lt]

theorem startsWith_iff (s p : List Char) : startsWith s p = true ↔ ∃ t, s = p ++ t := by
  induction p generalizing s with
  | nil => cases s <;> simp [startsWith]
  | cons d p ih =>
    cases s with
    | nil => simp [startsWith]
    | cons c s =>
      simp only [startsWith, Bool.and_eq_true, decide_eq_true_eq, ih, List.cons_append,
        List.cons.injEq]
      constructor
      · rintro ⟨rfl, t, rfl⟩
        exact ⟨t, rfl, rfl⟩
      · rintro ⟨t, rfl, rfl⟩
        exact ⟨rfl, t, rfl⟩

theorem Contains_iff (s k : List Char) : Contains s k = true ↔ ∃ a b, s = a ++ k ++ b := by
  induction s with
  | nil =>
    simp only [Contains, List.isEmpty_iff]
    constructor
    · rintro rfl
      exact ⟨[], [], rfl⟩
    · rintro ⟨a, b, h⟩
      have := congrArg List.length h
      simp at this
      exact List.length_eq_zero.mp (by omega)
  | cons c s ih =>
    simp only [Contains, Bool.or_eq_true, startsWith_iff, ih]
    constructor
    · rintro (⟨t, h⟩ | ⟨a, b, h⟩)
      · exact ⟨[], t, by simpa using h⟩
      · exact ⟨c :: a, b, by simp [h]⟩
    · rintro ⟨a, b, h⟩
      cases a with
      | nil => exact Or.inl ⟨b, by simpa using h⟩
      | cons a0 a =>
        simp only [List.cons_append, List.cons.injEq] at h
        exact Or.inr ⟨a, b, h.2⟩

theorem Contains_extend (pre s post k : List Char) (h : Contains s k = true) :
    Contains (pre ++ s ++ post) k = true := by
  rw [Contains_iff] at h ⊢
  obtain ⟨a, b, rfl⟩ := h
  exact ⟨pre ++ a, b ++ post, by simp⟩

theorem ToLower_append (tbl : Char → Char) (s t : List Char) :
    ToLower tbl (s ++ t) = ToLower tbl s ++ ToLower tbl t := by
  simp [ToLower]

theorem len_append (s t : List Char) : len (s ++ t) = len s + len t := by
  simp [len]

theorem fixedHits_extend (tbl : Char → Char) (pre s post : List Char) (l : List (List Char)) :
    fixedHits (ToLower tbl s) l ≤ fixedHits (ToLower tbl (pre ++ s ++ post)) l := by
  unfold fixedHits
  apply List.countP_mono_left
  intro k _ hk
  rw [ToLower_append, ToLower_append]
  exact Contains_extend _ _ _ _ hk

theorem queryKeywordHits_extend (tbl : Char → Char) (pre s post : List Char)
    (kws : List (List Char)) :
    queryKeywordHits tbl (ToLower tbl s) kws ≤
      queryKeywordHits tbl (ToLower tbl (pre ++ s ++ post)) kws := by
  unfold queryKeywordHits
  apply List.countP_mono_left
  intro k _ hk
  rw [ToLower_append, ToLower_append]
  exact Contains_extend _ _ _ _ hk

/-- C6. Monotonicity of the score in the hits: for every query vector, keyword
list and document, and every new content (an occurrence of a query keyword
added anywhere, or any other edit) for which the count of query keyword hits
does not decrease while all else is held fixed or grows (product hits, company
hits and length in bytes; the vector and the other fields are unchanged), the
`finalScore` does not decrease: the new score is not smaller than the old. -/
theorem finalScore_monotone_in_hits (tbl : Char → Char) (q : List GoFloat)
    (kws : List (List Char)) (d : Document) (content' : List Char)
    (hq : queryKeywordHits tbl (ToLower tbl d.Content) kws ≤
      queryKeywordHits tbl (ToLower tbl content') kws)
    (hp : fixedHits (ToLower tbl d.Content) productKeywords ≤
      fixedHits (ToLower tbl content') productKeywords)
    (hc : fixedHits (ToLower tbl d.Content) companyKeywords ≤
      fixedHits (ToLower tbl content') companyKeywords)
    (hl : len d.Content ≤ len content') :
    GoFloat.lt (finalScore tbl q kws { d with Content := content' })
      (finalScore tbl q kws d) = false := by
  apply not_lt_of_below
  unfold finalScore
  simp only []
  exact weightedSum_below _ hq hp hc (lengthScore_below hl) (densityBoost_below hp hc)

set_option maxRecDepth 200000 in
/-- Witness of C6: the keyword `pix` inserted in the middle of the content
`conta infinitepay`, for the query keyword `pix`; the query hits go from 0 to
1, the product hits from 2 to 3, and the score from about 3.01 to about 7.51. -/
theorem finalScore_monotone_in_hits_witness :
    (queryKeywordHits id (ToLower id "conta infinitepay".toList) ["pix".toList] ≤
      queryKeywordHits id (ToLower id ("conta ".toList ++ "pix ".toList ++
        "infinitepay".toList)) ["pix".toList]) ∧
    GoFloat.lt
      (finalScore id [.fin false 1 0] ["pix".toList]
        { (⟨docID 0, "conta infinitepay".toList, [], [.fin false 1 0]⟩ : Document) with
          Content := "conta ".toList ++ "pix ".toList ++ "infinitepay".toList })
      (finalScore id [.fin false 1 0] ["pix".toList]
        ⟨docID 0, "conta infinitepay".toList, [], [.fin false 1 0]⟩) = false :=
  ⟨by decide, finalScore_monotone_in_hits id [.fin false 1 0] ["pix".toList]
    ⟨docID 0, "conta infinitepay".toList, [], [.fin false 1 0]⟩
    ("conta ".toList ++ "pix ".toList ++ "infinitepay".toList)
    (by decide) (by decide) (by decide) (by decide)⟩

/-- Text added at the beginning or at the end of the content (in particular an
appended occurrence of a query keyword) keeps every hit, so it needs no
hypothesis on the hits: with the vector and everything else unchanged, the
new `finalScore` is not smaller than the old one. -/
theorem finalScore_not_decreased_by_extension (tbl : Char → Char) (q : List GoFloat)
    (kws : List (List Char)) (d : Document) (pre post : List Char) :
    GoFloat.lt (finalScore tbl q kws { d with Content := pre ++ d.Content ++ post })
      (finalScore tbl q kws d) = false := by
  apply not_lt_of_below
  unfold finalScore
  simp only []
  apply weightedSum_below
  · exact queryKeywordHits_extend tbl pre d.Content post kws
  · exact fixedHits_extend tbl pre d.Content post productKeywords
  · exact fixedHits_extend tbl pre d.Content post companyKeywords
  · apply lengthScore_below
    rw [len_append, len_append]
    omega
  · exact densityBoost_below (fixedHits_extend tbl pre d.Content post productKeywords)
      (fixedHits_extend tbl pre d.Content post companyKeywords)

set_option maxRecDepth 200000 in
/-- An edit that loses hits is outside the monotonicity in the hits: with the
keywords `infinitepay` and `conta`, one more occurrence of the keyword `conta`
inserted into the word `infinitepay` of the content `conta infinitepay`
destroys the hit of the query keyword and of the product keyword
`infinitepay` and adds no new hit (query hits 2 to 1, product hits 2 to 1);
the score drops from about 7.01 to about 3.51. -/
theorem finalScore_decreased_by_insertion :
    ("conta".toList ∈ ["infinitepay".toList, "conta".toList]) ∧
    GoFloat.lt
      (finalScore id [] ["infinitepay".toList, "conta".toList]
        ⟨[], "conta infin".toList ++ "conta".toList ++ "itepay".toList, [], []⟩)
      (finalScore id [] ["infinitepay".toList, "conta".toList]
        ⟨[], "conta infin".toList ++ "itepay".toList, [], []⟩) = true := by
  decide

/-! ## Rounding error -/

theorem fin_of_key {y : GoFloat} {r : ℚ} (hn : y.isNaN = false)
    (hk : y.key = ((r : WithTop ℚ) : WithBot (WithTop ℚ))) :
    ∃ n m e, y = .fin n m e ∧ finVal n m e = r := by
  cases y with
  | nan => simp [GoFloat.isNaN] at hn
  | inf s =>
    cases s
    · simp only [GoFloat.key] at hk
      have := WithBot.coe_injective hk
      exact absurd this.symm (WithTop.coe_ne_top)
    · simp only [GoFloat.key] at hk
      exact absurd hk.symm (WithBot.coe_ne_bot)
  | fin n m e =>
    simp only [GoFloat.key] at hk
    have := WithTop.coe_injective (WithBot.coe_injective hk)
    exact ⟨n, m, e, rfl, this⟩

theorem OnGrid.neg {g : Int} {x : ℚ} (h : OnGrid g x) : OnGrid g (-x) := by
  obtain ⟨K, rfl⟩ := h
  exact ⟨-K, by push_cast; ring⟩

theorem OnGrid.add {g : Int} {x y : ℚ} (hx : OnGrid g x) (hy : OnGrid g y) : OnGrid g (x + y) := by
  obtain ⟨K, rfl⟩ := hx
  obtain ⟨L, rfl⟩ := hy
  exact ⟨K + L, by push_cast; ring⟩

theorem OnGrid.zero (g : Int) : OnGrid g 0 := ⟨0, by simp⟩

theorem OnGrid.abs_ge {g : Int} {x : ℚ} (h : OnGrid g x) (hx : x ≠ 0) : (2 : ℚ) ^ g ≤ |x| := by
  obtain ⟨K, rfl⟩ := h
  have hg := two_zpow_pos g
  have hK : K ≠ 0 := by
    rintro rfl
    simp at hx
  have h1 : (1 : ℚ) ≤ |(K : ℚ)| := by
    have : (1 : Int) ≤ |K| := Int.one_le_abs hK
    exact_mod_cast this
  rw [abs_mul, abs_of_pos hg]
  calc (2 : ℚ) ^ g = 1 * (2 : ℚ) ^ g := (one_mul _).symm
    _ ≤ |(K : ℚ)| * (2 : ℚ) ^ g := mul_le_mul_of_nonneg_right h1 hg.le

theorem Rounds.grid {f : Format} {v r : ℚ} (hv : 0 < v)
    (h : Rounds f v ((r : WithTop ℚ) : WithBot (WithTop ℚ))) :
    OnGrid f.emin r ∧ ∀ g, OnGrid g v → OnGrid g r := by
  obtain ⟨E, t, M, e1, e2, ht, hM, hk⟩ := h
  have two_ne : (2 : ℚ) ≠ 0 := by norm_num
  have hr : r = (M : ℚ) * (2 : ℚ) ^ t := by
    split at hk
    · have := WithBot.coe_injective hk
      exact absurd this WithTop.coe_ne_top
    · exact WithTop.coe_injective (WithBot.coe_injective hk)
  have hemin : f.emin ≤ t := by rw [ht]; exact le_max_right _ _
  have coarse : ∀ g, g ≤ t → OnGrid g r := by
    intro g hg
    refine ⟨(M : Int) * 2 ^ (t - g).toNat, ?_⟩
    rw [hr]
    push_cast
    rw [← zpow_natCast, Int.toNat_of_nonneg (by omega), mul_assoc, ← zpow_add₀ two_ne]
    congr 2
    ring
  refine ⟨coarse _ hemin, ?_⟩
  intro g hg
  rcases le_or_lt g t with hgt | hgt
  · exact coarse g hgt
  · obtain ⟨K, hK⟩ := hg
    have hKpos : 0 < K := by
      have : (0 : ℚ) < (K : ℚ) * (2 : ℚ) ^ g := by rw [← hK]; exact hv
      have h2 := two_zpow_pos g
      have : (0 : ℚ) < (K : ℚ) := by
        by_contra hc
        have : (K : ℚ) * (2 : ℚ) ^ g ≤ 0 := mul_nonpos_of_nonpos_of_nonneg (not_lt.mp hc) h2.le
        linarith
      exact_mod_cast this
    have hu : v / (2 : ℚ) ^ t = ((K.toNat * 2 ^ (g - t).toNat : Nat) : ℚ) := by
      rw [hK, div_eq_iff (two_zpow_pos t).ne']
      push_cast
      rw [← zpow_natCast (2 : ℚ), Int.toNat_of_nonneg (by omega), mul_assoc, ← zpow_add₀ two_ne]
      have hKc : ((K.toNat : Nat) : ℚ) = (K : ℚ) := by
        have : ((K.toNat : Nat) : Int) = K := Int.toNat_of_nonneg hKpos.le
        exact_mod_cast this
      rw [hKc]
      congr 2
      ring
    rw [hu] at hM
    have hMeq := hM.of_int
    rw [hr, hMeq, ← hu]
    have : v / (2 : ℚ) ^ t * (2 : ℚ) ^ t = v := by
      field_simp
    rw [this]
    exact ⟨K, hK⟩

/-- In the normal range and below the overflow threshold, rounding has a
relative error of at most `2^(-prec)`; the result is a multiple of the quantum
`2^t`, `t ≥ emin`. -/
theorem Rounds.rounds_error {f : Format} (hp : 2 ≤ f.prec) {v : ℚ} {k : WithBot (WithTop ℚ)}
    (h : Rounds f v k) (hlo : (2 : ℚ) ^ (f.emin + ((f.prec : Int) - 1)) ≤ v)
    (hhi : v < (2 : ℚ) ^ f.emax) :
    ∃ r : ℚ, k = ((r : WithTop ℚ) : WithBot (WithTop ℚ)) ∧
      |r - v| ≤ v * (2 : ℚ) ^ (-(f.prec : Int)) := by
  obtain ⟨E, t, M, e1, e2, ht, hM, hk⟩ := h
  have two_ne : (2 : ℚ) ≠ 0 := by norm_num
  have hE1 : f.emin + ((f.prec : Int) - 1) ≤ E := by
    have : (2 : ℚ) ^ (f.emin + ((f.prec : Int) - 1)) < (2 : ℚ) ^ (E + 1) := by linarith
    have := zpow_two_lt_imp this
    omega
  have hE2 : E < f.emax := by
    have : (2 : ℚ) ^ E < (2 : ℚ) ^ f.emax := by linarith
    exact zpow_two_lt_imp this
  have htE : t = E - ((f.prec : Int) - 1) := by
    rw [ht]
    exact max_eq_left (by omega)
  have hno : ¬ (f.emax < t ∨ (t = f.emax ∧ 2 ^ f.prec ≤ M)) := by
    rintro (h1 | ⟨h1, _⟩) <;> omega
  rw [if_neg hno] at hk
  refine ⟨(M : ℚ) * (2 : ℚ) ^ t, hk, ?_⟩
  obtain ⟨a1, a2, _, _⟩ := hM
  have ht0 := two_zpow_pos t
  have hhalf : |(M : ℚ) - v / (2 : ℚ) ^ t| ≤ 1 / 2 := by
    rw [abs_le]
    constructor <;> linarith
  have hscale : (M : ℚ) * (2 : ℚ) ^ t - v = ((M : ℚ) - v / (2 : ℚ) ^ t) * (2 : ℚ) ^ t := by
    field_simp
  rw [hscale, abs_mul, abs_of_pos ht0]
  have hv : (2 : ℚ) ^ t * (1 / 2) ≤ v * (2 : ℚ) ^ (-(f.prec : Int)) := by
    have h1 : (2 : ℚ) ^ t * (1 / 2) = (2 : ℚ) ^ E * (2 : ℚ) ^ (-(f.prec : Int)) := by
      rw [htE, ← zpow_add₀ two_ne]
      have : (1 / 2 : ℚ) = (2 : ℚ) ^ (-1 : Int) := by norm_num
      rw [this, ← zpow_add₀ two_ne]
      congr 1
      ring
    rw [h1]
    exact mul_le_mul_of_nonneg_right e1 (two_zpow_pos _).le
  calc |(M : ℚ) - v / (2 : ℚ) ^ t| * (2 : ℚ) ^ t ≤ 1 / 2 * (2 : ℚ) ^ t :=
        mul_le_mul_of_nonneg_right hhalf ht0.le
    _ = (2 : ℚ) ^ t * (1 / 2) := by ring
    _ ≤ v * (2 : ℚ) ^ (-(f.prec : Int)) := hv

/-- The signed form of `Rounds.rounds_error`: a rational that is zero, or whose
magnitude lies in the normal range below the overflow threshold, rounds to a
finite number with relative error at most `2^(-prec)`. -/
theorem RoundsQ.roundsQ_error {f : Format} (hp : 2 ≤ f.prec) {q : ℚ} {y : GoFloat}
    (h : RoundsQ f q y)
    (hrange : q = 0 ∨ ((2 : ℚ) ^ (f.emin + ((f.prec : Int) - 1)) ≤ |q| ∧ |q| < (2 : ℚ) ^ f.emax)) :
    ∃ n m e, y = .fin n m e ∧ |finVal n m e - q| ≤ |q| * (2 : ℚ) ^ (-(f.prec : Int)) ∧
      OnGrid f.emin (finVal n m e) ∧ ∀ g, OnGrid g q → OnGrid g (finVal n m e) := by
  obtain ⟨hn, h⟩ := h
  rcases h with ⟨h0, hk⟩ | ⟨hpos, hr⟩ | ⟨hneg, hr⟩
  · obtain ⟨n, m, e, hy, hv⟩ := fin_of_key hn hk
    refine ⟨n, m, e, hy, by rw [hv, h0]; simp, ?_, ?_⟩
    · rw [hv]; exact OnGrid.zero _
    · intro g _
      rw [hv]; exact OnGrid.zero _
  · rcases hrange with h0 | ⟨hlo, hhi⟩
    · linarith
    · rw [abs_of_pos hpos] at hlo hhi ⊢
      obtain ⟨r, hk, he⟩ := hr.rounds_error hp hlo hhi
      obtain ⟨n, m, e, hy, hv⟩ := fin_of_key hn hk
      rw [hk] at hr
      obtain ⟨g1, g2⟩ := hr.grid hpos
      exact ⟨n, m, e, hy, by rw [hv]; exact he, by rw [hv]; exact g1,
        fun g hg => by rw [hv]; exact g2 g hg⟩
  · rcases hrange with h0 | ⟨hlo, hhi⟩
    · linarith
    · rw [abs_of_neg hneg] at hlo hhi ⊢
      obtain ⟨r, hk, he⟩ := hr.rounds_error hp hlo hhi
      have hn' : y.neg.isNaN = false := by rw [isNaN_neg]; exact hn
      obtain ⟨n, m, e, hy, hv⟩ := fin_of_key hn' hk
      have hy' : y = .fin (!n) m e := by
        have := congrArg GoFloat.neg hy
        rw [neg_neg_float] at this
        exact this
      rw [hk] at hr
      obtain ⟨g1, g2⟩ := hr.grid (by linarith)
      refine ⟨!n, m, e, hy', ?_, ?_, ?_⟩
      · rw [finVal_not, hv]
        have : -r - q = -(r - -q) := by ring
        rw [this, abs_neg]
        exact he
      · rw [finVal_not, hv]
        exact g1.neg
      · intro g hg
        rw [finVal_not, hv]
        exact (g2 g hg.neg).neg

theorem u64_pos : 0 < u64 := two_zpow_pos _

theorem u64_lt_one : u64 < 1 := by
  unfold u64
  norm_num

theorem u32_pos : 0 < u32 := two_zpow_pos _

theorem u32_lt_one : u32 < 1 := by
  unfold u32
  norm_num

/-- From a relative error `u` follow the two one-sided bounds used below. -/
theorem rel_bounds {r z u : ℚ} (hu0 : 0 ≤ u) (hu1 : u ≤ 1) (h : |r - z| ≤ |z| * u) :
    |r| * (1 - u) ≤ |z| ∧ (0 ≤ z → z * (1 - u) ≤ r ∧ 0 ≤ r) := by
  have hz := abs_nonneg z
  have h1 : |r| ≤ |z| + |z| * u := by
    have := abs_sub_abs_le_abs_sub r z
    linarith
  constructor
  · have : |r| * (1 - u) ≤ (|z| + |z| * u) * (1 - u) :=
      mul_le_mul_of_nonneg_right h1 (by linarith)
    have h2 : (|z| + |z| * u) * (1 - u) = |z| - |z| * u * u := by ring
    have h3 : 0 ≤ |z| * u * u := by positivity
    linarith
  · intro hz0
    rw [abs_of_nonneg hz0] at h
    have := abs_le.mp h
    constructor
    · linarith [this.1]
    · have : z * u ≤ z := by
        calc z * u ≤ z * 1 := mul_le_mul_of_nonneg_left hu1 hz0
          _ = z := mul_one z
      linarith [this, (abs_le.mp h).1]

/-- The product `float64(x * y)` of two `float32`: finite, on the grid, with
relative error `2^(-24)`, when the exact product is zero or of a magnitude
between `2^(-126)` and `2^104`. -/
theorem mul32_facts (n1 n2 : Bool) (m1 m2 : Nat) (e1 e2 : Int)
    (hrange : finVal n1 m1 e1 * finVal n2 m2 e2 = 0 ∨
      ((2 : ℚ) ^ (-126 : Int) ≤ |finVal n1 m1 e1 * finVal n2 m2 e2| ∧
        |finVal n1 m1 e1 * finVal n2 m2 e2| < (2 : ℚ) ^ (104 : Int))) :
    GridFinite (mul32 (.fin n1 m1 e1) (.fin n2 m2 e2)) ∧
    |(mul32 (.fin n1 m1 e1) (.fin n2 m2 e2)).val - finVal n1 m1 e1 * finVal n2 m2 e2| ≤
      |finVal n1 m1 e1 * finVal n2 m2 e2| * u32 := by
  have h := (mul_roundsQ binary32 n1 n2 m1 m2 e1 e2).roundsQ_error (by decide) hrange
  obtain ⟨n, m, e, hy, herr, hg, _⟩ := h
  unfold mul32
  rw [hy]
  exact ⟨⟨⟨n, m, e, rfl⟩, hg⟩, herr⟩

/-- The sum of two `float64` on the grid: finite, on the grid, with relative
error `2^(-53)`, when the exact sum is below `2^971`. -/
theorem add64_facts {x y : GoFloat} (hx : GridFinite x) (hy : GridFinite y)
    (hhi : |x.val + y.val| < (2 : ℚ) ^ (971 : Int)) :
    GridFinite (add64 x y) ∧ |(add64 x y).val - (x.val + y.val)| ≤ |x.val + y.val| * u64 := by
  obtain ⟨⟨n1, m1, e1, rfl⟩, gx⟩ := hx
  obtain ⟨⟨n2, m2, e2, rfl⟩, gy⟩ := hy
  simp only [GoFloat.val] at gx gy hhi ⊢
  have hsum := gx.add gy
  have hrange : finVal n1 m1 e1 + finVal n2 m2 e2 = 0 ∨
      ((2 : ℚ) ^ (binary64.emin + ((binary64.prec : Int) - 1)) ≤
          |finVal n1 m1 e1 + finVal n2 m2 e2| ∧
        |finVal n1 m1 e1 + finVal n2 m2 e2| < (2 : ℚ) ^ binary64.emax) := by
    by_cases h0 : finVal n1 m1 e1 + finVal n2 m2 e2 = 0
    · exact Or.inl h0
    · right
      refine ⟨?_, hhi⟩
      have h1 := hsum.abs_ge h0
      have h2 : (2 : ℚ) ^ (binary64.emin + ((binary64.prec : Int) - 1)) ≤ (2 : ℚ) ^ (-149 : Int) :=
        zpow_two_le (by decide)
      linarith
  obtain ⟨n, m, e, hr, herr, _, hg⟩ := (add_roundsQ binary64 n1 n2 m1 m2 e1 e2).roundsQ_error (by decide) hrange
  unfold add64
  rw [hr]
  exact ⟨⟨⟨n, m, e, rfl⟩, hg _ hsum⟩, herr⟩

/-- The accumulation `s += w` over a list, in `float64`: no overflow, and the
rounding errors are bounded by one factor `1 - 2^(-53)` for each term. -/
theorem sum_facts (L : List GoFloat) (s : GoFloat) (hs : GridFinite s)
    (hL : ∀ w ∈ L, GridFinite w)
    (hT : |s.val| + (L.map (fun w => |w.val|)).sum ≤ (2 : ℚ) ^ (900 : Int) * (1 - u64) ^ L.length) :
    GridFinite (L.foldl add64 s) ∧
    |(L.foldl add64 s).val| * (1 - u64) ^ L.length ≤ |s.val| + (L.map (fun w => |w.val|)).sum ∧
    (0 ≤ s.val → (∀ w ∈ L, 0 ≤ w.val) →
      (s.val + (L.map (fun w => w.val)).sum) * (1 - u64) ^ L.length ≤ (L.foldl add64 s).val) := by
  have hu0 := u64_pos
  have hu1 := u64_lt_one
  induction L generalizing s with
  | nil =>
    refine ⟨hs, by simp, ?_⟩
    intro _ _
    simp
  | cons w L ih =>
    have hw := hL w (List.mem_cons_self _ _)
    have hL' : ∀ w' ∈ L, GridFinite w' := fun w' h => hL w' (List.mem_cons_of_mem _ h)
    simp only [List.map_cons, List.sum_cons, List.length_cons, List.foldl_cons] at hT ⊢
    have hSa : 0 ≤ (L.map (fun w => |w.val|)).sum := by
      apply List.sum_nonneg
      intro x hx
      obtain ⟨w', _, rfl⟩ := List.mem_map.mp hx
      exact abs_nonneg _
    have hpow : 0 < (1 - u64) ^ L.length := pow_pos (by linarith) _
    have hpow1 : (1 - u64) ^ L.length ≤ 1 := pow_le_one₀ (by linarith) (by linarith)
    have hpowS : (1 - u64) ^ (L.length + 1) = (1 - u64) ^ L.length * (1 - u64) := pow_succ _ _
    have hz : |s.val + w.val| ≤ |s.val| + |w.val| := abs_add _ _
    have hbig : |s.val| + |w.val| ≤ (2 : ℚ) ^ (900 : Int) := by
      have h1 : (2 : ℚ) ^ (900 : Int) * (1 - u64) ^ (L.length + 1) ≤ (2 : ℚ) ^ (900 : Int) * 1 :=
        mul_le_mul_of_nonneg_left (pow_le_one₀ (by linarith) (by linarith)) (two_zpow_pos _).le
      linarith
    have hlt : |s.val + w.val| < (2 : ℚ) ^ (971 : Int) := by
      have : (2 : ℚ) ^ (900 : Int) < (2 : ℚ) ^ (971 : Int) :=
        zpow_lt_zpow_right₀ (by norm_num) (by norm_num)
      linarith
    obtain ⟨g', herr⟩ := add64_facts hs hw hlt
    obtain ⟨b1, b2⟩ := rel_bounds hu0.le hu1.le herr
    -- the hypothesis of the induction for the new accumulator
    have hT' : |(add64 s w).val| + (L.map (fun w => |w.val|)).sum ≤
        (2 : ℚ) ^ (900 : Int) * (1 - u64) ^ L.length := by
      have h1 : (|(add64 s w).val| + (L.map (fun w => |w.val|)).sum) * (1 - u64) ≤
          |s.val| + (|w.val| + (L.map (fun w => |w.val|)).sum) := by
        have : (L.map (fun w => |w.val|)).sum * (1 - u64) ≤ (L.map (fun w => |w.val|)).sum := by
          calc (L.map (fun w => |w.val|)).sum * (1 - u64)
              ≤ (L.map (fun w => |w.val|)).sum * 1 :=
                mul_le_mul_of_nonneg_left (by linarith) hSa
            _ = _ := mul_one _
        rw [add_mul]
        linarith
      have h2 : (|(add64 s w).val| + (L.map (fun w => |w.val|)).sum) * (1 - u64) ≤
          ((2 : ℚ) ^ (900 : Int) * (1 - u64) ^ L.length) * (1 - u64) := by
        rw [hpowS, ← mul_assoc] at hT
        linarith
      exact le_of_mul_le_mul_right h2 (by linarith)
    obtain ⟨i1, i2, i3⟩ := ih (add64 s w) g' hL' hT'
    refine ⟨i1, ?_, ?_⟩
    · rw [hpowS, ← mul_assoc]
      calc |(L.foldl add64 (add64 s w)).val| * (1 - u64) ^ L.length * (1 - u64)
          ≤ (|(add64 s w).val| + (L.map (fun w => |w.val|)).sum) * (1 - u64) :=
            mul_le_mul_of_nonneg_right i2 (by linarith)
        _ = |(add64 s w).val| * (1 - u64) + (L.map (fun w => |w.val|)).sum * (1 - u64) := by ring
        _ ≤ |s.val + w.val| + (L.map (fun w => |w.val|)).sum := by
            have : (L.map (fun w => |w.val|)).sum * (1 - u64) ≤ (L.map (fun w => |w.val|)).sum := by
              calc (L.map (fun w => |w.val|)).sum * (1 - u64)
                  ≤ (L.map (fun w => |w.val|)).sum * 1 :=
                    mul_le_mul_of_nonneg_left (by linarith) hSa
                _ = _ := mul_one _
            linarith
        _ ≤ |s.val| + (|w.val| + (L.map (fun w => |w.val|)).sum) := by linarith
    · intro hs0 hw0
      have hw0' := hw0 w (List.mem_cons_self _ _)
      have hsw : 0 ≤ s.val + w.val := by linarith
      obtain ⟨c1, c2⟩ := b2 hsw
      have i3' := i3 c2 (fun w' h => hw0 w' (List.mem_cons_of_mem _ h))
      have hSv : 0 ≤ (L.map (fun w => w.val)).sum := by
        apply List.sum_nonneg
        intro x hx
        obtain ⟨w', hw', rfl⟩ := List.mem_map.mp hx
        exact hw0 w' (List.mem_cons_of_mem _ hw')
      rw [hpowS]
      calc (s.val + (w.val + (L.map (fun w => w.val)).sum)) * ((1 - u64) ^ L.length * (1 - u64))
          = ((s.val + w.val) * (1 - u64) + (L.map (fun w => w.val)).sum * (1 - u64)) *
              (1 - u64) ^ L.length := by ring
        _ ≤ ((add64 s w).val + (L.map (fun w => w.val)).sum) * (1 - u64) ^ L.length := by
            apply mul_le_mul_of_nonneg_right _ hpow.le
            have : (L.map (fun w => w.val)).sum * (1 - u64) ≤ (L.map (fun w => w.val)).sum := by
              calc (L.map (fun w => w.val)).sum * (1 - u64)
                  ≤ (L.map (fun w => w.val)).sum * 1 :=
                    mul_le_mul_of_nonneg_left (by linarith) hSv
                _ = _ := mul_one _
            linarith
        _ ≤ _ := i3'

theorem abs_finVal (n : Bool) (m : Nat) (e : Int) : |finVal n m e| = finVal false m e := by
  have h : (0 : ℚ) ≤ (m : ℚ) * (2 : ℚ) ^ e := by
    have := two_zpow_pos e
    positivity
  cases n
  · simp only [finVal, Bool.false_eq_true, if_false, one_mul]
    exact abs_of_nonneg h
  · simp only [finVal, if_true, Bool.false_eq_true, if_false, one_mul, neg_mul, abs_neg]
    exact abs_of_nonneg h

theorem inRange_spec {x : GoFloat} (h : inRange x = true) :
    (∃ n m e, x = .fin n m e) ∧
      (x.val = 0 ∨ ((2 : ℚ) ^ (-50 : Int) ≤ |x.val| ∧ |x.val| ≤ (2 : ℚ) ^ (50 : Int))) := by
  cases x with
  | nan => simp [inRange] at h
  | inf _ => simp [inRange] at h
  | fin n m e =>
    refine ⟨⟨n, m, e, rfl⟩, ?_⟩
    simp only [inRange, Bool.or_eq_true, beq_iff_eq, Bool.and_eq_true, Bool.not_eq_true'] at h
    rcases h with h | ⟨h1, h2⟩
    · left
      simp [GoFloat.val, finVal, h]
    · right
      simp only [GoFloat.val, abs_finVal]
      have a1 : ¬ finVal false m e < finVal false 1 (-50) := by
        rw [← lt_fin_iff]
        simp [h1]
      have a2 : ¬ finVal false 1 50 < finVal false m e := by
        rw [← lt_fin_iff]
        simp [h2]
      have c1 : finVal false 1 (-50) = (2 : ℚ) ^ (-50 : Int) := by simp [finVal]
      have c2 : finVal false 1 50 = (2 : ℚ) ^ (50 : Int) := by simp [finVal]
      rw [c1] at a1
      rw [c2] at a2
      exact ⟨not_lt.mp a1, not_lt.mp a2⟩

/-- The product of two components in range is zero or of a magnitude between
`2^(-100)` and `2^100`. -/
theorem prod_range {x y : ℚ}
    (hx : x = 0 ∨ ((2 : ℚ) ^ (-50 : Int) ≤ |x| ∧ |x| ≤ (2 : ℚ) ^ (50 : Int)))
    (hy : y = 0 ∨ ((2 : ℚ) ^ (-50 : Int) ≤ |y| ∧ |y| ≤ (2 : ℚ) ^ (50 : Int))) :
    x * y = 0 ∨ ((2 : ℚ) ^ (-100 : Int) ≤ |x * y| ∧ |x * y| ≤ (2 : ℚ) ^ (100 : Int)) := by
  rcases hx with hx | ⟨x1, x2⟩
  · left; rw [hx, zero_mul]
  rcases hy with hy | ⟨y1, y2⟩
  · left; rw [hy, mul_zero]
  right
  rw [abs_mul]
  have p1 : (2 : ℚ) ^ (-100 : Int) = (2 : ℚ) ^ (-50 : Int) * (2 : ℚ) ^ (-50 : Int) := by
    rw [← zpow_add₀ (by norm_num : (2 : ℚ) ≠ 0)]; norm_num
  have p2 : (2 : ℚ) ^ (100 : Int) = (2 : ℚ) ^ (50 : Int) * (2 : ℚ) ^ (50 : Int) := by
    rw [← zpow_add₀ (by norm_num : (2 : ℚ) ≠ 0)]; norm_num
  rw [p1, p2]
  exact ⟨mul_le_mul x1 y1 (two_zpow_pos _).le (abs_nonneg _),
    mul_le_mul x2 y2 (abs_nonneg _) (two_zpow_pos _).le⟩

/-- The `float32` product of two components in range. -/
theorem mul32_inRange {x y : GoFloat} (hx : inRange x = true) (hy : inRange y = true) :
    GridFinite (mul32 x y) ∧ |(mul32 x y).val - x.val * y.val| ≤ |x.val * y.val| * u32 ∧
      |x.val * y.val| ≤ (2 : ℚ) ^ (100 : Int) := by
  obtain ⟨⟨n1, m1, e1, rfl⟩, rx⟩ := inRange_spec hx
  obtain ⟨⟨n2, m2, e2, rfl⟩, ry⟩ := inRange_spec hy
  simp only [GoFloat.val] at rx ry ⊢
  have hr := prod_range rx ry
  have hrange : finVal n1 m1 e1 * finVal n2 m2 e2 = 0 ∨
      ((2 : ℚ) ^ (-126 : Int) ≤ |finVal n1 m1 e1 * finVal n2 m2 e2| ∧
        |finVal n1 m1 e1 * finVal n2 m2 e2| < (2 : ℚ) ^ (104 : Int)) := by
    rcases hr with h | ⟨h1, h2⟩
    · exact Or.inl h
    · right
      have a1 : (2 : ℚ) ^ (-126 : Int) ≤ (2 : ℚ) ^ (-100 : Int) := zpow_two_le (by norm_num)
      have a2 : (2 : ℚ) ^ (100 : Int) < (2 : ℚ) ^ (104 : Int) :=
        zpow_lt_zpow_right₀ (by norm_num) (by norm_num)
      exact ⟨by linarith, by linarith⟩
  obtain ⟨g, herr⟩ := mul32_facts n1 n2 m1 m2 e1 e2 hrange
  refine ⟨g, herr, ?_⟩
  rcases hr with h | ⟨_, h2⟩
  · rw [h, abs_zero]
    exact (two_zpow_pos _).le
  · exact h2

/-- The Cauchy-Schwarz inequality for the sums over two lists. -/
theorem cauchy_schwarz_lists (a b : List ℚ) :
    0 ≤ (List.zipWith (fun x y => |x * y|) a b).sum ∧ 0 ≤ (a.map (fun x => x * x)).sum ∧
    0 ≤ (b.map (fun y => y * y)).sum ∧
    (List.zipWith (fun x y => |x * y|) a b).sum ^ 2 ≤
      (a.map (fun x => x * x)).sum * (b.map (fun y => y * y)).sum := by
  have sq_sum_nonneg : ∀ l : List ℚ, 0 ≤ (l.map (fun x => x * x)).sum := by
    intro l
    apply List.sum_nonneg
    intro x hx
    obtain ⟨w, _, rfl⟩ := List.mem_map.mp hx
    exact mul_self_nonneg w
  induction a generalizing b with
  | nil =>
    refine ⟨by simp, by simp, sq_sum_nonneg b, by simp⟩
  | cons x a ih =>
    cases b with
    | nil =>
      refine ⟨by simp, sq_sum_nonneg _, by simp, by simp⟩
    | cons y b =>
      obtain ⟨hS, hA, hB, hcs⟩ := ih b
      simp only [List.zipWith_cons_cons, List.sum_cons, List.map_cons]
      set S := (List.zipWith (fun x y => |x * y|) a b).sum
      set A := (a.map (fun x => x * x)).sum
      set B := (b.map (fun y => y * y)).sum
      have hxy : |x * y| ^ 2 = x * x * (y * y) := by
        rw [sq_abs]; ring
      have hxy0 := abs_nonneg (x * y)
      have hmid : 2 * |x * y| * S ≤ x * x * B + A * (y * y) := by
        have hnn : 0 ≤ x * x * B + A * (y * y) :=
          add_nonneg (mul_nonneg (mul_self_nonneg x) hB) (mul_nonneg hA (mul_self_nonneg y))
        apply le_of_pow_le_pow_left₀ (two_ne_zero) hnn
        have e1 : (2 * |x * y| * S) ^ 2 = 4 * (x * x * (y * y)) * S ^ 2 := by
          rw [← hxy]; ring
        rw [e1]
        have h1 : 4 * (x * x * (y * y)) * S ^ 2 ≤ 4 * (x * x * (y * y)) * (A * B) :=
          mul_le_mul_of_nonneg_left hcs
            (mul_nonneg (by norm_num) (mul_nonneg (mul_self_nonneg x) (mul_self_nonneg y)))
        have h2 : (x * x * B + A * (y * y)) ^ 2 - 4 * (x * x * (y * y)) * (A * B) =
            (x * x * B - A * (y * y)) ^ 2 := by ring
        have h3 := sq_nonneg (x * x * B - A * (y * y))
        linarith
      refine ⟨add_nonneg hxy0 hS, add_nonneg (mul_self_nonneg x) hA,
        add_nonneg (mul_self_nonneg y) hB, ?_⟩
      have e2 : (|x * y| + S) ^ 2 = |x * y| ^ 2 + 2 * |x * y| * S + S ^ 2 := by ring
      rw [e2, hxy]
      have e3 : (x * x + A) * (y * y + B) = x * x * (y * y) + (x * x * B + A * (y * y)) + A * B := by
        ring
      rw [e3]
      linarith

theorem isqrtAux_spec (n k acc : Nat) (h1 : acc * acc ≤ n)
    (h2 : n < (acc + 2 ^ k) * (acc + 2 ^ k)) :
    isqrtAux n k acc * isqrtAux n k acc ≤ n ∧
      n < (isqrtAux n k acc + 1) * (isqrtAux n k acc + 1) := by
  induction k generalizing acc with
  | zero => simpa [isqrtAux] using And.intro h1 h2
  | succ k ih =>
    simp only [isqrtAux]
    split
    · rename_i hc
      apply ih _ hc
      have : acc + 2 ^ k + 2 ^ k = acc + 2 ^ (k + 1) := by
        rw [pow_succ]; ring
      rw [this]
      exact h2
    · rename_i hc
      exact ih _ h1 (by omega)

theorem isqrt_spec (n : Nat) : isqrt n * isqrt n ≤ n ∧ n < (isqrt n + 1) * (isqrt n + 1) := by
  unfold isqrt
  apply isqrtAux_spec
  · simp
  · have h := (bitLenAux_spec n n (le_refl _)).1
    have h1 : 1 ≤ 2 ^ bitLen n := Nat.one_le_two_pow
    unfold bitLen at h1 ⊢
    simp only [Nat.zero_add]
    calc n < 2 ^ bitLenAux n n := h
      _ = 2 ^ bitLenAux n n * 1 := (Nat.mul_one _).symm
      _ ≤ 2 ^ bitLenAux n n * 2 ^ bitLenAux n n := Nat.mul_le_mul_left _ h1

/-- `math.Sqrt` of a positive finite number `z` between `2^(-400)` and `2^400`:
a finite number `r ≥ 0` with `z * (1 - 2^(-53))^4 ≤ r^2 ≤ 16 * z`. -/
theorem mathSqrt_facts (m : Nat) (e : Int) (hm : 0 < m)
    (hlo : (2 : ℚ) ^ (-400 : Int) ≤ finVal false m e)
    (hhi : finVal false m e ≤ (2 : ℚ) ^ (400 : Int)) :
    ∃ n' m' e', mathSqrt (.fin false m e) = .fin n' m' e' ∧ 0 ≤ finVal n' m' e' ∧
      finVal false m e * (1 - u64) ^ 4 ≤ finVal n' m' e' ^ 2 ∧
      finVal n' m' e' ^ 2 ≤ 16 * finVal false m e := by
  have two_ne : (2 : ℚ) ≠ 0 := by norm_num
  have hu0 := u64_pos
  have hu1 := u64_lt_one
  -- the scaling exponent
  obtain ⟨a, ha, hpar, hdef⟩ : ∃ a : Int, (a = 108 ∨ a = 109) ∧ (e - a) % 2 = 0 ∧
      a = (if e % 2 = 0 then 108 else 109) := by
    by_cases h : e % 2 = 0
    · exact ⟨108, Or.inl rfl, by omega, by rw [if_pos h]⟩
    · exact ⟨109, Or.inr rfl, by omega, by rw [if_neg h]⟩
  have ha0 : 0 ≤ a := by rcases ha with h | h <;> omega
  obtain ⟨s1, s2⟩ := isqrt_spec (m * 2 ^ a.toNat)
  set S := isqrt (m * 2 ^ a.toNat) with hS
  set h : Int := (e - a) / 2 with hh
  have h2h : 2 * h = e - a := by omega
  -- the value `z = A * 2^(2h)`
  have hA : ((m * 2 ^ a.toNat : Nat) : ℚ) = (m : ℚ) * (2 : ℚ) ^ a := by
    rw [Nat.cast_mul, pow_toNat a ha0]
  have hz : finVal false m e = ((m * 2 ^ a.toNat : Nat) : ℚ) * ((2 : ℚ) ^ h) ^ 2 := by
    rw [hA, ← zpow_natCast ((2 : ℚ) ^ h), ← zpow_mul, mul_assoc, ← zpow_add₀ two_ne]
    simp only [finVal, Bool.false_eq_true, if_false, one_mul]
    congr 2
    push_cast
    omega
  have hh0 := two_zpow_pos h
  -- `S ≥ 2^54`
  have hSbig : 2 ^ 54 ≤ S := by
    have hA108 : 2 ^ 108 ≤ m * 2 ^ a.toNat := by
      have : 2 ^ 108 ≤ 2 ^ a.toNat := Nat.pow_le_pow_right (by norm_num) (by omega)
      calc 2 ^ 108 ≤ 2 ^ a.toNat := this
        _ = 1 * 2 ^ a.toNat := (Nat.one_mul _).symm
        _ ≤ m * 2 ^ a.toNat := Nat.mul_le_mul_right _ hm
    by_contra hc
    have hlt : S + 1 ≤ 2 ^ 54 := by omega
    have : (S + 1) * (S + 1) ≤ 2 ^ 54 * 2 ^ 54 := Nat.mul_le_mul hlt hlt
    have e108 : (2 : Nat) ^ 54 * 2 ^ 54 = 2 ^ 108 := by norm_num
    omega
  have hSq : (2 : ℚ) ^ (54 : Nat) ≤ (S : ℚ) := by exact_mod_cast hSbig
  have hSpos : (0 : ℚ) < S := by
    have : (0 : ℚ) < (2 : ℚ) ^ (54 : Nat) := by positivity
    linarith
  have s1' : (S : ℚ) * S ≤ ((m * 2 ^ a.toNat : Nat) : ℚ) := by exact_mod_cast s1
  have s2' : ((m * 2 ^ a.toNat : Nat) : ℚ) < ((S : ℚ) + 1) * ((S : ℚ) + 1) := by exact_mod_cast s2
  -- `S ≥ (S + 1) * (1 - u)`
  have hS1 : ((S : ℚ) + 1) * (1 - u64) ≤ S := by
    have : 1 ≤ u64 * ((S : ℚ) + 1) := by
      have h54 : u64 * (2 : ℚ) ^ (54 : Nat) = 2 := by
        unfold u64
        norm_num
      nlinarith
    linarith
  -- the number that is rounded
  set θ : Nat := if S * S = m * 2 ^ a.toNat then 0 else 1 with hθ
  have hθ1 : θ ≤ 1 := by
    rw [hθ]; split <;> omega
  have hθq : (θ : ℚ) ≤ 1 := by exact_mod_cast hθ1
  have hθ0 : (0 : ℚ) ≤ (θ : ℚ) := by positivity
  set w : ℚ := ((2 * S + θ : Nat) : ℚ) / (1 : Nat) * (2 : ℚ) ^ (h - 1) with hw
  have hw' : w = ((S : ℚ) + θ / 2) * (2 : ℚ) ^ h := by
    rw [hw, zpow_sub_one₀ two_ne]
    push_cast
    ring
  have hwlo : (S : ℚ) * (2 : ℚ) ^ h ≤ w := by
    rw [hw']
    apply mul_le_mul_of_nonneg_right _ hh0.le
    linarith
  have hwhi : w ≤ ((S : ℚ) + 1) * (2 : ℚ) ^ h := by
    rw [hw']
    apply mul_le_mul_of_nonneg_right _ hh0.le
    linarith
  have hwpos : 0 < w := lt_of_lt_of_le (mul_pos hSpos hh0) hwlo
  -- `z * (1 - u)^2 ≤ w^2 ≤ 4 z`
  have hw2lo : finVal false m e * (1 - u64) ^ 2 ≤ w ^ 2 := by
    have h1 : ((m * 2 ^ a.toNat : Nat) : ℚ) * (1 - u64) ^ 2 ≤ (S : ℚ) ^ 2 := by
      have h3 : (((S : ℚ) + 1) * (1 - u64)) ^ 2 ≤ (S : ℚ) ^ 2 :=
        pow_le_pow_left₀ (mul_nonneg (by linarith) (by linarith)) hS1 2
      have h4 : ((m * 2 ^ a.toNat : Nat) : ℚ) * (1 - u64) ^ 2 ≤
          (((S : ℚ) + 1) * ((S : ℚ) + 1)) * (1 - u64) ^ 2 :=
        mul_le_mul_of_nonneg_right s2'.le (sq_nonneg _)
      have h5 : (((S : ℚ) + 1) * ((S : ℚ) + 1)) * (1 - u64) ^ 2 =
          (((S : ℚ) + 1) * (1 - u64)) ^ 2 := by ring
      linarith
    have h2 : ((S : ℚ) * (2 : ℚ) ^ h) ^ 2 ≤ w ^ 2 :=
      pow_le_pow_left₀ (mul_nonneg hSpos.le hh0.le) hwlo 2
    calc finVal false m e * (1 - u64) ^ 2
        = (((m * 2 ^ a.toNat : Nat) : ℚ) * (1 - u64) ^ 2) * ((2 : ℚ) ^ h) ^ 2 := by rw [hz]; ring
      _ ≤ (S : ℚ) ^ 2 * ((2 : ℚ) ^ h) ^ 2 := mul_le_mul_of_nonneg_right h1 (sq_nonneg _)
      _ = ((S : ℚ) * (2 : ℚ) ^ h) ^ 2 := by ring
      _ ≤ w ^ 2 := h2
  have hw2hi : w ^ 2 ≤ 4 * finVal false m e := by
    have h1 : (S : ℚ) + 1 ≤ 2 * S := by
      have : (1 : ℚ) ≤ (2 : ℚ) ^ (54 : Nat) := by norm_num
      linarith
    have h2 : w ^ 2 ≤ ((2 * (S : ℚ)) * (2 : ℚ) ^ h) ^ 2 :=
      pow_le_pow_left₀ hwpos.le (le_trans hwhi (mul_le_mul_of_nonneg_right h1 hh0.le)) 2
    calc w ^ 2 ≤ ((2 * (S : ℚ)) * (2 : ℚ) ^ h) ^ 2 := h2
      _ = 4 * (((S : ℚ) * S) * ((2 : ℚ) ^ h) ^ 2) := by ring
      _ ≤ 4 * (((m * 2 ^ a.toNat : Nat) : ℚ) * ((2 : ℚ) ^ h) ^ 2) := by
          apply mul_le_mul_of_nonneg_left _ (by norm_num)
          exact mul_le_mul_of_nonneg_right s1' (sq_nonneg _)
      _ = 4 * finVal false m e := by rw [hz]
  -- `w` is in the normal range
  have hu34 : (3 : ℚ) / 4 ≤ (1 - u64) ^ 2 := by
    unfold u64
    norm_num
  have hrange : w = 0 ∨ ((2 : ℚ) ^ (binary64.emin + ((binary64.prec : Int) - 1)) ≤ |w| ∧
      |w| < (2 : ℚ) ^ binary64.emax) := by
    right
    rw [abs_of_pos hwpos]
    constructor
    · by_contra hc
      have hc' := not_le.mp hc
      have h1 : w ^ 2 < ((2 : ℚ) ^ (binary64.emin + ((binary64.prec : Int) - 1))) ^ 2 :=
        pow_lt_pow_left₀ hc' hwpos.le two_ne_zero
      have h2 : ((2 : ℚ) ^ (binary64.emin + ((binary64.prec : Int) - 1))) ^ 2 ≤
          (2 : ℚ) ^ (-401 : Int) := by
        rw [← zpow_natCast, ← zpow_mul]
        exact zpow_two_le (by decide)
      have h3 : (2 : ℚ) ^ (-401 : Int) * 2 = (2 : ℚ) ^ (-400 : Int) := by
        rw [← zpow_add_one₀ two_ne]; norm_num
      have h4 : (2 : ℚ) ^ (-400 : Int) * (3 / 4) ≤ w ^ 2 :=
        le_trans (mul_le_mul hlo hu34 (by norm_num) (le_trans (two_zpow_pos _).le hlo)) hw2lo
      have h5 := two_zpow_pos (-401 : Int)
      have hww : w ^ 2 < (2 : ℚ) ^ (-401 : Int) := lt_of_lt_of_le h1 h2
      have h6 : (2 : ℚ) ^ (-401 : Int) * 2 * (3 / 4) ≤ w ^ 2 := by rw [h3]; exact h4
      have key : ∀ x y : ℚ, 0 < x → y < x → x * 2 * (3 / 4) ≤ y → False := by
        intro x y a b c
        linarith
      exact key _ _ h5 hww h6
    · by_contra hc
      have hc' := not_lt.mp hc
      have h1 : ((2 : ℚ) ^ binary64.emax) ^ 2 ≤ w ^ 2 :=
        pow_le_pow_left₀ (two_zpow_pos _).le hc' 2
      have h2 : (2 : ℚ) ^ (403 : Int) ≤ ((2 : ℚ) ^ binary64.emax) ^ 2 := by
        rw [← zpow_natCast ((2 : ℚ) ^ binary64.emax), ← zpow_mul]
        exact zpow_two_le (by decide)
      have h3 : 4 * (2 : ℚ) ^ (400 : Int) < (2 : ℚ) ^ (403 : Int) := by
        have : (2 : ℚ) ^ (403 : Int) = 8 * (2 : ℚ) ^ (400 : Int) := by
          rw [show (403 : Int) = 3 + 400 by norm_num, zpow_add₀ two_ne]
          norm_num
        have := two_zpow_pos (400 : Int)
        linarith
      have hww : (2 : ℚ) ^ (403 : Int) ≤ w ^ 2 := le_trans h2 h1
      have h7 : 4 * finVal false m e ≤ 4 * (2 : ℚ) ^ (400 : Int) :=
        mul_le_mul_of_nonneg_left hhi (by norm_num)
      linarith
  -- the rounding
  have hr := roundTo_roundsQ binary64 false (2 * S + θ) 1 (h - 1) (by norm_num)
  simp only [Bool.false_eq_true, if_false, one_mul] at hr
  obtain ⟨n', m', e', hy, herr, _, _⟩ := hr.roundsQ_error (by decide) hrange
  have herr' : |finVal n' m' e' - w| ≤ |w| * u64 := herr
  obtain ⟨b1, b2⟩ := rel_bounds hu0.le hu1.le herr'
  obtain ⟨c1, c2⟩ := b2 hwpos.le
  refine ⟨n', m', e', ?_, c2, ?_, ?_⟩
  · simp only [mathSqrt, hm.ne', if_false, Bool.false_eq_true]
    rw [← hdef]
    exact hy
  · calc finVal false m e * (1 - u64) ^ 4
        = (finVal false m e * (1 - u64) ^ 2) * (1 - u64) ^ 2 := by ring
      _ ≤ w ^ 2 * (1 - u64) ^ 2 := mul_le_mul_of_nonneg_right hw2lo (sq_nonneg _)
      _ = (w * (1 - u64)) ^ 2 := by ring
      _ ≤ finVal n' m' e' ^ 2 :=
          pow_le_pow_left₀ (mul_nonneg hwpos.le (by linarith)) c1 2
  · have hr2 : finVal n' m' e' ≤ 2 * w := by
      have h1 : |finVal n' m' e'| ≤ |w| + |w| * u64 := by
        have := abs_sub_abs_le_abs_sub (finVal n' m' e') w
        linarith
      rw [abs_of_nonneg c2, abs_of_pos hwpos] at h1
      have h2 : w * u64 ≤ w * 1 := mul_le_mul_of_nonneg_left hu1.le hwpos.le
      linarith
    calc finVal n' m' e' ^ 2 ≤ (2 * w) ^ 2 := pow_le_pow_left₀ c2 hr2 2
      _ = 4 * w ^ 2 := by ring
      _ ≤ 4 * (4 * finVal false m e) := mul_le_mul_of_nonneg_left hw2hi (by norm_num)
      _ = 16 * finVal false m e := by ring

/-- The three sums of `CosineSimilarity` as three accumulations. -/
theorem cosineLoop_eq_foldl (a b : List GoFloat) (h : a.length = b.length) (d x y : GoFloat) :
    cosineLoop a b (d, x, y) =
      ((List.zipWith mul32 a b).foldl add64 d, (a.map (fun t => mul32 t t)).foldl add64 x,
        (b.map (fun t => mul32 t t)).foldl add64 y) := by
  induction a generalizing b d x y with
  | nil =>
    cases b with
    | nil => rfl
    | cons _ _ => simp at h
  | cons u a ih =>
    cases b with
    | nil => simp at h
    | cons v b =>
      simp only [cosineLoop, List.zipWith_cons_cons, List.map_cons, List.foldl_cons]
      exact ih b (by simpa using h) _ _ _

theorem two_pow_101 : (2 : ℚ) ^ (100 : Int) * (1 + u32) ≤ (2 : ℚ) ^ (101 : Int) := by
  have h : (2 : ℚ) ^ (101 : Int) = (2 : ℚ) ^ (100 : Int) * 2 := by
    rw [← zpow_add_one₀ (by norm_num : (2 : ℚ) ≠ 0)]; norm_num
  rw [h]
  apply mul_le_mul_of_nonneg_left _ (two_zpow_pos _).le
  have := u32_lt_one
  linarith

/-- The list of the products `float64(a[i] * b[i])`. -/
theorem products_facts (a b : List GoFloat) (ha : ∀ x ∈ a, inRange x = true)
    (hb : ∀ y ∈ b, inRange y = true) :
    (∀ w ∈ List.zipWith mul32 a b, GridFinite w) ∧
    ((List.zipWith mul32 a b).map (fun w => |w.val|)).sum * (1 - u32) ≤
      (List.zipWith (fun x y => |x * y|) (a.map GoFloat.val) (b.map GoFloat.val)).sum ∧
    ((List.zipWith mul32 a b).map (fun w => |w.val|)).sum ≤
      ((List.zipWith mul32 a b).length : ℚ) * (2 : ℚ) ^ (101 : Int) := by
  have hv0 := u32_pos
  have hv1 := u32_lt_one
  induction a generalizing b with
  | nil => simp
  | cons x a ih =>
    cases b with
    | nil => simp
    | cons y b =>
      obtain ⟨i1, i2, i3⟩ := ih b (fun z hz => ha z (List.mem_cons_of_mem _ hz))
        (fun z hz => hb z (List.mem_cons_of_mem _ hz))
      obtain ⟨g, herr, hmag⟩ := mul32_inRange (ha x (List.mem_cons_self _ _))
        (hb y (List.mem_cons_self _ _))
      obtain ⟨b1, _⟩ := rel_bounds hv0.le hv1.le herr
      have hup : |(mul32 x y).val| ≤ (2 : ℚ) ^ (101 : Int) := by
        have h1 : |(mul32 x y).val| ≤ |x.val * y.val| + |x.val * y.val| * u32 := by
          have := abs_sub_abs_le_abs_sub (mul32 x y).val (x.val * y.val)
          linarith
        have h2 : |x.val * y.val| + |x.val * y.val| * u32 ≤ (2 : ℚ) ^ (100 : Int) * (1 + u32) := by
          have : |x.val * y.val| + |x.val * y.val| * u32 = |x.val * y.val| * (1 + u32) := by ring
          rw [this]
          exact mul_le_mul_of_nonneg_right hmag (by linarith)
        exact le_trans h1 (le_trans h2 two_pow_101)
      simp only [List.zipWith_cons_cons, List.map_cons, List.sum_cons, List.length_cons]
      refine ⟨?_, ?_, ?_⟩
      · intro w hw
        rcases List.mem_cons.mp hw with rfl | hw
        · exact g
        · exact i1 w hw
      · rw [add_mul]
        exact add_le_add b1 i2
      · push_cast
        rw [add_mul, one_mul, add_comm]
        exact add_le_add i3 hup

/-- The list of the squares `float64(a[i] * a[i])`. -/
theorem squares_facts (a : List GoFloat) (ha : ∀ x ∈ a, inRange x = true) :
    (∀ w ∈ a.map (fun t => mul32 t t), GridFinite w ∧ 0 ≤ w.val) ∧
    ((a.map GoFloat.val).map (fun x => x * x)).sum * (1 - u32) ≤
      ((a.map (fun t => mul32 t t)).map (fun w => w.val)).sum ∧
    ((a.map (fun t => mul32 t t)).map (fun w => |w.val|)).sum ≤
      (a.length : ℚ) * (2 : ℚ) ^ (101 : Int) := by
  have hv0 := u32_pos
  have hv1 := u32_lt_one
  induction a with
  | nil => simp
  | cons x a ih =>
    obtain ⟨i1, i2, i3⟩ := ih (fun z hz => ha z (List.mem_cons_of_mem _ hz))
    obtain ⟨g, herr, hmag⟩ := mul32_inRange (ha x (List.mem_cons_self _ _))
      (ha x (List.mem_cons_self _ _))
    obtain ⟨_, b2⟩ := rel_bounds hv0.le hv1.le herr
    obtain ⟨c1, c2⟩ := b2 (mul_self_nonneg _)
    have hup : |(mul32 x x).val| ≤ (2 : ℚ) ^ (101 : Int) := by
      have h1 : |(mul32 x x).val| ≤ |x.val * x.val| + |x.val * x.val| * u32 := by
        have := abs_sub_abs_le_abs_sub (mul32 x x).val (x.val * x.val)
        linarith
      have h2 : |x.val * x.val| + |x.val * x.val| * u32 ≤ (2 : ℚ) ^ (100 : Int) * (1 + u32) := by
        have : |x.val * x.val| + |x.val * x.val| * u32 = |x.val * x.val| * (1 + u32) := by ring
        rw [this]
        exact mul_le_mul_of_nonneg_right hmag (by linarith)
      exact le_trans h1 (le_trans h2 two_pow_101)
    simp only [List.map_cons, List.sum_cons, List.length_cons]
    refine ⟨?_, ?_, ?_⟩
    · intro w hw
      rcases List.mem_cons.mp hw with rfl | hw
      · exact ⟨g, c2⟩
      · exact i1 w hw
    · rw [add_mul]
      exact add_le_add c1 i2
    · push_cast
      rw [add_mul, one_mul, add_comm]
      exact add_le_add i3 hup

/-- Bernoulli's inequality for the factor `1 - 2^(-53)`. -/
theorem bernoulli_u64 (k : Nat) : 1 - (k : ℚ) * u64 ≤ (1 - u64) ^ k := by
  have h := one_add_mul_le_pow (show (-2 : ℚ) ≤ -u64 by linarith [u64_lt_one]) k
  have e1 : 1 + (k : ℚ) * -u64 = 1 - (k : ℚ) * u64 := by ring
  have e2 : (1 + -u64) = 1 - u64 := by ring
  rw [e1, e2] at h
  exact h

theorem half_le_pow (n : Nat) (hn : n ≤ 2 ^ 20) : (1 : ℚ) / 2 ≤ (1 - u64) ^ n := by
  have h := bernoulli_u64 n
  have hn' : (n : ℚ) ≤ (2 : ℚ) ^ (20 : Nat) := by exact_mod_cast hn
  have : (n : ℚ) * u64 ≤ (2 : ℚ) ^ (20 : Nat) * u64 :=
    mul_le_mul_of_nonneg_right hn' u64_pos.le
  have e : (2 : ℚ) ^ (20 : Nat) * u64 ≤ 1 / 2 := by
    unfold u64
    norm_num
  linarith

/-- One accumulation of `CosineSimilarity` over at most `2^20` terms of
magnitude at most `2^101` each. -/
theorem accumulate_facts (L : List GoFloat) (hL : ∀ w ∈ L, GridFinite w) (hn : L.length ≤ 2 ^ 20)
    (hsum : (L.map (fun w => |w.val|)).sum ≤ (L.length : ℚ) * (2 : ℚ) ^ (101 : Int)) :
    GridFinite (L.foldl add64 zero64) ∧
    |(L.foldl add64 zero64).val| * (1 - u64) ^ L.length ≤ (L.map (fun w => |w.val|)).sum ∧
    |(L.foldl add64 zero64).val| ≤ (2 : ℚ) ^ (122 : Int) ∧
    ((∀ w ∈ L, 0 ≤ w.val) →
      (L.map (fun w => w.val)).sum * (1 - u64) ^ L.length ≤ (L.foldl add64 zero64).val) := by
  have hz : GridFinite zero64 := ⟨⟨false, 0, 0, rfl⟩, by
    simp only [zero64, GoFloat.val, finVal]
    exact ⟨0, by simp⟩⟩
  have hz0 : zero64.val = 0 := by simp [zero64, GoFloat.val, finVal]
  have hhalf := half_le_pow L.length hn
  have hlen : (L.length : ℚ) ≤ (2 : ℚ) ^ (20 : Int) := by
    have : (L.length : ℚ) ≤ ((2 ^ 20 : Nat) : ℚ) := by exact_mod_cast hn
    have e : ((2 ^ 20 : Nat) : ℚ) = (2 : ℚ) ^ (20 : Int) := by norm_num
    rw [e] at this
    exact this
  have h121 : (L.length : ℚ) * (2 : ℚ) ^ (101 : Int) ≤ (2 : ℚ) ^ (121 : Int) := by
    have : (2 : ℚ) ^ (121 : Int) = (2 : ℚ) ^ (20 : Int) * (2 : ℚ) ^ (101 : Int) := by
      rw [← zpow_add₀ (by norm_num : (2 : ℚ) ≠ 0)]; norm_num
    rw [this]
    exact mul_le_mul_of_nonneg_right hlen (two_zpow_pos _).le
  have hT : |zero64.val| + (L.map (fun w => |w.val|)).sum ≤
      (2 : ℚ) ^ (900 : Int) * (1 - u64) ^ L.length := by
    rw [hz0, abs_zero, zero_add]
    have h1 : (2 : ℚ) ^ (121 : Int) ≤ (2 : ℚ) ^ (900 : Int) * (1 / 2) := by
      have : (2 : ℚ) ^ (900 : Int) * (1 / 2) = (2 : ℚ) ^ (899 : Int) := by
        rw [show (900 : Int) = 899 + 1 by norm_num, zpow_add_one₀ (by norm_num : (2 : ℚ) ≠ 0)]
        ring
      rw [this]
      exact zpow_two_le (by norm_num)
    have h2 : (2 : ℚ) ^ (900 : Int) * (1 / 2) ≤ (2 : ℚ) ^ (900 : Int) * (1 - u64) ^ L.length :=
      mul_le_mul_of_nonneg_left hhalf (two_zpow_pos _).le
    linarith
  obtain ⟨r1, r2, r3⟩ := sum_facts L zero64 hz hL hT
  rw [hz0, abs_zero, zero_add] at r2
  refine ⟨r1, r2, ?_, ?_⟩
  · have h1 : |(L.foldl add64 zero64).val| * (1 / 2) ≤
        |(L.foldl add64 zero64).val| * (1 - u64) ^ L.length :=
      mul_le_mul_of_nonneg_left hhalf (abs_nonneg _)
    have h2 : (2 : ℚ) ^ (122 : Int) = 2 * (2 : ℚ) ^ (121 : Int) := by
      rw [show (122 : Int) = 121 + 1 by norm_num, zpow_add_one₀ (by norm_num : (2 : ℚ) ≠ 0)]
      ring
    rw [h2]
    linarith
  · intro hnn
    have := r3 (by rw [hz0]) hnn
    rw [hz0, zero_add] at this
    exact this

/-- A finite number with a non-negative value that is not zero is a positive
number on the grid. -/
theorem pos_of_not_isZero {x : GoFloat} (hg : GridFinite x) (h0 : 0 ≤ x.val)
    (hz : x.isZero = false) :
    ∃ m e, x = .fin false m e ∧ 0 < m ∧ (2 : ℚ) ^ (-149 : Int) ≤ finVal false m e := by
  obtain ⟨⟨n, m, e, rfl⟩, g⟩ := hg
  have hm : 0 < m := by
    rcases Nat.eq_zero_or_pos m with h | h
    · subst h
      simp [GoFloat.isZero] at hz
    · exact h
  have hpos := finVal_pos m e hm
  cases n with
  | true =>
    simp only [GoFloat.val] at h0
    have : finVal true m e = - finVal false m e := finVal_not false m e
    linarith
  | false =>
    refine ⟨m, e, rfl, hm, ?_⟩
    simp only [GoFloat.val] at g
    have := g.abs_ge hpos.ne'
    rwa [abs_of_pos hpos] at this

theorem sq_lt_of_lt {x b : ℚ} (hb : 0 ≤ b) (h : x ^ 2 < b ^ 2) : x < b := by
  by_contra hc
  have := pow_le_pow_left₀ hb (not_lt.mp hc) 2
  linarith

theorem sq_le_of_le {x b : ℚ} (hb : 0 ≤ b) (h : x ^ 2 ≤ b ^ 2) : x ≤ b := by
  by_contra hc
  have := pow_lt_pow_left₀ (not_le.mp hc) hb two_ne_zero
  linarith

/-- The final constant: `(1 + 2^(-20)) * (1 - 2^(-24))^2 * (1 - 2^(-53))^(2n+5) ≥ 1`
for `n ≤ 2^20`. -/
theorem slack (n : Nat) (hn : n ≤ 2 ^ 20) :
    1 ≤ (1 + (2 : ℚ) ^ (-20 : Int)) * (((1 - u32) * (1 - u64) ^ n) ^ 2 * (1 - u64) ^ 5) := by
  have hb := bernoulli_u64 (2 * n + 5)
  have e1 : ((1 - u32) * (1 - u64) ^ n) ^ 2 * (1 - u64) ^ 5 =
      (1 - u32) ^ 2 * (1 - u64) ^ (2 * n + 5) := by ring
  rw [e1]
  have hn' : ((2 * n + 5 : Nat) : ℚ) ≤ (2 : ℚ) ^ (21 : Nat) + 5 := by
    have : 2 * n + 5 ≤ 2 ^ 21 + 5 := by omega
    exact_mod_cast this
  have h1 : 1 - ((2 : ℚ) ^ (21 : Nat) + 5) * u64 ≤ (1 - u64) ^ (2 * n + 5) := by
    have : ((2 * n + 5 : Nat) : ℚ) * u64 ≤ ((2 : ℚ) ^ (21 : Nat) + 5) * u64 :=
      mul_le_mul_of_nonneg_right hn' u64_pos.le
    linarith
  have h2 : (0 : ℚ) ≤ 1 - ((2 : ℚ) ^ (21 : Nat) + 5) * u64 := by
    unfold u64; norm_num
  have h3 : 1 ≤ (1 + (2 : ℚ) ^ (-20 : Int)) * ((1 - u32) ^ 2 *
      (1 - ((2 : ℚ) ^ (21 : Nat) + 5) * u64)) := by
    unfold u32 u64; norm_num
  have h4 : (1 - u32) ^ 2 * (1 - ((2 : ℚ) ^ (21 : Nat) + 5) * u64) ≤
      (1 - u32) ^ 2 * (1 - u64) ^ (2 * n + 5) :=
    mul_le_mul_of_nonneg_left h1 (sq_nonneg _)
  have h5 : (0 : ℚ) ≤ 1 + (2 : ℚ) ^ (-20 : Int) := by norm_num
  calc (1 : ℚ) ≤ (1 + (2 : ℚ) ^ (-20 : Int)) * ((1 - u32) ^ 2 *
        (1 - ((2 : ℚ) ^ (21 : Nat) + 5) * u64)) := h3
    _ ≤ (1 + (2 : ℚ) ^ (-20 : Int)) * ((1 - u32) ^ 2 * (1 - u64) ^ (2 * n + 5)) :=
      mul_le_mul_of_nonneg_left h4 h5

theorem const_hi : RoundsQ binary64 (1 + (2 : ℚ) ^ (-20 : Int)) (.fin false 1048577 (-20)) := by
  have h := roundTo_roundsQ binary64 false 1048577 1 (-20) (by norm_num)
  have e : roundTo binary64 false 1048577 1 (-20) = .fin false 1048577 (-20) := by decide
  rw [e] at h
  have v : (if false = true then (-1 : ℚ) else 1) * (((1048577 : Nat) : ℚ) / ((1 : Nat) : ℚ) *
      (2 : ℚ) ^ (-20 : Int)) = 1 + (2 : ℚ) ^ (-20 : Int) := by norm_num
  rw [v] at h
  exact h

theorem const_lo : RoundsQ binary64 (-(1 + (2 : ℚ) ^ (-20 : Int))) (.fin true 1048577 (-20)) := by
  have h := roundTo_roundsQ binary64 true 1048577 1 (-20) (by norm_num)
  have e : roundTo binary64 true 1048577 1 (-20) = .fin true 1048577 (-20) := by decide
  rw [e] at h
  have v : (if true = true then (-1 : ℚ) else 1) * (((1048577 : Nat) : ℚ) / ((1 : Nat) : ℚ) *
      (2 : ℚ) ^ (-20 : Int)) = -(1 + (2 : ℚ) ^ (-20 : Int)) := by norm_num
  rw [v] at h
  exact h

/-- The quotient `dotProduct / (math.Sqrt(normA) * math.Sqrt(normB))` when the
computed sums satisfy the Cauchy-Schwarz inequality up to the factor `w^2`. -/
theorem quotient_bound (dot nA nB : GoFloat) (w : ℚ)
    (hslack : 1 ≤ (1 + (2 : ℚ) ^ (-20 : Int)) * (w ^ 2 * (1 - u64) ^ 5))
    (hdot : GridFinite dot) (hA : GridFinite nA) (hB : GridFinite nB)
    (hA0 : 0 ≤ nA.val) (hB0 : 0 ≤ nB.val)
    (hAhi : nA.val ≤ (2 : ℚ) ^ (122 : Int)) (hBhi : nB.val ≤ (2 : ℚ) ^ (122 : Int))
    (hzA : nA.isZero = false) (hzB : nB.isZero = false)
    (hcs : (|dot.val| * w ^ 2) ^ 2 ≤ nA.val * nB.val) :
    (div64 dot (mul64 (mathSqrt nA) (mathSqrt nB))).isNaN = false ∧
    (div64 dot (mul64 (mathSqrt nA) (mathSqrt nB))).key ≤ (GoFloat.fin false 1048577 (-20)).key ∧
    (GoFloat.fin true 1048577 (-20)).key ≤ (div64 dot (mul64 (mathSqrt nA) (mathSqrt nB))).key := by
  have two_ne : (2 : ℚ) ≠ 0 := by norm_num
  have hu0 := u64_pos
  have hu1 := u64_lt_one
  have h1u : (0 : ℚ) ≤ 1 - u64 := by linarith
  obtain ⟨mA, eA, rfl, hmA, hAlo⟩ := pos_of_not_isZero hA hA0 hzA
  obtain ⟨mB, eB, rfl, hmB, hBlo⟩ := pos_of_not_isZero hB hB0 hzB
  obtain ⟨⟨nd, md, ed, rfl⟩, _⟩ := hdot
  simp only [GoFloat.val] at hAhi hBhi hcs hA0 hB0
  set zA := finVal false mA eA with hzA'
  set zB := finVal false mB eB with hzB'
  set dv := finVal nd md ed with hdv
  have p149 := two_zpow_pos (-149 : Int)
  have hzApos : 0 < zA := lt_of_lt_of_le p149 hAlo
  have hzBpos : 0 < zB := lt_of_lt_of_le p149 hBlo
  -- the square roots
  have r400 : (2 : ℚ) ^ (-400 : Int) ≤ (2 : ℚ) ^ (-149 : Int) := zpow_two_le (by norm_num)
  have r400' : (2 : ℚ) ^ (122 : Int) ≤ (2 : ℚ) ^ (400 : Int) := zpow_two_le (by norm_num)
  obtain ⟨n1, m1, e1, hsA, rA0, rAlo, rAhi⟩ :=
    mathSqrt_facts mA eA hmA (le_trans r400 hAlo) (le_trans hAhi r400')
  obtain ⟨n2, m2, e2, hsB, rB0, rBlo, rBhi⟩ :=
    mathSqrt_facts mB eB hmB (le_trans r400 hBlo) (le_trans hBhi r400')
  rw [hsA, hsB]
  set rA := finVal n1 m1 e1 with hrA
  set rB := finVal n2 m2 e2 with hrB
  -- the product of the roots
  have hu4 : (1 : ℚ) / 2 ≤ (1 - u64) ^ 4 := by
    unfold u64; norm_num
  have hu4pos : (0 : ℚ) < (1 - u64) ^ 4 := by linarith
  have hprod_lo : zA * zB * ((1 - u64) ^ 4 * (1 - u64) ^ 4) ≤ (rA * rB) ^ 2 := by
    have : (rA * rB) ^ 2 = rA ^ 2 * rB ^ 2 := by ring
    rw [this]
    calc zA * zB * ((1 - u64) ^ 4 * (1 - u64) ^ 4)
        = (zA * (1 - u64) ^ 4) * (zB * (1 - u64) ^ 4) := by ring
      _ ≤ rA ^ 2 * rB ^ 2 :=
        mul_le_mul rAlo rBlo (mul_nonneg hzBpos.le hu4pos.le) (sq_nonneg _)
  have hprod_hi : (rA * rB) ^ 2 ≤ 256 * (zA * zB) := by
    have : (rA * rB) ^ 2 = rA ^ 2 * rB ^ 2 := by ring
    rw [this]
    calc rA ^ 2 * rB ^ 2 ≤ (16 * zA) * (16 * zB) :=
          mul_le_mul rAhi rBhi (sq_nonneg _) (by linarith)
      _ = 256 * (zA * zB) := by ring
  have hrr0 : 0 ≤ rA * rB := mul_nonneg rA0 rB0
  have hzz_lo : (2 : ℚ) ^ (-298 : Int) ≤ zA * zB := by
    have : (2 : ℚ) ^ (-298 : Int) = (2 : ℚ) ^ (-149 : Int) * (2 : ℚ) ^ (-149 : Int) := by
      rw [← zpow_add₀ two_ne]; norm_num
    rw [this]
    exact mul_le_mul hAlo hBlo p149.le hzApos.le
  have hzz_hi : zA * zB ≤ (2 : ℚ) ^ (244 : Int) := by
    have : (2 : ℚ) ^ (244 : Int) = (2 : ℚ) ^ (122 : Int) * (2 : ℚ) ^ (122 : Int) := by
      rw [← zpow_add₀ two_ne]; norm_num
    rw [this]
    exact mul_le_mul hAhi hBhi hzBpos.le (two_zpow_pos _).le
  have hrange : rA * rB = 0 ∨ ((2 : ℚ) ^ (binary64.emin + ((binary64.prec : Int) - 1)) ≤ |rA * rB| ∧
      |rA * rB| < (2 : ℚ) ^ binary64.emax) := by
    right
    rw [abs_of_nonneg hrr0]
    constructor
    · apply sq_le_of_le hrr0
      have h1 : ((2 : ℚ) ^ (binary64.emin + ((binary64.prec : Int) - 1))) ^ 2 ≤
          (2 : ℚ) ^ (-300 : Int) := by
        rw [← zpow_natCast, ← zpow_mul]
        exact zpow_two_le (by decide)
      have h2 : (2 : ℚ) ^ (-300 : Int) = (2 : ℚ) ^ (-298 : Int) * (1 / 4) := by
        rw [show (-300 : Int) = -298 + -2 by norm_num, zpow_add₀ two_ne]
        norm_num
      have h3 : (2 : ℚ) ^ (-298 : Int) * (1 / 4) ≤ zA * zB * ((1 - u64) ^ 4 * (1 - u64) ^ 4) := by
        have : (1 : ℚ) / 4 ≤ (1 - u64) ^ 4 * (1 - u64) ^ 4 := by
          calc (1 : ℚ) / 4 = 1 / 2 * (1 / 2) := by norm_num
            _ ≤ (1 - u64) ^ 4 * (1 - u64) ^ 4 := mul_le_mul hu4 hu4 (by norm_num) hu4pos.le
        exact mul_le_mul hzz_lo this (by norm_num) (mul_nonneg hzApos.le hzBpos.le)
      rw [h2] at h1
      exact le_trans h1 (le_trans h3 hprod_lo)
    · apply sq_lt_of_lt (two_zpow_pos _).le
      have h1 : (2 : ℚ) ^ (253 : Int) ≤ ((2 : ℚ) ^ binary64.emax) ^ 2 := by
        rw [← zpow_natCast ((2 : ℚ) ^ binary64.emax), ← zpow_mul]
        exact zpow_two_le (by decide)
      have h2 : 256 * (2 : ℚ) ^ (244 : Int) < (2 : ℚ) ^ (253 : Int) := by
        have : (2 : ℚ) ^ (253 : Int) = 512 * (2 : ℚ) ^ (244 : Int) := by
          rw [show (253 : Int) = 9 + 244 by norm_num, zpow_add₀ two_ne]
          norm_num
        have := two_zpow_pos (244 : Int)
        linarith
      have h3 : 256 * (zA * zB) ≤ 256 * (2 : ℚ) ^ (244 : Int) :=
        mul_le_mul_of_nonneg_left hzz_hi (by norm_num)
      linarith
  obtain ⟨n3, m3, e3, hden, herr, _, _⟩ :=
    (mul_roundsQ binary64 n1 n2 m1 m2 e1 e2).roundsQ_error (by decide) hrange
  have herr' : |finVal n3 m3 e3 - rA * rB| ≤ |rA * rB| * u64 := herr
  obtain ⟨_, b2⟩ := rel_bounds hu0.le hu1.le herr'
  obtain ⟨c1, c2⟩ := b2 hrr0
  set dn := finVal n3 m3 e3 with hdn
  -- the denominator dominates `|dot| * w^2 * (1 - u)^5`
  have hrrpos : 0 < rA * rB := by
    rcases eq_or_lt_of_le hrr0 with h | h
    · exfalso
      rw [← h] at hprod_lo
      have : 0 < zA * zB * ((1 - u64) ^ 4 * (1 - u64) ^ 4) :=
        mul_pos (mul_pos hzApos hzBpos) (mul_pos hu4pos hu4pos)
      simp at hprod_lo
      linarith
    · exact h
  have hdnpos : 0 < dn := lt_of_lt_of_le (mul_pos hrrpos (by linarith)) c1
  have hm3 : 0 < m3 := by
    rcases Nat.eq_zero_or_pos m3 with h | h
    · exfalso
      rw [hdn, h] at hdnpos
      simp [finVal] at hdnpos
    · exact h
  have hdom : |dv| * (w ^ 2 * (1 - u64) ^ 5) ≤ dn := by
    apply sq_le_of_le hdnpos.le
    have e1 : (|dv| * (w ^ 2 * (1 - u64) ^ 5)) ^ 2 =
        (|dv| * w ^ 2) ^ 2 * ((1 - u64) ^ 4 * (1 - u64) ^ 4) * (1 - u64) ^ 2 := by ring
    rw [e1]
    calc (|dv| * w ^ 2) ^ 2 * ((1 - u64) ^ 4 * (1 - u64) ^ 4) * (1 - u64) ^ 2
        ≤ (zA * zB) * ((1 - u64) ^ 4 * (1 - u64) ^ 4) * (1 - u64) ^ 2 := by
          apply mul_le_mul_of_nonneg_right _ (sq_nonneg _)
          exact mul_le_mul_of_nonneg_right hcs (mul_nonneg hu4pos.le hu4pos.le)
      _ ≤ (rA * rB) ^ 2 * (1 - u64) ^ 2 := mul_le_mul_of_nonneg_right hprod_lo (sq_nonneg _)
      _ = (rA * rB * (1 - u64)) ^ 2 := by ring
      _ ≤ dn ^ 2 := pow_le_pow_left₀ (mul_nonneg hrr0 h1u) c1 2
  -- the quotient
  have hc0 : (0 : ℚ) < 1 + (2 : ℚ) ^ (-20 : Int) := by
    have := two_zpow_pos (-20 : Int)
    linarith
  have hg0 : 0 ≤ w ^ 2 * (1 - u64) ^ 5 := mul_nonneg (sq_nonneg _) (pow_nonneg h1u _)
  have habs : |dv| ≤ (1 + (2 : ℚ) ^ (-20 : Int)) * dn := by
    calc |dv| = |dv| * 1 := (mul_one _).symm
      _ ≤ |dv| * ((1 + (2 : ℚ) ^ (-20 : Int)) * (w ^ 2 * (1 - u64) ^ 5)) :=
        mul_le_mul_of_nonneg_left hslack (abs_nonneg _)
      _ = (1 + (2 : ℚ) ^ (-20 : Int)) * (|dv| * (w ^ 2 * (1 - u64) ^ 5)) := by ring
      _ ≤ (1 + (2 : ℚ) ^ (-20 : Int)) * dn := mul_le_mul_of_nonneg_left hdom hc0.le
  have hq := abs_le.mp habs
  have hq1 : dv / dn ≤ 1 + (2 : ℚ) ^ (-20 : Int) := by
    rw [div_le_iff₀ hdnpos]
    exact hq.2
  have hq2 : -(1 + (2 : ℚ) ^ (-20 : Int)) ≤ dv / dn := by
    rw [le_div_iff₀ hdnpos]
    linarith [hq.1]
  have hres : RoundsQ binary64 (dv / dn)
      (div64 (.fin nd md ed) (mul64 (.fin n1 m1 e1) (.fin n2 m2 e2))) := by
    unfold mul64
    rw [hden]
    exact div_roundsQ binary64 nd n3 md m3 ed e3 hm3
  exact ⟨hres.1, hres.roundsQ_mono (by decide) const_hi hq1, const_lo.roundsQ_mono (by decide) hres hq2⟩

/-- C4, as amended. For every pair of vectors of any lengths, of at most
`2^20` components each of which is zero or of a magnitude between `2^(-50)`
and `2^50`, `CosineSimilarity(a, b)` is a number (not NaN) in the closed
interval `[-(1 + 2^(-20)), 1 + 2^(-20)]`. -/
theorem cosine_bounded_in_range (a b : List GoFloat) (ha : ∀ x ∈ a, inRange x = true)
    (hb : ∀ y ∈ b, inRange y = true) (hn : a.length ≤ 2 ^ 20) :
    GoFloat.le (CosineSimilarity a b) (.fin false 1048577 (-20)) = true ∧
    GoFloat.le (.fin true 1048577 (-20)) (CosineSimilarity a b) = true := by
  have hzero : GoFloat.le zero64 (.fin false 1048577 (-20)) = true ∧
      GoFloat.le (.fin true 1048577 (-20)) zero64 = true := by decide
  by_cases hl : a.length = b.length
  · rw [cosine_of_length_eq a b hl, cosineLoop_eq_foldl a b hl]
    simp only []
    split
    · exact hzero
    · rename_i hz
      simp only [Bool.or_eq_true, not_or, Bool.not_eq_true] at hz
      obtain ⟨hzA, hzB⟩ := hz
      have hu0 := u64_pos
      have hu1 := u64_lt_one
      have hv0 := u32_pos
      have hv1 := u32_lt_one
      obtain ⟨p1, p2, p3⟩ := products_facts a b ha hb
      obtain ⟨a1, a2, a3⟩ := squares_facts a ha
      obtain ⟨b1, b2, b3⟩ := squares_facts b hb
      have hPlen : (List.zipWith mul32 a b).length = a.length := by
        rw [List.length_zipWith, ← hl, min_self]
      have hAlen : (a.map (fun t => mul32 t t)).length = a.length := List.length_map _ _
      have hBlen : (b.map (fun t => mul32 t t)).length = a.length := by
        rw [List.length_map, hl]
      have hbn : b.length ≤ 2 ^ 20 := by rw [← hl]; exact hn
      obtain ⟨dG, d2, _, _⟩ := accumulate_facts (List.zipWith mul32 a b) p1
        (by rw [hPlen]; exact hn) p3
      obtain ⟨aG, _, aHi, aLo⟩ := accumulate_facts (a.map (fun t => mul32 t t))
        (fun w hw => (a1 w hw).1) (by rw [hAlen]; exact hn) (by rw [hAlen]; exact a3)
      obtain ⟨bG, _, bHi, bLo⟩ := accumulate_facts (b.map (fun t => mul32 t t))
        (fun w hw => (b1 w hw).1) (by rw [hBlen]; exact hn)
        (by rw [List.length_map]; exact b3)
      have aLo' := aLo (fun w hw => (a1 w hw).2)
      have bLo' := bLo (fun w hw => (b1 w hw).2)
      rw [hPlen] at d2
      rw [hAlen] at aLo'
      rw [hBlen] at bLo'
      obtain ⟨cT, cA, cB, cs⟩ := cauchy_schwarz_lists (a.map GoFloat.val) (b.map GoFloat.val)
      set dot := (List.zipWith mul32 a b).foldl add64 zero64
      set nA := (a.map (fun t => mul32 t t)).foldl add64 zero64
      set nB := (b.map (fun t => mul32 t t)).foldl add64 zero64
      set T := (List.zipWith (fun x y => |x * y|) (a.map GoFloat.val) (b.map GoFloat.val)).sum
      set SA := ((a.map GoFloat.val).map (fun x => x * x)).sum
      set SB := ((b.map GoFloat.val).map (fun y => y * y)).sum
      set pw := (1 - u64) ^ a.length with hpw
      have hpw0 : 0 < pw := pow_pos (by linarith) _
      have h1v : 0 < 1 - u32 := by linarith
      -- the three bounds
      have hd : |dot.val| * ((1 - u32) * pw) ≤ T := by
        calc |dot.val| * ((1 - u32) * pw) = (|dot.val| * pw) * (1 - u32) := by ring
          _ ≤ ((List.zipWith mul32 a b).map (fun w => |w.val|)).sum * (1 - u32) :=
            mul_le_mul_of_nonneg_right d2 h1v.le
          _ ≤ T := p2
      have hA : SA * ((1 - u32) * pw) ≤ nA.val := by
        calc SA * ((1 - u32) * pw) = (SA * (1 - u32)) * pw := by ring
          _ ≤ ((a.map (fun t => mul32 t t)).map (fun w => w.val)).sum * pw :=
            mul_le_mul_of_nonneg_right a2 hpw0.le
          _ ≤ nA.val := aLo'
      have hB : SB * ((1 - u32) * pw) ≤ nB.val := by
        calc SB * ((1 - u32) * pw) = (SB * (1 - u32)) * pw := by ring
          _ ≤ ((b.map (fun t => mul32 t t)).map (fun w => w.val)).sum * pw :=
            mul_le_mul_of_nonneg_right b2 hpw0.le
          _ ≤ nB.val := bLo'
      have hw0 : 0 ≤ (1 - u32) * pw := mul_nonneg h1v.le hpw0.le
      have hA0 : 0 ≤ nA.val := le_trans (mul_nonneg cA hw0) hA
      have hB0 : 0 ≤ nB.val := le_trans (mul_nonneg cB hw0) hB
      have hcs : (|dot.val| * ((1 - u32) * pw) ^ 2) ^ 2 ≤ nA.val * nB.val := by
        have h1 : (|dot.val| * ((1 - u32) * pw)) ^ 2 ≤ T ^ 2 :=
          pow_le_pow_left₀ (mul_nonneg (abs_nonneg _) hw0) hd 2
        calc (|dot.val| * ((1 - u32) * pw) ^ 2) ^ 2
            = (|dot.val| * ((1 - u32) * pw)) ^ 2 * ((1 - u32) * pw) ^ 2 := by ring
          _ ≤ T ^ 2 * ((1 - u32) * pw) ^ 2 := mul_le_mul_of_nonneg_right h1 (sq_nonneg _)
          _ ≤ (SA * SB) * ((1 - u32) * pw) ^ 2 := mul_le_mul_of_nonneg_right cs (sq_nonneg _)
          _ = (SA * ((1 - u32) * pw)) * (SB * ((1 - u32) * pw)) := by ring
          _ ≤ nA.val * nB.val := mul_le_mul hA hB (mul_nonneg cB hw0) hA0
      have hAhi : nA.val ≤ (2 : ℚ) ^ (122 : Int) := le_trans (le_abs_self _) aHi
      have hBhi : nB.val ≤ (2 : ℚ) ^ (122 : Int) := le_trans (le_abs_self _) bHi
      obtain ⟨q1, q2, q3⟩ := quotient_bound dot nA nB ((1 - u32) * pw) (slack a.length hn)
        dG aG bG hA0 hB0 hAhi hBhi hzA hzB hcs
      exact ⟨(le_iff_key _ (.fin false 1048577 (-20)) q1 rfl).mpr q2,
        (le_iff_key (.fin true 1048577 (-20)) _ rfl q1).mpr q3⟩
  · unfold CosineSimilarity
    rw [if_pos hl]
    exact hzero

set_option maxRecDepth 200000 in
/-- Witness of the amended C4: the vector `[1, 1, 1]` against itself. -/
theorem cosine_bounded_in_range_witness :
    (∀ x ∈ [GoFloat.fin false 1 0, .fin false 1 0, .fin false 1 0], inRange x = true) ∧
    GoFloat.le (CosineSimilarity [.fin false 1 0, .fin false 1 0, .fin false 1 0]
      [.fin false 1 0, .fin false 1 0, .fin false 1 0]) (.fin false 1048577 (-20)) = true ∧
    GoFloat.le (.fin true 1048577 (-20))
      (CosineSimilarity [.fin false 1 0, .fin false 1 0, .fin false 1 0]
        [.fin false 1 0, .fin false 1 0, .fin false 1 0]) = true :=
  ⟨by decide, cosine_bounded_in_range [.fin false 1 0, .fin false 1 0, .fin false 1 0]
    [.fin false 1 0, .fin false 1 0, .fin false 1 0] (by decide) (by decide) (by decide)⟩

set_option maxRecDepth 200000 in
/-- C4 fails: for `a = b = [1, 1, 1]` the three sums are `3`, the product of
the two rounded square roots is `3 - 2^(-51)`, and the quotient is
`1 + 2^(-52)`, which is above `1`. -/
theorem cosine_above_one :
    CosineSimilarity [.fin false 1 0, .fin false 1 0, .fin false 1 0]
      [.fin false 1 0, .fin false 1 0, .fin false 1 0] = .fin false 4503599627370497 (-52) ∧
    ¬ (GoFloat.le (.fin true 1 0)
        (CosineSimilarity [.fin false 1 0, .fin false 1 0, .fin false 1 0]
          [.fin false 1 0, .fin false 1 0, .fin false 1 0]) = true ∧
      GoFloat.le (CosineSimilarity [.fin false 1 0, .fin false 1 0, .fin false 1 0]
          [.fin false 1 0, .fin false 1 0, .fin false 1 0]) (.fin false 1 0) = true) := by
  decide

set_option maxRecDepth 200000 in
/-- Outside the range of the amended C4 the result can be far from `[-1, 1]`:
for the `float32` component `14261069 * 2^(-98)` (about `4.5e-23`) the square
underflows to the smallest subnormal, and the similarity with `[1]` is above
`1.2`. -/
theorem cosine_underflow_sample :
    GoFloat.lt (f64const 6 5)
      (CosineSimilarity [.fin false 14261069 (-98)] [.fin false 1 0]) = true := by
  decide

set_option maxRecDepth 200000 in
/-- Outside the range of the amended C4 the result can be NaN: for the
`float32` component `6617445 * 2^77` (about `1e30`) the product overflows, the
square roots of the norms are `+Inf`, and the quotient is `Inf / Inf`. -/
theorem cosine_overflow_sample :
    CosineSimilarity [.fin false 6617445 77] [.fin false 6617445 77] = .nan := by
  decide

/-! ## Lower bounds of sums -/

theorem le_facts {x y : GoFloat} (h : GoFloat.le x y = true) :
    x.isNaN = false ∧ y.isNaN = false ∧ x.key ≤ y.key := by
  have hx : x.isNaN = false := by cases x <;> simp_all [GoFloat.le, GoFloat.isNaN]
  have hy : y.isNaN = false := by cases y <;> simp_all [GoFloat.le, GoFloat.isNaN]
  exact ⟨hx, hy, (le_iff_key x y hx hy).1 h⟩

theorem le_of_below {x y : GoFloat} (h : x.below y) (hx : x.isNaN = false)
    (hy : y.isNaN = false) : GoFloat.le x y = true := by
  rcases h with h | h | h
  · rw [hx] at h
    cases h
  · rw [hy] at h
    cases h
  · exact (le_iff_key x y hx hy).2 h

theorem below_of_le {x y : GoFloat} (h : GoFloat.le x y = true) : x.below y :=
  Or.inr (Or.inr (le_facts h).2.2)

theorem le_trans_float {x y z : GoFloat} (h1 : GoFloat.le x y = true)
    (h2 : GoFloat.le y z = true) : GoFloat.le x z = true := by
  obtain ⟨hx, hy, hxy⟩ := le_facts h1
  obtain ⟨_, hz, hyz⟩ := le_facts h2
  exact (le_iff_key x z hx hz).2 (le_trans hxy hyz)

theorem lt_of_lt_of_le_float {x y z : GoFloat} (h1 : GoFloat.lt x y = true)
    (h2 : GoFloat.le y z = true) : GoFloat.lt x z = true := by
  obtain ⟨hx, hy⟩ := lt_not_nan h1
  obtain ⟨_, hz, hyz⟩ := le_facts h2
  exact (lt_iff_key x z hx hz).2 (lt_of_lt_of_le ((lt_iff_key x y hx hy).1 h1) hyz)

theorem not_neg_inf_of_le {lo x : GoFloat} (h : GoFloat.le lo x = true)
    (hlo : lo ≠ .inf true) : x ≠ .inf true := by
  cases lo <;> cases x <;> simp_all [GoFloat.le, GoFloat.lt, GoFloat.isNaN]

theorem add_not_nan (f : Format) {x y : GoFloat} (hx : x.isNaN = false) (hx' : x ≠ .inf true)
    (hy : y.isNaN = false) (hy' : y ≠ .inf true) : (GoFloat.add f x y).isNaN = false := by
  cases x with
  | nan => simp [GoFloat.isNaN] at hx
  | inf a =>
    cases y with
    | nan => simp [GoFloat.isNaN] at hy
    | inf b =>
      have ha : a = false := by cases a <;> simp_all
      have hb : b = false := by cases b <;> simp_all
      subst ha hb
      simp [GoFloat.add, GoFloat.isNaN]
    | fin n m e => simp [GoFloat.add, GoFloat.isNaN]
  | fin n1 m1 e1 =>
    cases y with
    | nan => simp [GoFloat.isNaN] at hy
    | inf b => simp [GoFloat.add, GoFloat.isNaN]
    | fin n2 m2 e2 =>
      simp only [GoFloat.add]
      split_ifs <;> first | exact roundTo_not_nan _ _ _ _ _ | rfl

theorem mul_pos_not_nan (f : Format) {x : GoFloat} (m : Nat) (e : Int) (hm : 0 < m)
    (hx : x.isNaN = false) : (GoFloat.mul f x (.fin false m e)).isNaN = false := by
  cases x with
  | nan => simp [GoFloat.isNaN] at hx
  | inf a =>
    simp only [GoFloat.mul]
    rw [if_neg (by omega)]
    rfl
  | fin n1 m1 e1 => exact roundTo_not_nan _ _ _ _ _

theorem div_pos_not_nan (f : Format) {x : GoFloat} (m : Nat) (e : Int) (hm : 0 < m)
    (hx : x.isNaN = false) : (GoFloat.div f x (.fin false m e)).isNaN = false := by
  cases x with
  | nan => simp [GoFloat.isNaN] at hx
  | inf a => rfl
  | fin n1 m1 e1 =>
    simp only [GoFloat.div]
    rw [if_neg (by omega)]
    exact roundTo_not_nan _ _ _ _ _

theorem add_le {lo1 lo2 x y : GoFloat} (h1 : GoFloat.le lo1 x = true)
    (h2 : GoFloat.le lo2 y = true) (n1 : lo1 ≠ .inf true) (n2 : lo2 ≠ .inf true) :
    GoFloat.le (add64 lo1 lo2) (add64 x y) = true := by
  obtain ⟨a1, b1, _⟩ := le_facts h1
  obtain ⟨a2, b2, _⟩ := le_facts h2
  exact le_of_below (add_below binary64 (by decide) (below_of_le h1) (below_of_le h2))
    (add_not_nan _ a1 n1 a2 n2)
    (add_not_nan _ b1 (not_neg_inf_of_le h1 n1) b2 (not_neg_inf_of_le h2 n2))

theorem mul_le {lo x : GoFloat} (m : Nat) (e : Int) (hm : 0 < m)
    (h : GoFloat.le lo x = true) :
    GoFloat.le (mul64 lo (.fin false m e)) (mul64 x (.fin false m e)) = true := by
  obtain ⟨a, b, _⟩ := le_facts h
  exact le_of_below (mul_below binary64 (by decide) m e hm (below_of_le h))
    (mul_pos_not_nan _ m e hm a) (mul_pos_not_nan _ m e hm b)

theorem ofInt_le {n n' : Nat} (h : n ≤ n') :
    GoFloat.le (ofInt (n : Int)) (ofInt (n' : Int)) = true :=
  le_of_below (ofInt_below h) (roundTo_not_nan _ _ _ _ _) (roundTo_not_nan _ _ _ _ _)

theorem lengthScore_not_nan (s : List Char) : (lengthScore s).isNaN = false := by
  unfold lengthScore
  rw [const_500, const_2]
  exact (key_mathMin _ _ _ _
    (div_pos_not_nan binary64 125 2 (by norm_num) (roundTo_not_nan _ _ _ _ _))).1

theorem lengthScore_ge (s : List Char) : GoFloat.le zero64 (lengthScore s) = true := by
  have h := @lengthScore_below [] s (Nat.zero_le _)
  have e : lengthScore [] = zero64 := by decide
  rw [e] at h
  exact le_of_below h rfl (lengthScore_not_nan s)

theorem lengthScore_le (s : List Char) :
    GoFloat.le (lengthScore s) (.fin false 1 1) = true := by
  have hn := lengthScore_not_nan s
  rw [le_iff_key (lengthScore s) (.fin false 1 1) hn rfl]
  have hd : (div64 (ofInt (len s : Int)) (.fin false 125 2)).isNaN = false :=
    div_pos_not_nan binary64 125 2 (by norm_num) (roundTo_not_nan _ _ _ _ _)
  unfold lengthScore
  rw [const_500, const_2, (key_mathMin _ false 1 1 hd).2]
  exact min_le_right _ _

theorem densityBoost_ge (p c : Nat) : GoFloat.le zero64 (densityBoost p c) = true := by
  unfold densityBoost
  split_ifs <;> decide

/-- A lower bound of the weighted sum from lower bounds of its arguments; the
partial sums of the lower bounds must not overflow to `-Inf`. -/
theorem weightedSum_ge {lo base l0 l d0 d : GoFloat} (q0 p0 c0 : Nat) {q p c : Nat}
    (hb : GoFloat.le lo base = true) (hq : q0 ≤ q) (hp : p0 ≤ p) (hc : c0 ≤ c)
    (hl : GoFloat.le l0 l = true) (hd : GoFloat.le d0 d = true)
    (hs : mul64 lo (f64const 1 10) ≠ .inf true ∧
      mul64 (ofInt q0) (f64const 2 1) ≠ .inf true ∧
      add64 (mul64 lo (f64const 1 10)) (mul64 (ofInt q0) (f64const 2 1)) ≠ .inf true ∧
      mul64 (ofInt p0) (f64const 3 2) ≠ .inf true ∧
      add64 (add64 (mul64 lo (f64const 1 10)) (mul64 (ofInt q0) (f64const 2 1)))
        (mul64 (ofInt p0) (f64const 3 2)) ≠ .inf true ∧
      mul64 (ofInt c0) (f64const 1 1) ≠ .inf true ∧
      add64 (add64 (add64 (mul64 lo (f64const 1 10)) (mul64 (ofInt q0) (f64const 2 1)))
        (mul64 (ofInt p0) (f64const 3 2))) (mul64 (ofInt c0) (f64const 1 1)) ≠ .inf true ∧
      mul64 l0 (f64const 3 10) ≠ .inf true ∧
      add64 (add64 (add64 (add64 (mul64 lo (f64const 1 10)) (mul64 (ofInt q0) (f64const 2 1)))
        (mul64 (ofInt p0) (f64const 3 2))) (mul64 (ofInt c0) (f64const 1 1)))
        (mul64 l0 (f64const 3 10)) ≠ .inf true ∧
      d0 ≠ .inf true) :
    GoFloat.le (weightedSum lo q0 p0 c0 l0 d0) (weightedSum base q p c l d) = true := by
  obtain ⟨h1, h2, h3, h4, h5, h6, h7, h8, h9, h10⟩ := hs
  unfold weightedSum
  rw [const_1_10, const_2, const_3_2, const_1, const_3_10] at *
  refine add_le (add_le (add_le (add_le (add_le ?_ ?_ h1 h2) ?_ h3 h4) ?_ h5 h6) ?_ h7 h8) hd h9 h10
  · exact mul_le _ _ (by norm_num) hb
  · exact mul_le _ _ (by norm_num) (ofInt_le hq)
  · exact mul_le _ _ (by norm_num) (ofInt_le hp)
  · exact mul_le _ _ (by norm_num) (ofInt_le hc)
  · exact mul_le _ _ (by norm_num) hl

/-- The weighted sum does not decrease when the base score, the length score
and the density boost do not decrease. -/
theorem weightedSum_below_base {base base' l l' d d' : GoFloat} (q p c : Nat)
    (hb : base.below base') (hl : l.below l') (hd : d.below d') :
    (weightedSum base q p c l d).below (weightedSum base' q p c l' d') := by
  unfold weightedSum add64 mul64
  rw [const_1_10, const_2, const_3_2, const_1, const_3_10]
  have h64 : 0 < binary64.prec := by decide
  refine add_below _ h64 (add_below _ h64 (add_below _ h64 (add_below _ h64 (add_below _ h64
    ?_ (below_refl _)) (below_refl _)) (below_refl _)) ?_) hd
  · exact mul_below _ h64 _ _ (by norm_num) hb
  · exact mul_below _ h64 _ _ (by norm_num) hl

theorem finalScore_eq (tbl : Char → Char) (q : List GoFloat) (kws : List (List Char))
    (d : Document) :
    finalScore tbl q kws d =
      weightedSum (CosineSimilarity q d.Vector)
        (queryKeywordHits tbl (ToLower tbl d.Content) kws)
        (fixedHits (ToLower tbl d.Content) productKeywords)
        (fixedHits (ToLower tbl d.Content) companyKeywords) (lengthScore d.Content)
        (densityBoost (fixedHits (ToLower tbl d.Content) productKeywords)
          (fixedHits (ToLower tbl d.Content) companyKeywords)) := rfl

set_option maxRecDepth 200000 in
/-- With a base score of at least `-(1 + 2^(-20))`, a document with a hit
scores at least `0.899999`. -/
theorem finalScore_ge_of_hit (tbl : Char → Char) (q : List GoFloat) (kws : List (List Char))
    (d : Document)
    (hb : GoFloat.le (.fin true 1048577 (-20)) (CosineSimilarity q d.Vector) = true)
    (hh : hasHit tbl kws d = true) :
    GoFloat.le (f64const 899999 1000000) (finalScore tbl q kws d) = true := by
  rw [finalScore_eq]
  simp only [hasHit, keywordHits, decide_eq_true_eq] at hh
  have hl := lengthScore_ge d.Content
  have hd := densityBoost_ge (fixedHits (ToLower tbl d.Content) productKeywords)
    (fixedHits (ToLower tbl d.Content) companyKeywords)
  have hcases : 1 ≤ queryKeywordHits tbl (ToLower tbl d.Content) kws ∨
      1 ≤ fixedHits (ToLower tbl d.Content) productKeywords ∨
      1 ≤ fixedHits (ToLower tbl d.Content) companyKeywords := by omega
  rcases hcases with h | h | h
  · exact le_trans_float (by decide)
      (weightedSum_ge 1 0 0 hb h (Nat.zero_le _) (Nat.zero_le _) hl hd
        (by decide))
  · exact le_trans_float (by decide)
      (weightedSum_ge 0 1 0 hb (Nat.zero_le _) h (Nat.zero_le _) hl hd
        (by decide))
  · exact le_trans_float (by decide)
      (weightedSum_ge 0 0 1 hb (Nat.zero_le _) (Nat.zero_le _) h hl hd
        (by decide))

set_option maxRecDepth 200000 in
/-- With a base score that is a number of at most `1 + 2^(-20)` and at least
`-(1 + 2^(-20))`, a document without a hit scores at most `0.700001`. -/
theorem finalScore_le_of_no_hit (tbl : Char → Char) (q : List GoFloat)
    (kws : List (List Char)) (d : Document) (hb : baseInRange q d = true)
    (hh : hasHit tbl kws d = false) :
    GoFloat.le (finalScore tbl q kws d) (f64const 700001 1000000) = true := by
  simp only [baseInRange, Bool.and_eq_true] at hb
  rw [finalScore_eq]
  simp only [hasHit, keywordHits, decide_eq_false_iff_not, not_lt, Nat.le_zero_eq] at hh
  have hq : queryKeywordHits tbl (ToLower tbl d.Content) kws = 0 := by omega
  have hp : fixedHits (ToLower tbl d.Content) productKeywords = 0 := by omega
  have hc : fixedHits (ToLower tbl d.Content) companyKeywords = 0 := by omega
  rw [hq, hp, hc]
  have hlo : GoFloat.le (weightedSum (.fin true 1048577 (-20)) 0 0 0 zero64 zero64)
      (weightedSum (CosineSimilarity q d.Vector) 0 0 0 (lengthScore d.Content)
        (densityBoost 0 0)) = true :=
    weightedSum_ge 0 0 0 hb.1 (le_refl _) (le_refl _) (le_refl _) (lengthScore_ge _)
      (densityBoost_ge 0 0) (by decide)
  have hhi : (weightedSum (CosineSimilarity q d.Vector) 0 0 0 (lengthScore d.Content)
      (densityBoost 0 0)).below
      (weightedSum (.fin false 1048577 (-20)) 0 0 0 (.fin false 1 1) (densityBoost 0 0)) :=
    weightedSum_below_base 0 0 0 (below_of_le hb.2) (below_of_le (lengthScore_le _))
      (below_refl _)
  exact le_trans_float (le_of_below hhi (le_facts hlo).2.1 (by decide)) (by decide)

/-- C11, as amended. For every sorting routine that meets the contract of
`sort.Slice`, every query vector and keyword list, and every store in which
the base score `CosineSimilarity(queryVector, doc.Vector)` of each document is
a number between `-(1 + 2^(-20))` and `1 + 2^(-20)`: a document with at least
one hit has a `finalScore` of at least `0.899999` and passes the threshold
`0.1`, a document with no hit has a `finalScore` of at most `0.700001`, and in
the result of `SearchWithKeywords` no document without a hit comes before a
document with a hit. -/
theorem lexical_dominance_in_base_range
    (srt : (result → result → Bool) → List result → List result) (hsrt : SortSliceSpec srt)
    (tbl : Char → Char) (s : Store) (q : List GoFloat) (kws : List (List Char))
    (hb : ∀ d ∈ s.Data, baseInRange q d = true) :
    (∀ d ∈ s.Data, hasHit tbl kws d = true →
      GoFloat.le (f64const 899999 1000000) (finalScore tbl q kws d) = true ∧
        passes tbl q kws d = true) ∧
    (∀ d ∈ s.Data, hasHit tbl kws d = false →
      GoFloat.le (finalScore tbl q kws d) (f64const 700001 1000000) = true) ∧
    (SearchWithKeywords srt tbl s q kws).Pairwise
      (fun d1 d2 => hasHit tbl kws d2 = true → hasHit tbl kws d1 = true) := by
  have hlow : ∀ d ∈ s.Data, hasHit tbl kws d = true →
      GoFloat.le (f64const 899999 1000000) (finalScore tbl q kws d) = true := by
    intro d hd hh
    have h := hb d hd
    simp only [baseInRange, Bool.and_eq_true] at h
    exact finalScore_ge_of_hit tbl q kws d h.1 hh
  refine ⟨?_, ?_, ?_⟩
  · intro d hd hh
    refine ⟨hlow d hd hh, ?_⟩
    have h01 : GoFloat.lt (f64const 1 10) (f64const 899999 1000000) = true := by decide
    exact lt_of_lt_of_le_float h01 (hlow d hd hh)
  · intro d hd hh
    exact finalScore_le_of_no_hit tbl q kws d (hb d hd) hh
  · obtain ⟨hperm, hsorted⟩ := sorted_results hsrt tbl q kws s.Data
    simp only [SearchWithKeywords]
    rw [List.pairwise_map]
    refine List.Pairwise.imp_of_mem ?_ (hsorted.sublist (List.take_sublist 20 _))
    intro x y hx hy hle hhy
    have hxd := (mem_results (hperm.subset (List.mem_of_mem_take hx))).1
    have hyd := (mem_results (hperm.subset (List.mem_of_mem_take hy))).1
    cases hhx : hasHit tbl kws x.doc
    · exfalso
      have h1 := hlow y.doc hyd hhy
      have h2 := finalScore_le_of_no_hit tbl q kws x.doc (hb x.doc hxd) hhx
      have h3 := le_trans_float (le_trans_float h1 hle) h2
      revert h3
      decide
    · rfl

set_option maxRecDepth 200000 in
/-- Witness of the amended C11: the reference routine on `sampleStore`, for
the query vector `(1, 1, 1)` and the keyword `juros`; the base scores are
`1 + 2^(-52)`, `-(1 + 2^(-52))` and `0`. -/
theorem lexical_dominance_in_base_range_witness :
    (∀ d ∈ sampleStore.Data,
      baseInRange [.fin false 1 0, .fin false 1 0, .fin false 1 0] d = true) ∧
    ((∀ d ∈ sampleStore.Data, hasHit id ["juros".toList] d = true →
      GoFloat.le (f64const 899999 1000000)
        (finalScore id [.fin false 1 0, .fin false 1 0, .fin false 1 0]
          ["juros".toList] d) = true ∧
        passes id [.fin false 1 0, .fin false 1 0, .fin false 1 0] ["juros".toList] d = true) ∧
    (∀ d ∈ sampleStore.Data, hasHit id ["juros".toList] d = false →
      GoFloat.le (finalScore id [.fin false 1 0, .fin false 1 0, .fin false 1 0]
        ["juros".toList] d) (f64const 700001 1000000) = true) ∧
    (SearchWithKeywords referenceSort id sampleStore
      [.fin false 1 0, .fin false 1 0, .fin false 1 0] ["juros".toList]).Pairwise
      (fun d1 d2 => hasHit id ["juros".toList] d2 = true →
        hasHit id ["juros".toList] d1 = true)) :=
  ⟨by decide, lexical_dominance_in_base_range referenceSort referenceSort_spec id sampleStore
    [.fin false 1 0, .fin false 1 0, .fin false 1 0] ["juros".toList] (by decide)⟩

set_option maxRecDepth 200000 in
/-- C11 fails on `underflowStore` with the query vector `underflowQuery`: the
squares of the query components underflow in `float32`, `normA` is `2^(-149)`
instead of about `2^(-143)`, and the base scores are about `-5.66` and `5.66`.
The passage with a hit scores about `0.437`, below `0.9`, the passage without a
hit scores about `0.569`, and `SearchWithKeywords` returns the passage without
a hit first. -/
theorem search_ranks_no_hit_before_hit :
    underflowStore.Data.map (hasHit id []) = [true, false] ∧
    underflowStore.Data.map (finalScore id underflowQuery []) =
      [.fin false 7867150389863505 (-54), .fin false 5122262935784841 (-53)] ∧
    underflowStore.Data.map
      (fun d => GoFloat.le (f64const 9 10) (finalScore id underflowQuery [] d)) =
      [false, false] ∧
    (SearchWithKeywords sortSlice id underflowStore underflowQuery []).map (fun d => d.ID) =
      [docID 1, docID 0] := by
  decide

set_option maxRecDepth 200000 in
/-- A hit does not help when the base score is NaN: for the `float32`
component `6617445 * 2^77` (about `1e30`) in both vectors, the passage `pix`
has two hits for the keyword `pix`, its `finalScore` is NaN, it fails the test
`finalScore > 0.1`, and the search returns nothing. -/
theorem hit_with_nan_score_is_dropped :
    hasHit id ["pix".toList] ⟨docID 0, "pix".toList, [], [.fin false 6617445 77]⟩ = true ∧
    finalScore id [.fin false 6617445 77] ["pix".toList]
      ⟨docID 0, "pix".toList, [], [.fin false 6617445 77]⟩ = .nan ∧
    passes id [.fin false 6617445 77] ["pix".toList]
      ⟨docID 0, "pix".toList, [], [.fin false 6617445 77]⟩ = false ∧
    SearchWithKeywords sortSlice id
      ⟨[⟨docID 0, "pix".toList, [], [.fin false 6617445 77]⟩]⟩
      [.fin false 6617445 77] ["pix".toList] = [] := by
  decide

end ChatBotCW
